import Mathlib

set_option maxRecDepth 10000

/-!
Verification of the noahong Aho-Corasick core (src/array-aho.cpp, src/array-aho.h,
and the Cython binding noaho.pyx).

Conventions of the embedding:
* bytes (`AC_CHAR_TYPE = uint8`) are `Nat`,
* node indices (`Node::Index = int`, with `-1` marking "no child") are `Int`,
* payloads (`PayloadT = int32`) are `Int`,
* the parallel arrays of the frozen trie are Lean lists,
* the unbounded failure-resolution loops of the scanners take explicit fuel
  (`nodes.length` suffices on a compiled trie, where every failure chain
  reaches the root and the root resolves every byte).
-/

/-- Error kinds of the spec's taxonomy that the claims mention. -/
inductive TrieError where
  | InvalidInput
  | BuildState
  | OutOfRange
  | FormatError
  | NegativeIndex
  deriving DecidableEq, Repr

/-- `std::lower_bound` over a list of byte values: index of the first element
    not less than `c`; the list length plays the role of the `end` iterator. -/
def lowerBoundIdx (l : List Nat) (c : Nat) : Nat := l.findIdx (fun x => decide (c ≤ x))

/-- The packed per-node record of the frozen trie (struct FrozenNode). -/
structure FrozenNode where
  chars_offset : Nat
  ifailure_state : Int
  chars_count : Nat
  length : Nat
  deriving DecidableEq, Repr, Inhabited

/-- FrozenNode::child_at: binary search for byte `c` in this node's slice of the
    packed `chars` array; the matching position indexes the parallel `indices`
    array; `-1` when the byte is not a child. -/
def FrozenNode.child_at (n : FrozenNode) (chars : List Nat) (indices : List Int)
    (c : Nat) : Int :=
  let slice := (chars.drop n.chars_offset).take n.chars_count
  let j := lowerBoundIdx slice c
  if j = slice.length ∨ slice.getD j 0 ≠ c then -1
  else indices.getD (n.chars_offset + j) (-1)

/-- The frozen trie: parallel packed arrays (class FrozenTrie). -/
structure FrozenTrie where
  nodes : List FrozenNode
  chars : List Nat
  indices : List Int
  payloads : List (Int × Int)
  deriving DecidableEq, Repr

def FrozenTrie.nodeAt (t : FrozenTrie) (i : Int) : FrozenNode :=
  t.nodes.getD i.toNat default

def FrozenTrie.lengthAt (t : FrozenTrie) (i : Int) : Nat :=
  (t.nodeAt i).length

def FrozenTrie.failOf (t : FrozenTrie) (i : Int) : Int :=
  (t.nodeAt i).ifailure_state

def FrozenTrie.rawChildAt (t : FrozenTrie) (i : Int) (c : Nat) : Int :=
  (t.nodeAt i).child_at t.chars t.indices c

/-- FrozenTrie::child_at: the root is a special case, every byte that is not an
    actual child of the root points back to the root. -/
def FrozenTrie.child_at (t : FrozenTrie) (i : Int) (c : Nat) : Int :=
  let ichild := t.rawChildAt i c
  if ichild < 0 ∧ i = 0 then 0 else ichild

/-- FrozenTrie::payload_at: `lower_bound` in the payload table, which is sorted
    by node index; `-1` for the root, negative indices, and absent entries. -/
def FrozenTrie.payload_at (t : FrozenTrie) (i : Int) : Int :=
  if i ≤ 0 then -1
  else
    match t.payloads.find? (fun p => decide (i ≤ p.1)) with
    | some p => if p.1 = i then p.2 else -1
    | none => -1

/-- The failure-resolution loop shared by find_short and (when no candidate is
    held) find_longest:
    `while (ichild < 0) { istate = nodes[istate].ifailure_state; ichild = child_at(istate, c); }`.
    Fuel bounds the number of failure-link steps; `none` models the C++ loop
    never terminating (impossible on a compiled trie). -/
def FrozenTrie.nextState (t : FrozenTrie) : Nat → Int → Nat → Option Int
  | fuel, istate, c =>
    let ichild := t.child_at istate c
    if 0 ≤ ichild then some ichild
    else
      match fuel with
      | 0 => none
      | fuel' + 1 => t.nextState fuel' (t.failOf istate) c

/-- Iterated failure link. -/
def FrozenTrie.failIter (t : FrozenTrie) : Nat → Int → Int
  | 0, i => i
  | k + 1, i => t.failIter k (t.failOf i)

/-- Well-formedness of a compiled automaton: from any state the failure chain
    reaches the root within `nodes.length` steps.  This holds for every trie
    produced by AhoCorasickTrie::compile (make_failure_links starts from the
    root, whose failure state is itself). -/
def FrozenTrie.FailOk (t : FrozenTrie) : Prop :=
  ∀ i : Int, ∃ k, k ≤ t.nodes.length ∧ t.failIter k i = 0

theorem FrozenTrie.child_at_root_nonneg (t : FrozenTrie) (c : Nat) :
    0 ≤ t.child_at 0 c := by
  unfold FrozenTrie.child_at
  by_cases h : t.rawChildAt 0 c < 0 ∧ (0 : Int) = 0
  · simp [h]
  · simp only [if_neg h]
    omega

theorem FrozenTrie.failIter_succ (t : FrozenTrie) (k : Nat) (i : Int) :
    t.failIter (k + 1) i = t.failIter k (t.failOf i) := rfl

theorem FrozenTrie.nextState_some_of_chain (t : FrozenTrie) (c : Nat) :
    ∀ k fuel (i : Int), t.failIter k i = 0 → k ≤ fuel →
      ∃ st, t.nextState fuel i c = some st ∧ 0 ≤ st := by
  intro k
  induction k with
  | zero =>
    intro fuel i h0 _
    subst h0
    refine ⟨t.child_at 0 c, ?_, t.child_at_root_nonneg c⟩
    unfold FrozenTrie.nextState
    simp [t.child_at_root_nonneg c]
  | succ k ih =>
    intro fuel i hchain hle
    by_cases hc : 0 ≤ t.child_at i c
    · refine ⟨t.child_at i c, ?_, hc⟩
      unfold FrozenTrie.nextState
      simp [hc]
    · obtain ⟨fuel', rfl⟩ : ∃ fuel', fuel = fuel' + 1 := ⟨fuel - 1, by omega⟩
      rw [FrozenTrie.failIter_succ] at hchain
      obtain ⟨st, hst, hpos⟩ := ih fuel' (t.failOf i) hchain (by omega)
      refine ⟨st, ?_, hpos⟩
      unfold FrozenTrie.nextState
      simp [hc, hst]

theorem FrozenTrie.nextState_some (t : FrozenTrie) (h : t.FailOk) (i : Int) (c : Nat) :
    ∃ st, t.nextState t.nodes.length i c = some st ∧ 0 ≤ st := by
  obtain ⟨k, hk, hchain⟩ := h i
  exact t.nextState_some_of_chain c k t.nodes.length i hchain hk

/-- Automaton state after consuming a list of bytes from state `i`, resolving
    failures with `nodes.length` fuel at each step. -/
def FrozenTrie.scanFrom (t : FrozenTrie) (i : Int) : List Nat → Option Int
  | [] => some i
  | c :: rest =>
    match t.nextState t.nodes.length i c with
    | none => none
    | some st => t.scanFrom st rest

/-- Automaton state from the root after the first `k` bytes of `cs`. -/
def FrozenTrie.stateAfter (t : FrozenTrie) (cs : List Nat) (k : Nat) : Option Int :=
  t.scanFrom 0 (cs.take k)

/-- Whether position `k` of the scanned suffix is a find_short hit: the state
    reached after `k + 1` bytes has a non-zero key length that fits in the
    window `k + 1`. -/
def FrozenTrie.hitAt (t : FrozenTrie) (cs : List Nat) (k : Nat) : Bool :=
  match t.stateAfter cs (k + 1) with
  | some st => decide (t.lengthAt st ≠ 0 ∧ t.lengthAt st ≤ k + 1)
  | none => false

/-- Loop body of FrozenTrie::find_short (array-aho.cpp:376-399).  `k` counts the
    bytes consumed so far relative to the scan start, so `c + 1 - start` in the
    source is `k + 1`; `s0`/`e0` are the values the out-parameters keep when no
    match is committed. -/
def FrozenTrie.findShortGo (t : FrozenTrie) (s0 e0 : Nat) :
    List Nat → Nat → Int → Int × Nat × Nat
  | [], _, _ => (-1, s0, e0)
  | c :: rest, k, istate =>
    match t.nextState t.nodes.length istate c with
    | none => (-1, s0, e0)
    | some st =>
      if t.lengthAt st ≠ 0 ∧ t.lengthAt st ≤ k + 1 then
        (t.payload_at st, s0 + k + 1 - t.lengthAt st, s0 + k + 1)
      else
        t.findShortGo s0 e0 rest (k + 1) st

/-- FrozenTrie::find_short.  Returns `(payload, start, end)`; the out-parameters
    keep their incoming values `s0`, `e0` when no match is found. -/
def FrozenTrie.find_short (t : FrozenTrie) (text : List Nat) (s0 e0 : Nat) :
    Int × Nat × Nat :=
  t.findShortGo s0 e0 (text.drop s0) 0 0

/-- First find_short hit position at or after `k`, searching `n` positions. -/
def FrozenTrie.firstHitFrom (t : FrozenTrie) (cs : List Nat) : Nat → Nat → Option Nat
  | 0, _ => none
  | n + 1, k => if t.hitAt cs k then some k else t.firstHitFrom cs n (k + 1)

/-- First find_short hit position of the scanned suffix, if any. -/
def FrozenTrie.firstHit (t : FrozenTrie) (cs : List Nat) : Option Nat :=
  t.firstHitFrom cs cs.length 0

theorem FrozenTrie.firstHitFrom_some (t : FrozenTrie) (cs : List Nat) :
    ∀ n k j, t.firstHitFrom cs n k = some j →
      t.hitAt cs j = true ∧ k ≤ j ∧ ∀ i, k ≤ i → i < j → t.hitAt cs i = false := by
  intro n
  induction n with
  | zero => intro k j h; simp [FrozenTrie.firstHitFrom] at h
  | succ n ih =>
    intro k j h
    unfold FrozenTrie.firstHitFrom at h
    by_cases hk : t.hitAt cs k = true
    · simp [hk] at h
      subst h
      exact ⟨hk, le_refl _, fun i h1 h2 => absurd (lt_of_le_of_lt h1 h2) (lt_irrefl _)⟩
    · simp [hk] at h
      obtain ⟨hj, hkj, hmin⟩ := ih (k + 1) j h
      refine ⟨hj, by omega, fun i h1 h2 => ?_⟩
      by_cases hik : i = k
      · subst hik; simpa using hk
      · exact hmin i (by omega) h2

theorem FrozenTrie.firstHitFrom_none (t : FrozenTrie) (cs : List Nat) :
    ∀ n k, t.firstHitFrom cs n k = none →
      ∀ i, k ≤ i → i < k + n → t.hitAt cs i = false := by
  intro n
  induction n with
  | zero => intro k _ i h1 h2; omega
  | succ n ih =>
    intro k h i h1 h2
    unfold FrozenTrie.firstHitFrom at h
    by_cases hk : t.hitAt cs k = true
    · simp [hk] at h
    · simp [hk] at h
      by_cases hik : i = k
      · subst hik; simpa using hk
      · exact ih (k + 1) h i (by omega) (by omega)

theorem FrozenTrie.scanFrom_nil (t : FrozenTrie) (i : Int) :
    t.scanFrom i [] = some i := rfl

theorem FrozenTrie.scanFrom_cons (t : FrozenTrie) (i : Int) (c : Nat) (rest : List Nat) :
    t.scanFrom i (c :: rest) =
      match t.nextState t.nodes.length i c with
      | none => none
      | some st => t.scanFrom st rest := rfl

theorem FrozenTrie.scanFrom_append (t : FrozenTrie) (l1 l2 : List Nat) :
    ∀ i, t.scanFrom i (l1 ++ l2) =
      match t.scanFrom i l1 with
      | none => none
      | some s => t.scanFrom s l2 := by
  induction l1 with
  | nil => intro i; rw [List.nil_append, FrozenTrie.scanFrom_nil]
  | cons c rest ih =>
    intro i
    rw [List.cons_append, FrozenTrie.scanFrom_cons, FrozenTrie.scanFrom_cons]
    cases t.nextState t.nodes.length i c with
    | none => rfl
    | some st => exact ih st

theorem FrozenTrie.stateAfter_succ (t : FrozenTrie) (cs : List Nat) (k : Nat)
    (c : Nat) (hc : cs[k]? = some c) :
    t.stateAfter cs (k + 1) =
      match t.stateAfter cs k with
      | none => none
      | some s => t.nextState t.nodes.length s c := by
  unfold FrozenTrie.stateAfter
  rw [List.take_succ, hc]
  rw [show (some c).toList = [c] from rfl]
  rw [t.scanFrom_append (cs.take k) [c] 0]
  cases t.scanFrom 0 (cs.take k) with
  | none => rfl
  | some s =>
    cases h2 : t.nextState t.nodes.length s c with
    | none => simp [FrozenTrie.scanFrom_cons, h2]
    | some st => simp [FrozenTrie.scanFrom_cons, FrozenTrie.scanFrom_nil, h2]

theorem FrozenTrie.findShortGo_cons (t : FrozenTrie) (s0 e0 : Nat) (c : Nat)
    (rest : List Nat) (k : Nat) (istate : Int) :
    t.findShortGo s0 e0 (c :: rest) k istate =
      match t.nextState t.nodes.length istate c with
      | none => (-1, s0, e0)
      | some st =>
        if t.lengthAt st ≠ 0 ∧ t.lengthAt st ≤ k + 1 then
          (t.payload_at st, s0 + k + 1 - t.lengthAt st, s0 + k + 1)
        else
          t.findShortGo s0 e0 rest (k + 1) st := rfl

theorem FrozenTrie.firstHitFrom_succ (t : FrozenTrie) (cs : List Nat) (n k : Nat) :
    t.firstHitFrom cs (n + 1) k =
      if t.hitAt cs k then some k else t.firstHitFrom cs n (k + 1) := rfl

theorem FrozenTrie.findShortGo_eq (t : FrozenTrie) (hwf : t.FailOk) (s0 e0 : Nat)
    (cs : List Nat) :
    ∀ rest k istate, t.stateAfter cs k = some istate → rest = cs.drop k →
      t.findShortGo s0 e0 rest k istate =
        match t.firstHitFrom cs (cs.length - k) k with
        | none => (-1, s0, e0)
        | some j =>
          match t.stateAfter cs (j + 1) with
          | none => (-1, s0, e0)
          | some st => (t.payload_at st, s0 + j + 1 - t.lengthAt st, s0 + j + 1) := by
  intro rest
  induction rest with
  | nil =>
    intro k istate _ h2
    have hlen : cs.length - k = 0 := by
      have := congrArg List.length h2
      simp [List.length_drop] at this
      omega
    rw [hlen]
    simp [FrozenTrie.findShortGo, FrozenTrie.firstHitFrom]
  | cons c rest' ih =>
    intro k istate h1 h2
    have hklen : k < cs.length := by
      have := congrArg List.length h2
      simp [List.length_drop] at this
      omega
    have hck : cs[k]? = some c := by
      have h3 : (cs.drop k)[0]? = some c := by rw [← h2]; simp
      rw [List.getElem?_drop] at h3
      simpa using h3
    have hrest' : rest' = cs.drop (k + 1) := by
      have h4 := congrArg (List.drop 1) h2
      rw [List.drop_drop] at h4
      simpa using h4
    obtain ⟨st, hst, _⟩ := t.nextState_some hwf istate c
    have hsa : t.stateAfter cs (k + 1) = some st := by
      rw [t.stateAfter_succ cs k c hck, h1]
      exact hst
    have hm : cs.length - k = (cs.length - (k + 1)) + 1 := by omega
    rw [hm, FrozenTrie.firstHitFrom_succ]
    have hhit : t.hitAt cs k = decide (t.lengthAt st ≠ 0 ∧ t.lengthAt st ≤ k + 1) := by
      unfold FrozenTrie.hitAt
      rw [hsa]
    by_cases hp : t.lengthAt st ≠ 0 ∧ t.lengthAt st ≤ k + 1
    · have hL : t.findShortGo s0 e0 (c :: rest') k istate =
          (t.payload_at st, s0 + k + 1 - t.lengthAt st, s0 + k + 1) := by
        rw [FrozenTrie.findShortGo_cons, hst]
        exact if_pos hp
      have hhitT : t.hitAt cs k = true := by rw [hhit]; exact decide_eq_true hp
      rw [hL, hhitT]
      simp only [if_true]
      rw [hsa]
    · have hL : t.findShortGo s0 e0 (c :: rest') k istate =
          t.findShortGo s0 e0 rest' (k + 1) st := by
        rw [FrozenTrie.findShortGo_cons, hst]
        exact if_neg hp
      have hhitF : t.hitAt cs k = false := by rw [hhit]; exact decide_eq_false hp
      rw [hL, hhitF]
      simp only [Bool.false_eq_true, if_false]
      exact ih (k + 1) st hsa hrest'

/-- C1: find_short scans the automaton from state 0 starting at the cursor,
    following failure links when no direct transition exists, and reports the
    first position whose state has a non-zero key_length fitting in the scanned
    window (`key_length ≤ current_pos + 1 - inout_start`); it sets
    `match_end = current_pos + 1`, `match_start = match_end - key_length`, and
    returns that state's payload; it returns `-1` with the out-parameters
    untouched when no such match exists in the remainder of the text. -/
theorem find_short_correct (t : FrozenTrie) (hwf : t.FailOk) (text : List Nat)
    (s0 e0 : Nat) :
    (t.firstHit (text.drop s0) = none →
       (∀ i, i < (text.drop s0).length → t.hitAt (text.drop s0) i = false) ∧
       t.find_short text s0 e0 = (-1, s0, e0)) ∧
    (∀ j, t.firstHit (text.drop s0) = some j →
       t.hitAt (text.drop s0) j = true ∧
       (∀ i, i < j → t.hitAt (text.drop s0) i = false) ∧
       ∃ st, t.stateAfter (text.drop s0) (j + 1) = some st ∧
         t.find_short text s0 e0 =
           (t.payload_at st, s0 + j + 1 - t.lengthAt st, s0 + j + 1)) := by
  have hmain := t.findShortGo_eq hwf s0 e0 (text.drop s0) (text.drop s0) 0 0 rfl rfl
  rw [Nat.sub_zero] at hmain
  constructor
  · intro hnone
    refine ⟨?_, ?_⟩
    · intro i hi
      exact t.firstHitFrom_none (text.drop s0) (text.drop s0).length 0 hnone i
        (Nat.zero_le i) (by omega)
    · unfold FrozenTrie.find_short
      rw [hmain]
      unfold FrozenTrie.firstHit at hnone
      rw [hnone]
  · intro j hsome
    obtain ⟨hhit, _, hmin⟩ := t.firstHitFrom_some (text.drop s0) (text.drop s0).length 0 j hsome
    refine ⟨hhit, fun i hi => hmin i (Nat.zero_le i) hi, ?_⟩
    cases hsa : t.stateAfter (text.drop s0) (j + 1) with
    | none =>
      exfalso
      unfold FrozenTrie.hitAt at hhit
      rw [hsa] at hhit
      exact Bool.false_ne_true hhit
    | some st =>
      refine ⟨st, rfl, ?_⟩
      unfold FrozenTrie.find_short
      rw [hmain]
      unfold FrozenTrie.firstHit at hsome
      rw [hsome]
      show (match t.stateAfter (text.drop s0) (j + 1) with
            | none => ((-1 : Int), s0, e0)
            | some st => (t.payload_at st, s0 + j + 1 - t.lengthAt st, s0 + j + 1)) = _
      rw [hsa]

/-- Evaluate `List.getD` through a property of the list elements and the
    default value. -/
theorem getD_cases {α : Type} (P : α → Prop) (l : List α) (d : α) (n : Nat)
    (hl : ∀ x ∈ l, P x) (hd : P d) : P (l.getD n d) := by
  rw [List.getD_eq_getElem?_getD]
  cases h : l[n]? with
  | none => exact hd
  | some x => simpa using hl x (List.getElem?_mem h)

/-- A small concrete compiled trie used by witnesses: the frozen form of the
    key set "ab" (payload 7) and "b" (payload 9). -/
def sampleTrie : FrozenTrie :=
  { nodes :=
      [ { chars_offset := 0, ifailure_state := 0, chars_count := 2, length := 0 },
        { chars_offset := 2, ifailure_state := 0, chars_count := 1, length := 0 },
        { chars_offset := 3, ifailure_state := 3, chars_count := 0, length := 2 },
        { chars_offset := 3, ifailure_state := 0, chars_count := 0, length := 1 } ],
    chars := [97, 98, 98],
    indices := [1, 3, 2],
    payloads := [(2, 7), (3, 9)] }

theorem sampleTrie_failok : sampleTrie.FailOk := by
  intro i
  refine ⟨2, by decide, ?_⟩
  have hmem : ∀ j : Int, sampleTrie.failOf j = 0 ∨ sampleTrie.failOf j = 3 := by
    intro j
    unfold FrozenTrie.failOf FrozenTrie.nodeAt
    refine getD_cases (fun nd : FrozenNode => nd.ifailure_state = 0 ∨ nd.ifailure_state = 3)
      _ _ _ ?_ ?_
    · intro x hx
      simp only [sampleTrie, List.mem_cons, List.not_mem_nil, or_false] at hx
      rcases hx with h | h | h | h <;> simp [h]
    · left; rfl
  have hstep : sampleTrie.failIter 2 i = sampleTrie.failOf (sampleTrie.failOf i) := rfl
  rw [hstep]
  rcases hmem i with h | h <;> rw [h] <;> decide

/-- Witness for C1 at a concrete input: scanning "xab" over the keys
    \x7bab: 7, b: 9\x7d finds "ab" at bytes [1, 3) with payload 7. -/
theorem find_short_correct_witness :
    sampleTrie.FailOk ∧ sampleTrie.find_short [120, 97, 98] 0 0 = (7, 1, 3) := by
  refine ⟨sampleTrie_failok, ?_⟩
  obtain ⟨hhit, hmin, st, hsa, heq⟩ :=
    (find_short_correct sampleTrie sampleTrie_failok [120, 97, 98] 0 0).2 2 (by decide)
  have h2 : sampleTrie.stateAfter ([120, 97, 98].drop 0) (2 + 1) = some 2 := by decide
  rw [h2] at hsa
  injection hsa with hst
  rw [heq, ← hst]
  decide

/-- The running `length_longest` of find_longest (`-1` when no candidate is
    held). -/
def bestLen : Option (Nat × Nat × Int) → Int
  | none => -1
  | some b => (b.1 : Int)

/-- The candidate update of find_longest: a state replaces the held candidate
    only when its key length is non-zero, fits in the scanned window, and is
    strictly longer than the held one. -/
def updBest (b : Option (Nat × Nat × Int)) (c : Nat × Nat × Int) :
    Option (Nat × Nat × Int) :=
  if c.1 ≠ 0 ∧ c.1 ≤ c.2.1 ∧ bestLen b < (c.1 : Int) then some c else b

/-- A triple (key_length, relative end, node) is a valid find_longest
    candidate: non-zero key length that fits in its window. -/
def goodCand (c : Nat × Nat × Int) : Bool := decide (c.1 ≠ 0 ∧ c.1 ≤ c.2.1)

/-- Largest key length among a list of candidate triples. -/
def maxCandLen (l : List (Nat × Nat × Int)) : Nat :=
  l.foldr (fun c m => max c.1 m) 0

/-- The first candidate of maximal key length. -/
def firstMax (l : List (Nat × Nat × Int)) : Option (Nat × Nat × Int) :=
  l.find? (fun c => decide (maxCandLen l ≤ c.1))

/-- Candidate triples produced by the contiguous run of direct transitions of
    find_longest after the first hit: `istate` is the state holding the hit,
    `k` the number of bytes consumed so far, and the run stops at the first
    byte with no direct transition (`child_at < 0`). -/
def FrozenTrie.runCands (t : FrozenTrie) : Int → Nat → List Nat → List (Nat × Nat × Int)
  | _, _, [] => []
  | istate, k, c :: rest =>
    let j := t.child_at istate c
    if j < 0 then []
    else (t.lengthAt j, k + 1, j) :: t.runCands j (k + 1) rest

/-- Loop body of FrozenTrie::find_longest (array-aho.cpp:419-463).  The held
    candidate `best` is `(length_longest, end_longest, inode)` (relative end);
    the inner `while` commits at the first missing direct transition when a
    candidate is held (`goto success`), and otherwise resolves the failure
    chain; falling off the text commits a held candidate; in every other case
    the out-parameters keep `s0`, `e0` and the result is `payload_at inode`
    with `inode = -1`, that is `-1`. -/
def FrozenTrie.findLongestGo (t : FrozenTrie) (s0 e0 : Nat) :
    List Nat → Nat → Int → Option (Nat × Nat × Int) → Int × Nat × Nat
  | [], _, _, best =>
    match best with
    | some (len, endp, inode) => (t.payload_at inode, s0 + endp - len, s0 + endp)
    | none => (-1, s0, e0)
  | c :: rest, k, istate, best =>
    if t.child_at istate c < 0 ∧ best.isSome = true then
      match best with
      | some (len, endp, inode) => (t.payload_at inode, s0 + endp - len, s0 + endp)
      | none => (-1, s0, e0)
    else
      match t.nextState t.nodes.length istate c with
      | none => (-1, s0, e0)
      | some st =>
        let keylen := t.lengthAt st
        let best' :=
          if keylen ≠ 0 ∧ keylen ≤ k + 1 ∧ bestLen best < (keylen : Int) then
            some (keylen, k + 1, st)
          else best
        t.findLongestGo s0 e0 rest (k + 1) st best'

/-- FrozenTrie::find_longest.  Returns `(payload, start, end)`; the
    out-parameters keep their incoming values when no match is committed. -/
def FrozenTrie.find_longest (t : FrozenTrie) (text : List Nat) (s0 e0 : Nat) :
    Int × Nat × Nat :=
  t.findLongestGo s0 e0 (text.drop s0) 0 0 none

theorem FrozenTrie.findLongestGo_cons (t : FrozenTrie) (s0 e0 : Nat) (c : Nat)
    (rest : List Nat) (k : Nat) (istate : Int) (best : Option (Nat × Nat × Int)) :
    t.findLongestGo s0 e0 (c :: rest) k istate best =
      if t.child_at istate c < 0 ∧ best.isSome = true then
        match best with
        | some (len, endp, inode) => (t.payload_at inode, s0 + endp - len, s0 + endp)
        | none => (-1, s0, e0)
      else
        match t.nextState t.nodes.length istate c with
        | none => (-1, s0, e0)
        | some st =>
          t.findLongestGo s0 e0 rest (k + 1) st
            (updBest best (t.lengthAt st, k + 1, st)) := rfl

theorem FrozenTrie.nextState_of_nonneg (t : FrozenTrie) (fuel : Nat) (i : Int)
    (c : Nat) (h : 0 ≤ t.child_at i c) :
    t.nextState fuel i c = some (t.child_at i c) := by
  unfold FrozenTrie.nextState
  simp [h]

theorem updBest_some (b : Nat × Nat × Int) (c : Nat × Nat × Int) :
    ∃ b', updBest (some b) c = some b' := by
  unfold updBest
  by_cases h : c.1 ≠ 0 ∧ c.1 ≤ c.2.1 ∧ bestLen (some b) < (c.1 : Int)
  · exact ⟨c, if_pos h⟩
  · exact ⟨b, if_neg h⟩

theorem FrozenTrie.findLongestGo_some (t : FrozenTrie) (s0 e0 : Nat) :
    ∀ rest k istate (b : Nat × Nat × Int),
      t.findLongestGo s0 e0 rest k istate (some b) =
        match List.foldl updBest (some b) (t.runCands istate k rest) with
        | some (len, endp, inode) => (t.payload_at inode, s0 + endp - len, s0 + endp)
        | none => (-1, s0, e0) := by
  intro rest
  induction rest with
  | nil => intro k istate b; rfl
  | cons c rest' ih =>
    intro k istate b
    rw [FrozenTrie.findLongestGo_cons]
    by_cases hc : t.child_at istate c < 0
    · rw [if_pos ⟨hc, rfl⟩]
      unfold FrozenTrie.runCands
      rw [if_pos hc]
      rfl
    · rw [if_neg (fun h => hc h.1)]
      rw [t.nextState_of_nonneg _ _ _ (by omega)]
      unfold FrozenTrie.runCands
      rw [if_neg hc]
      rw [List.foldl_cons]
      obtain ⟨b', hb'⟩ :=
        updBest_some b (t.lengthAt (t.child_at istate c), k + 1, t.child_at istate c)
      show t.findLongestGo s0 e0 rest' (k + 1) (t.child_at istate c)
          (updBest (some b) (t.lengthAt (t.child_at istate c), k + 1, t.child_at istate c)) = _
      rw [hb']
      exact ih (k + 1) (t.child_at istate c) b'

theorem FrozenTrie.findLongestGo_none_eq (t : FrozenTrie) (hwf : t.FailOk)
    (s0 e0 : Nat) (cs : List Nat) :
    ∀ rest k istate, t.stateAfter cs k = some istate → rest = cs.drop k →
      t.findLongestGo s0 e0 rest k istate none =
        match t.firstHitFrom cs (cs.length - k) k with
        | none => (-1, s0, e0)
        | some j =>
          match t.stateAfter cs (j + 1) with
          | none => (-1, s0, e0)
          | some st =>
            match List.foldl updBest (some (t.lengthAt st, j + 1, st))
                (t.runCands st (j + 1) (cs.drop (j + 1))) with
            | some (len, endp, inode) => (t.payload_at inode, s0 + endp - len, s0 + endp)
            | none => (-1, s0, e0) := by
  intro rest
  induction rest with
  | nil =>
    intro k istate _ h2
    have hlen : cs.length - k = 0 := by
      have := congrArg List.length h2
      simp [List.length_drop] at this
      omega
    rw [hlen]
    rfl
  | cons c rest' ih =>
    intro k istate h1 h2
    have hklen : k < cs.length := by
      have := congrArg List.length h2
      simp [List.length_drop] at this
      omega
    have hck : cs[k]? = some c := by
      have h3 : (cs.drop k)[0]? = some c := by rw [← h2]; simp
      rw [List.getElem?_drop] at h3
      simpa using h3
    have hrest' : rest' = cs.drop (k + 1) := by
      have h4 := congrArg (List.drop 1) h2
      rw [List.drop_drop] at h4
      simpa using h4
    obtain ⟨st, hst, _⟩ := t.nextState_some hwf istate c
    have hsa : t.stateAfter cs (k + 1) = some st := by
      rw [t.stateAfter_succ cs k c hck, h1]
      exact hst
    have hm : cs.length - k = (cs.length - (k + 1)) + 1 := by omega
    rw [hm, FrozenTrie.firstHitFrom_succ]
    rw [FrozenTrie.findLongestGo_cons]
    rw [if_neg (fun h => by simpa using h.2)]
    rw [hst]
    show t.findLongestGo s0 e0 rest' (k + 1) st
        (updBest none (t.lengthAt st, k + 1, st)) = _
    have hhit : t.hitAt cs k = decide (t.lengthAt st ≠ 0 ∧ t.lengthAt st ≤ k + 1) := by
      unfold FrozenTrie.hitAt
      rw [hsa]
    by_cases hp : t.lengthAt st ≠ 0 ∧ t.lengthAt st ≤ k + 1
    · have hbest : updBest none (t.lengthAt st, k + 1, st) =
          some (t.lengthAt st, k + 1, st) := by
        unfold updBest
        refine if_pos ⟨hp.1, hp.2, ?_⟩
        rw [show bestLen none = -1 from rfl]
        omega
      rw [hbest, t.findLongestGo_some s0 e0 rest' (k + 1) st (t.lengthAt st, k + 1, st)]
      have hhitT : t.hitAt cs k = true := by rw [hhit]; exact decide_eq_true hp
      rw [hhitT, hrest']
      simp only [if_true, hsa]
    · have hbest : updBest none (t.lengthAt st, k + 1, st) = none := by
        unfold updBest
        refine if_neg (fun hcon => hp ⟨hcon.1, hcon.2.1⟩)
      rw [hbest]
      have hhitF : t.hitAt cs k = false := by rw [hhit]; exact decide_eq_false hp
      rw [hhitF]
      simp only [Bool.false_eq_true, if_false]
      exact ih (k + 1) st hsa hrest'

theorem maxCandLen_cons (c : Nat × Nat × Int) (l : List (Nat × Nat × Int)) :
    maxCandLen (c :: l) = max c.1 (maxCandLen l) := rfl

theorem firstMax_skip (b c : Nat × Nat × Int) (l : List (Nat × Nat × Int))
    (h : b.1 < c.1) :
    firstMax (b :: c :: l) = firstMax (c :: l) := by
  unfold firstMax
  have hM : maxCandLen (b :: c :: l) = maxCandLen (c :: l) := by
    simp only [maxCandLen_cons]
    omega
  rw [hM]
  refine List.find?_cons_of_neg _ ?_
  simp only [decide_eq_true_eq, not_le, maxCandLen_cons]
  omega

theorem firstMax_drop_mid (b c : Nat × Nat × Int) (l : List (Nat × Nat × Int))
    (h : c.1 ≤ b.1) :
    firstMax (b :: c :: l) = firstMax (b :: l) := by
  unfold firstMax
  have hM : maxCandLen (b :: c :: l) = maxCandLen (b :: l) := by
    simp only [maxCandLen_cons]
    omega
  rw [hM]
  by_cases hb : maxCandLen (b :: l) ≤ b.1
  · rw [List.find?_cons_of_pos _ (by simpa using hb),
        List.find?_cons_of_pos _ (by simpa using hb)]
  · rw [List.find?_cons_of_neg _ (by simpa using hb)]
    rw [List.find?_cons_of_neg _ (by
      simp only [decide_eq_true_eq, not_le] at hb ⊢
      omega)]
    rw [List.find?_cons_of_neg _ (by simpa using hb)]

/-- The find_longest candidate fold keeps the longest candidate, with ties
    broken towards the first occurrence: it equals the first candidate of
    maximal key length among the held candidate followed by the valid
    candidates of the run. -/
theorem foldBest_eq :
    ∀ (cands : List (Nat × Nat × Int)) (b : Nat × Nat × Int),
      List.foldl updBest (some b) cands = firstMax (b :: cands.filter goodCand) := by
  intro cands
  induction cands with
  | nil =>
    intro b
    simp only [List.foldl_nil, List.filter_nil]
    unfold firstMax
    rw [List.find?_cons_of_pos]
    simp only [maxCandLen_cons, decide_eq_true_eq]
    unfold maxCandLen
    simp
  | cons c rest ih =>
    intro b
    rw [List.foldl_cons]
    by_cases hgood : c.1 ≠ 0 ∧ c.1 ≤ c.2.1
    · have hfil : (c :: rest).filter goodCand = c :: rest.filter goodCand := by
        rw [List.filter_cons_of_pos]
        unfold goodCand
        exact decide_eq_true hgood
      rw [hfil]
      by_cases hlt : b.1 < c.1
      · have hupd : updBest (some b) c = some c := by
          unfold updBest
          refine if_pos ⟨hgood.1, hgood.2, ?_⟩
          rw [show bestLen (some b) = (b.1 : Int) from rfl]
          omega
        rw [hupd, ih c, firstMax_skip b c _ hlt]
      · have hupd : updBest (some b) c = some b := by
          unfold updBest
          refine if_neg (fun hcon => ?_)
          rw [show bestLen (some b) = (b.1 : Int) from rfl] at hcon
          omega
        rw [hupd, ih b, firstMax_drop_mid b c _ (by omega)]
    · have hfil : (c :: rest).filter goodCand = rest.filter goodCand := by
        refine List.filter_cons_of_neg ?_
        simp only [goodCand, decide_eq_true_eq]
        exact hgood
      have hupd : updBest (some b) c = some b := by
        unfold updBest
        exact if_neg (fun hcon => hgood ⟨hcon.1, hcon.2.1⟩)
      rw [hfil, hupd, ih b]

theorem foldl_updBest_isSome :
    ∀ (cands : List (Nat × Nat × Int)) (b : Nat × Nat × Int),
      ∃ r, List.foldl updBest (some b) cands = some r := by
  intro cands
  induction cands with
  | nil => intro b; exact ⟨b, rfl⟩
  | cons c rest ih =>
    intro b
    rw [List.foldl_cons]
    obtain ⟨b', hb'⟩ := updBest_some b c
    rw [hb']
    exact ih b'

/-- C2: find_longest holds the longest terminal seen during a contiguous run of
    valid transitions (the run begins at the first hit, continues through
    direct transitions only, and stops at the first byte with no direct
    transition or at the end of the text); the committed candidate is the
    first candidate of maximal key length, a held candidate being replaced
    only by a strictly longer one; without any candidate the out-parameters
    are untouched and the result is `-1`. -/
theorem find_longest_correct (t : FrozenTrie) (hwf : t.FailOk) (text : List Nat)
    (s0 e0 : Nat) :
    (t.firstHit (text.drop s0) = none →
       t.find_longest text s0 e0 = (-1, s0, e0)) ∧
    (∀ j, t.firstHit (text.drop s0) = some j →
       ∃ st, t.stateAfter (text.drop s0) (j + 1) = some st ∧
         ∃ len endp inode,
           firstMax ((t.lengthAt st, j + 1, st) ::
               (t.runCands st (j + 1) ((text.drop s0).drop (j + 1))).filter goodCand) =
             some (len, endp, inode) ∧
           t.find_longest text s0 e0 =
             (t.payload_at inode, s0 + endp - len, s0 + endp)) := by
  have hmain := t.findLongestGo_none_eq hwf s0 e0 (text.drop s0) (text.drop s0) 0 0 rfl rfl
  rw [Nat.sub_zero] at hmain
  constructor
  · intro hnone
    unfold FrozenTrie.find_longest
    rw [hmain]
    unfold FrozenTrie.firstHit at hnone
    rw [hnone]
  · intro j hsome
    obtain ⟨hhit, _, _⟩ :=
      t.firstHitFrom_some (text.drop s0) (text.drop s0).length 0 j hsome
    cases hsa : t.stateAfter (text.drop s0) (j + 1) with
    | none =>
      exfalso
      unfold FrozenTrie.hitAt at hhit
      rw [hsa] at hhit
      exact Bool.false_ne_true hhit
    | some st =>
      obtain ⟨r, hr⟩ := foldl_updBest_isSome
        (t.runCands st (j + 1) ((text.drop s0).drop (j + 1))) (t.lengthAt st, j + 1, st)
      refine ⟨st, rfl, r.1, r.2.1, r.2.2, ?_, ?_⟩
      · rw [← foldBest_eq]
        rw [hr]
      · unfold FrozenTrie.find_longest
        rw [hmain]
        unfold FrozenTrie.firstHit at hsome
        rw [hsome]
        show (match t.stateAfter (text.drop s0) (j + 1) with
              | none => ((-1 : Int), s0, e0)
              | some st =>
                match List.foldl updBest (some (t.lengthAt st, j + 1, st))
                    (t.runCands st (j + 1) ((text.drop s0).drop (j + 1))) with
                | some (len, endp, inode) =>
                  (t.payload_at inode, s0 + endp - len, s0 + endp)
                | none => (-1, s0, e0)) = _
        rw [hsa]
        show (match List.foldl updBest (some (t.lengthAt st, j + 1, st))
                  (t.runCands st (j + 1) ((text.drop s0).drop (j + 1))) with
              | some (len, endp, inode) =>
                (t.payload_at inode, s0 + endp - len, s0 + endp)
              | none => ((-1 : Int), s0, e0)) = _
        rw [hr]

/-- Witness for C2 at a concrete input: scanning "abx" over the keys
    \x7bab: 7, b: 9\x7d commits "ab" at bytes [0, 2) with payload 7 when the
    run falls off the automaton at the byte "x". -/
theorem find_longest_correct_witness :
    sampleTrie.FailOk ∧ sampleTrie.find_longest [97, 98, 120] 0 0 = (7, 0, 2) := by
  refine ⟨sampleTrie_failok, ?_⟩
  obtain ⟨st, hsa, len, endp, inode, hfm, heq⟩ :=
    (find_longest_correct sampleTrie sampleTrie_failok [97, 98, 120] 0 0).2 1 (by decide)
  have h2 : sampleTrie.stateAfter ([97, 98, 120].drop 0) (1 + 1) = some 2 := by decide
  rw [h2] at hsa
  injection hsa with hst
  rw [← hst] at hfm
  have h3 : firstMax ((sampleTrie.lengthAt 2, 1 + 1, (2 : Int)) ::
      (sampleTrie.runCands 2 (1 + 1) (([97, 98, 120].drop 0).drop (1 + 1))).filter
        goodCand) = some (2, 2, 2) := by decide
  rw [h3] at hfm
  injection hfm with h4
  injection h4 with h5 h6
  injection h6 with h7 h8
  rw [heq, ← h5, ← h7, ← h8]
  decide

/-- The minimal interface of find_anchored_in_trie (class AbstractTrie),
    implemented by both the frozen and the mapped trie. -/
structure AbsTrie where
  child_at : Int → Nat → Int
  payload_at : Int → Int
  get_node : Int → FrozenNode

/-- The frozen trie as an AbstractTrie. -/
def FrozenTrie.toAbs (t : FrozenTrie) : AbsTrie :=
  { child_at := t.child_at, payload_at := t.payload_at, get_node := t.nodeAt }

/-- The candidate update of find_anchored: no window guard, a candidate is
    replaced only by a strictly longer terminal. -/
def updBestA (b : Option (Nat × Nat × Int)) (c : Nat × Nat × Int) :
    Option (Nat × Nat × Int) :=
  if c.1 ≠ 0 ∧ bestLen b < (c.1 : Int) then some c else b

/-- A valid find_anchored candidate: non-zero key length. -/
def goodCandA (c : Nat × Nat × Int) : Bool := decide (c.1 ≠ 0)

/-- The inner walk of find_anchored_in_trie (array-aho.cpp:133-146): pure trie
    walking, never following failure links; `pos` is the absolute position of
    the next byte and `best` is `(length_longest, end_longest, inode)` with the
    end position absolute. -/
def anchorWalk (T : AbsTrie) : Int → Nat → List Nat → Option (Nat × Nat × Int) →
    Option (Nat × Nat × Int)
  | _, _, [], best => best
  | istate, pos, c :: rest, best =>
    let j := T.child_at istate c
    if j < 0 then best
    else
      let keylen := (T.get_node j).length
      let best' :=
        if keylen ≠ 0 ∧ bestLen best < (keylen : Int) then some (keylen, pos + 1, j)
        else best
      anchorWalk T j (pos + 1) rest best'

/-- Candidate triples (key_length, absolute end, node) seen by the anchored
    walk starting in `istate` at absolute position `pos`; the walk stops at the
    first byte with no transition. -/
def walkCands (T : AbsTrie) : Int → Nat → List Nat → List (Nat × Nat × Int)
  | _, _, [] => []
  | istate, pos, c :: rest =>
    let j := T.child_at istate c
    if j < 0 then []
    else ((T.get_node j).length, pos + 1, j) :: walkCands T j (pos + 1) rest

theorem anchorWalk_eq_fold (T : AbsTrie) :
    ∀ (cs : List Nat) (istate : Int) (pos : Nat) (best : Option (Nat × Nat × Int)),
      anchorWalk T istate pos cs best =
        List.foldl updBestA best (walkCands T istate pos cs) := by
  intro cs
  induction cs with
  | nil => intro istate pos best; rfl
  | cons c rest ih =>
    intro istate pos best
    unfold anchorWalk walkCands
    by_cases hc : T.child_at istate c < 0
    · rw [if_pos hc, if_pos hc]
      rfl
    · rw [if_neg hc, if_neg hc, List.foldl_cons]
      exact ih (T.child_at istate c) (pos + 1) (updBestA best ((T.get_node (T.child_at istate c)).length, pos + 1, T.child_at istate c))

theorem updBestA_some (b : Nat × Nat × Int) (c : Nat × Nat × Int) :
    ∃ b', updBestA (some b) c = some b' := by
  unfold updBestA
  by_cases h : c.1 ≠ 0 ∧ bestLen (some b) < (c.1 : Int)
  · exact ⟨c, if_pos h⟩
  · exact ⟨b, if_neg h⟩

theorem foldBestA_some_eq :
    ∀ (cands : List (Nat × Nat × Int)) (b : Nat × Nat × Int),
      List.foldl updBestA (some b) cands = firstMax (b :: cands.filter goodCandA) := by
  intro cands
  induction cands with
  | nil =>
    intro b
    simp only [List.foldl_nil, List.filter_nil]
    unfold firstMax
    rw [List.find?_cons_of_pos]
    simp only [maxCandLen_cons, decide_eq_true_eq]
    unfold maxCandLen
    simp
  | cons c rest ih =>
    intro b
    rw [List.foldl_cons]
    by_cases hgood : c.1 ≠ 0
    · have hfil : (c :: rest).filter goodCandA = c :: rest.filter goodCandA := by
        refine List.filter_cons_of_pos ?_
        unfold goodCandA
        exact decide_eq_true hgood
      rw [hfil]
      by_cases hlt : b.1 < c.1
      · have hupd : updBestA (some b) c = some c := by
          unfold updBestA
          refine if_pos ⟨hgood, ?_⟩
          rw [show bestLen (some b) = (b.1 : Int) from rfl]
          omega
        rw [hupd, ih c, firstMax_skip b c _ hlt]
      · have hupd : updBestA (some b) c = some b := by
          unfold updBestA
          refine if_neg (fun hcon => ?_)
          rw [show bestLen (some b) = (b.1 : Int) from rfl] at hcon
          omega
        rw [hupd, ih b, firstMax_drop_mid b c _ (by omega)]
    · have hfil : (c :: rest).filter goodCandA = rest.filter goodCandA := by
        refine List.filter_cons_of_neg ?_
        simp only [goodCandA, decide_eq_true_eq]
        exact hgood
      have hupd : updBestA (some b) c = some b := by
        unfold updBestA
        exact if_neg (fun hcon => hgood hcon.1)
      rw [hfil, hupd, ih b]

theorem foldBestA_none_eq :
    ∀ (cands : List (Nat × Nat × Int)),
      List.foldl updBestA none cands = firstMax (cands.filter goodCandA) := by
  intro cands
  induction cands with
  | nil => rfl
  | cons c rest ih =>
    rw [List.foldl_cons]
    by_cases hgood : c.1 ≠ 0
    · have hfil : (c :: rest).filter goodCandA = c :: rest.filter goodCandA := by
        refine List.filter_cons_of_pos ?_
        unfold goodCandA
        exact decide_eq_true hgood
      have hupd : updBestA none c = some c := by
        unfold updBestA
        refine if_pos ⟨hgood, ?_⟩
        rw [show bestLen none = -1 from rfl]
        omega
      rw [hfil, hupd, foldBestA_some_eq]
    · have hfil : (c :: rest).filter goodCandA = rest.filter goodCandA := by
        refine List.filter_cons_of_neg ?_
        simp only [goodCandA, decide_eq_true_eq]
        exact hgood
      have hupd : updBestA none c = none := by
        unfold updBestA
        exact if_neg (fun hcon => hgood hcon.1)
      rw [hfil, hupd, ih]

theorem maxCandLen_attained :
    ∀ (l : List (Nat × Nat × Int)), l ≠ [] → ∃ c ∈ l, maxCandLen l ≤ c.1 := by
  intro l
  induction l with
  | nil => intro h; exact absurd rfl h
  | cons c rest ih =>
    intro _
    by_cases hr : rest = []
    · subst hr
      refine ⟨c, List.mem_cons_self c [], ?_⟩
      rw [maxCandLen_cons]
      have h0 : maxCandLen ([] : List (Nat × Nat × Int)) = 0 := rfl
      omega
    · obtain ⟨d, hd, hdmax⟩ := ih hr
      by_cases hcd : maxCandLen rest ≤ c.1
      · exact ⟨c, List.mem_cons_self c rest, by rw [maxCandLen_cons]; omega⟩
      · exact ⟨d, List.mem_cons_of_mem _ hd, by rw [maxCandLen_cons]; omega⟩

theorem firstMax_isSome (l : List (Nat × Nat × Int)) (h : l ≠ []) :
    ∃ r, firstMax l = some r := by
  obtain ⟨c, hc, hmax⟩ := maxCandLen_attained l h
  unfold firstMax
  have hex : ∃ x, x ∈ l ∧ (fun x => decide (maxCandLen l ≤ x.1)) x = true :=
    ⟨c, hc, decide_eq_true hmax⟩
  rw [← List.find?_isSome] at hex
  exact Option.isSome_iff_exists.mp hex

/-- Positions at or after `start` holding the anchor byte, in increasing
    order. -/
def anchorsFrom (text : List Nat) (anchor : Nat) (start : Nat) : List Nat :=
  if h : start < text.length then
    if text.getD start 0 = anchor then start :: anchorsFrom text anchor (start + 1)
    else anchorsFrom text anchor (start + 1)
  else []
termination_by text.length - start

/-- The outer loop of find_anchored_in_trie (array-aho.cpp:125-153): scan for
    the next anchor byte; if none is left return `-1` leaving the
    out-parameters untouched; otherwise walk from the anchor position and
    commit the held candidate if the walk produced one, else retry one byte
    past the anchor.  The candidate is threaded through the outer loop exactly
    as the source declares it outside the loop. -/
def findAnchoredGo (T : AbsTrie) (text : List Nat) (anchor : Nat) (s0 e0 : Nat)
    (start : Nat) (best : Option (Nat × Nat × Int)) : Int × Nat × Nat :=
  if h : (text.drop start).findIdx (fun x => decide (x = anchor)) =
      (text.drop start).length then
    (-1, s0, e0)
  else
    match anchorWalk T 0 (start + (text.drop start).findIdx (fun x => decide (x = anchor)))
        (text.drop (start + (text.drop start).findIdx (fun x => decide (x = anchor))))
        best with
    | some (len, endp, inode) => (T.payload_at inode, endp - len, endp)
    | none =>
      findAnchoredGo T text anchor s0 e0
        (start + (text.drop start).findIdx (fun x => decide (x = anchor)) + 1) none
termination_by text.length - start
decreasing_by
  have h1 : (text.drop start).findIdx (fun x => decide (x = anchor)) ≤
      (text.drop start).length := List.findIdx_le_length _
  rw [List.length_drop] at h1 h
  omega

/-- find_anchored on any AbstractTrie (FrozenTrie::find_anchored and
    MappedTrie::find_anchored both delegate to find_anchored_in_trie). -/
def AbsTrie.find_anchored (T : AbsTrie) (text : List Nat) (anchor : Nat)
    (s0 e0 : Nat) : Int × Nat × Nat :=
  findAnchoredGo T text anchor s0 e0 s0 none

theorem findIdx_getD (l : List Nat) (p : Nat → Bool) (h : l.findIdx p < l.length) :
    p (l.getD (l.findIdx p) 0) = true := by
  rw [List.getD_eq_getElem l 0 h]
  exact List.findIdx_getElem

theorem findIdx_min_getD (l : List Nat) (p : Nat → Bool) (i : Nat)
    (hi : i < l.findIdx p) (hl : i < l.length) : p (l.getD i 0) = false := by
  rw [List.getD_eq_getElem l 0 hl]
  exact List.not_of_lt_findIdx hi

theorem getD_drop_abs (text : List Nat) (start i : Nat) (h : start + i < text.length) :
    (text.drop start).getD i 0 = text.getD (start + i) 0 := by
  rw [List.getD_eq_getElem (text.drop start) 0 (by rw [List.length_drop]; omega),
      List.getD_eq_getElem text 0 h]
  exact List.getElem_drop text

theorem anchorsFrom_nil_fuel (text : List Nat) (anchor : Nat) :
    ∀ n start, text.length - start ≤ n →
      (∀ i, start ≤ i → i < text.length → text.getD i 0 ≠ anchor) →
      anchorsFrom text anchor start = [] := by
  intro n
  induction n with
  | zero =>
    intro start hle _
    rw [anchorsFrom]
    rw [dif_neg (by omega)]
  | succ n ih =>
    intro start hle hno
    rw [anchorsFrom]
    by_cases hs : start < text.length
    · rw [dif_pos hs, if_neg (hno start (le_refl _) hs)]
      exact ih (start + 1) (by omega) (fun i h1 h2 => hno i (by omega) h2)
    · rw [dif_neg hs]

theorem anchorsFrom_cons_fuel (text : List Nat) (anchor : Nat) :
    ∀ n start a, text.length - start ≤ n → start ≤ a → a < text.length →
      text.getD a 0 = anchor →
      (∀ i, start ≤ i → i < a → text.getD i 0 ≠ anchor) →
      anchorsFrom text anchor start = a :: anchorsFrom text anchor (a + 1) := by
  intro n
  induction n with
  | zero => intro start a h1 h2 h3 _ _; omega
  | succ n ih =>
    intro start a hle hsa ha hanch hmin
    rw [anchorsFrom]
    rw [dif_pos (by omega)]
    by_cases heq : start = a
    · subst heq
      rw [if_pos hanch]
    · rw [if_neg (hmin start (le_refl _) (by omega))]
      exact ih (start + 1) a (by omega) (by omega) ha hanch
        (fun i hi1 hi2 => hmin i (by omega) hi2)

theorem findAnchoredGo_eq (T : AbsTrie) (text : List Nat) (anchor : Nat) (s0 e0 : Nat) :
    ∀ n start, text.length - start ≤ n →
      findAnchoredGo T text anchor s0 e0 start none =
        match (anchorsFrom text anchor start).find?
            (fun a => decide ((walkCands T 0 a (text.drop a)).filter goodCandA ≠ [])) with
        | none => (-1, s0, e0)
        | some a =>
          match firstMax ((walkCands T 0 a (text.drop a)).filter goodCandA) with
          | some (len, endp, inode) => (T.payload_at inode, endp - len, endp)
          | none => (-1, s0, e0) := by
  intro n
  induction n with
  | zero =>
    intro start hle
    have hdrop : text.drop start = [] := List.drop_eq_nil_of_le (by omega)
    rw [findAnchoredGo]
    rw [dif_pos (by rw [hdrop]; rfl)]
    rw [anchorsFrom_nil_fuel text anchor 0 start (by omega)
      (fun i h1 h2 hcon => by omega)]
    rfl
  | succ n ih =>
    intro start hle
    by_cases hend : (text.drop start).findIdx (fun x => decide (x = anchor)) =
        (text.drop start).length
    · rw [findAnchoredGo]
      rw [dif_pos hend]
      have hno : ∀ i, start ≤ i → i < text.length → text.getD i 0 ≠ anchor := by
        intro i h1 h2 hcon
        have hfalse := findIdx_min_getD (text.drop start) (fun x => decide (x = anchor))
          (i - start) (by rw [hend, List.length_drop]; omega)
          (by rw [List.length_drop]; omega)
        rw [getD_drop_abs text start (i - start) (by omega)] at hfalse
        rw [show start + (i - start) = i from by omega] at hfalse
        rw [hcon] at hfalse
        simp at hfalse
      rw [anchorsFrom_nil_fuel text anchor (text.length - start) start (le_refl _) hno]
      rfl
    · have hle2 : (text.drop start).findIdx (fun x => decide (x = anchor)) ≤
          (text.drop start).length := List.findIdx_le_length _
      have hofflt : (text.drop start).findIdx (fun x => decide (x = anchor)) <
          (text.drop start).length := by omega
      have halt : start + (text.drop start).findIdx (fun x => decide (x = anchor)) <
          text.length := by
        rw [List.length_drop] at hofflt
        omega
      have hpa : text.getD
          (start + (text.drop start).findIdx (fun x => decide (x = anchor))) 0 =
          anchor := by
        have hp := findIdx_getD (text.drop start) (fun x => decide (x = anchor)) hofflt
        rw [getD_drop_abs text start _ halt] at hp
        simpa using hp
      have hmin : ∀ i, start ≤ i →
          i < start + (text.drop start).findIdx (fun x => decide (x = anchor)) →
          text.getD i 0 ≠ anchor := by
        intro i h1 h2 hcon
        have hfalse := findIdx_min_getD (text.drop start) (fun x => decide (x = anchor))
          (i - start) (by omega) (by rw [List.length_drop] at hofflt ⊢; omega)
        rw [getD_drop_abs text start (i - start) (by omega)] at hfalse
        rw [show start + (i - start) = i from by omega] at hfalse
        rw [hcon] at hfalse
        simp at hfalse
      rw [findAnchoredGo]
      rw [dif_neg hend]
      rw [anchorsFrom_cons_fuel text anchor (text.length - start) start
        (start + (text.drop start).findIdx (fun x => decide (x = anchor)))
        (le_refl _) (by omega) halt hpa hmin]
      rw [anchorWalk_eq_fold, foldBestA_none_eq]
      by_cases hfil : (walkCands T 0
          (start + (text.drop start).findIdx (fun x => decide (x = anchor)))
          (text.drop
            (start + (text.drop start).findIdx (fun x => decide (x = anchor))))).filter
          goodCandA = []
      · rw [hfil]
        rw [List.find?_cons_of_neg _ (by simp [hfil])]
        show findAnchoredGo T text anchor s0 e0
          (start + (text.drop start).findIdx (fun x => decide (x = anchor)) + 1) none = _
        rw [ih (start + (text.drop start).findIdx (fun x => decide (x = anchor)) + 1)
          (by rw [List.length_drop] at hofflt; omega)]
      · obtain ⟨r, hr⟩ := firstMax_isSome _ hfil
        rw [hr]
        rw [List.find?_cons_of_pos _ (by simp [hfil])]
        show (T.payload_at r.2.2, r.2.1 - r.1, r.2.1) =
          match firstMax (List.filter goodCandA (walkCands T 0
              (start + (text.drop start).findIdx (fun x => decide (x = anchor)))
              (text.drop
                (start + (text.drop start).findIdx (fun x => decide (x = anchor)))))) with
          | some (len, endp, inode) => (T.payload_at inode, endp - len, endp)
          | none => ((-1 : Int), s0, e0)
        rw [hr]

/-- C4: for every trie implementing the AbstractTrie interface (frozen or
    mapped), find_anchored repeatedly scans forward to the next occurrence of
    the anchor byte, walks the trie from the root byte by byte without using
    failure links, records the longest terminal state reached during that walk
    (a strictly longer terminal replacing the held one, so the first longest
    wins), commits and returns the longest terminal if any was seen in that
    walk, and otherwise advances one byte past this anchor and repeats; it
    returns `-1` with the out-parameters untouched when the text is exhausted
    without a match. -/
theorem find_anchored_correct (T : AbsTrie) (text : List Nat) (anchor : Nat)
    (s0 e0 : Nat) :
    T.find_anchored text anchor s0 e0 =
      match (anchorsFrom text anchor s0).find?
          (fun a => decide ((walkCands T 0 a (text.drop a)).filter goodCandA ≠ [])) with
      | none => (-1, s0, e0)
      | some a =>
        match firstMax ((walkCands T 0 a (text.drop a)).filter goodCandA) with
        | some (len, endp, inode) => (T.payload_at inode, endp - len, endp)
        | none => (-1, s0, e0) :=
  findAnchoredGo_eq T text anchor s0 e0 (text.length - s0) s0 (le_refl _)

theorem anchorsFrom_ge_fuel (text : List Nat) (anchor : Nat) :
    ∀ n start a, text.length - start ≤ n → a ∈ anchorsFrom text anchor start →
      start ≤ a := by
  intro n
  induction n with
  | zero =>
    intro start a hle hmem
    rw [anchorsFrom, dif_neg (by omega)] at hmem
    exact absurd hmem (List.not_mem_nil a)
  | succ n ih =>
    intro start a hle hmem
    rw [anchorsFrom] at hmem
    by_cases hs : start < text.length
    · rw [dif_pos hs] at hmem
      by_cases hc : text.getD start 0 = anchor
      · rw [if_pos hc] at hmem
        rcases List.mem_cons.mp hmem with h | h
        · omega
        · have := ih (start + 1) a (by omega) h
          omega
      · rw [if_neg hc] at hmem
        have := ih (start + 1) a (by omega) hmem
        omega
    · rw [dif_neg hs] at hmem
      exact absurd hmem (List.not_mem_nil a)

theorem walkCands_end_ge (T : AbsTrie) :
    ∀ (cs : List Nat) (istate : Int) (pos : Nat) c,
      c ∈ walkCands T istate pos cs → pos + 1 ≤ c.2.1 := by
  intro cs
  induction cs with
  | nil => intro istate pos c hmem; exact absurd hmem (List.not_mem_nil c)
  | cons b rest ih =>
    intro istate pos c hmem
    unfold walkCands at hmem
    by_cases hc : T.child_at istate b < 0
    · rw [if_pos hc] at hmem
      exact absurd hmem (List.not_mem_nil c)
    · rw [if_neg hc] at hmem
      rcases List.mem_cons.mp hmem with h | h
      · rw [h]
      · have := ih (T.child_at istate b) (pos + 1) c h
        omega

theorem runCands_end_ge (t : FrozenTrie) :
    ∀ (cs : List Nat) (istate : Int) (k : Nat) c,
      c ∈ t.runCands istate k cs → k + 1 ≤ c.2.1 := by
  intro cs
  induction cs with
  | nil => intro istate k c hmem; exact absurd hmem (List.not_mem_nil c)
  | cons b rest ih =>
    intro istate k c hmem
    unfold FrozenTrie.runCands at hmem
    by_cases hc : t.child_at istate b < 0
    · rw [if_pos hc] at hmem
      exact absurd hmem (List.not_mem_nil c)
    · rw [if_neg hc] at hmem
      rcases List.mem_cons.mp hmem with h | h
      · rw [h]
      · have := ih (t.child_at istate b) (k + 1) c h
        omega

theorem firstMax_mem (l : List (Nat × Nat × Int)) (r : Nat × Nat × Int)
    (h : firstMax l = some r) : r ∈ l := by
  unfold firstMax at h
  exact List.mem_of_find?_eq_some h

/-- C10: when find_short, find_longest, or find_anchored finds no match, the
    inout_start / out_end out-parameters are left unchanged — they are written
    only when a match is committed, and a committed match satisfies
    start < end — so a caller who initialises start = end can detect no-match
    from the unchanged positions (which is needed because the no-match return
    value `-1` is also a legal payload value for a stored key). -/
theorem find_frame (t : FrozenTrie) (hwf : t.FailOk) (T : AbsTrie) (text : List Nat)
    (anchor : Nat) (s0 : Nat) :
    (t.firstHit (text.drop s0) = none ↔ t.find_short text s0 s0 = (-1, s0, s0)) ∧
    (t.firstHit (text.drop s0) = none ↔ t.find_longest text s0 s0 = (-1, s0, s0)) ∧
    ((anchorsFrom text anchor s0).find?
        (fun a => decide ((walkCands T 0 a (text.drop a)).filter goodCandA ≠ [])) =
          none ↔
      T.find_anchored text anchor s0 s0 = (-1, s0, s0)) := by
  have hmainS := t.findShortGo_eq hwf s0 s0 (text.drop s0) (text.drop s0) 0 0 rfl rfl
  have hmainL := t.findLongestGo_none_eq hwf s0 s0 (text.drop s0) (text.drop s0) 0 0 rfl rfl
  have hmainA := findAnchoredGo_eq T text anchor s0 s0 (text.length - s0) s0 (le_refl _)
  rw [Nat.sub_zero] at hmainS hmainL
  refine ⟨⟨?_, ?_⟩, ⟨?_, ?_⟩, ⟨?_, ?_⟩⟩
  · intro h
    unfold FrozenTrie.find_short
    rw [hmainS]
    unfold FrozenTrie.firstHit at h
    rw [h]
  · intro h
    cases hfh : t.firstHit (text.drop s0) with
    | none => rfl
    | some j =>
      exfalso
      unfold FrozenTrie.find_short at h
      rw [hmainS] at h
      unfold FrozenTrie.firstHit at hfh
      rw [hfh] at h
      obtain ⟨hhit, _, _⟩ :=
        t.firstHitFrom_some (text.drop s0) (text.drop s0).length 0 j hfh
      cases hsa : t.stateAfter (text.drop s0) (j + 1) with
      | none =>
        unfold FrozenTrie.hitAt at hhit
        rw [hsa] at hhit
        exact Bool.false_ne_true hhit
      | some st =>
        replace h : (match t.stateAfter (text.drop s0) (j + 1) with
            | none => ((-1 : Int), s0, s0)
            | some st =>
              (t.payload_at st, s0 + j + 1 - t.lengthAt st, s0 + j + 1)) =
            (-1, s0, s0) := h
        rw [hsa] at h
        replace h : (t.payload_at st, s0 + j + 1 - t.lengthAt st, s0 + j + 1) =
            ((-1 : Int), s0, s0) := h
        have h3 := congrArg (fun x => x.2.2) h
        simp only at h3
        omega
  · intro h
    unfold FrozenTrie.find_longest
    rw [hmainL]
    unfold FrozenTrie.firstHit at h
    rw [h]
  · intro h
    cases hfh : t.firstHit (text.drop s0) with
    | none => rfl
    | some j =>
      exfalso
      unfold FrozenTrie.find_longest at h
      rw [hmainL] at h
      unfold FrozenTrie.firstHit at hfh
      rw [hfh] at h
      obtain ⟨hhit, _, _⟩ :=
        t.firstHitFrom_some (text.drop s0) (text.drop s0).length 0 j hfh
      cases hsa : t.stateAfter (text.drop s0) (j + 1) with
      | none =>
        unfold FrozenTrie.hitAt at hhit
        rw [hsa] at hhit
        exact Bool.false_ne_true hhit
      | some st =>
        replace h : (match t.stateAfter (text.drop s0) (j + 1) with
            | none => ((-1 : Int), s0, s0)
            | some st =>
              match List.foldl updBest (some (t.lengthAt st, j + 1, st))
                  (t.runCands st (j + 1) ((text.drop s0).drop (j + 1))) with
              | some (len, endp, inode) =>
                (t.payload_at inode, s0 + endp - len, s0 + endp)
              | none => (-1, s0, s0)) = (-1, s0, s0) := h
        rw [hsa] at h
        obtain ⟨r, hr⟩ := foldl_updBest_isSome
          (t.runCands st (j + 1) ((text.drop s0).drop (j + 1))) (t.lengthAt st, j + 1, st)
        replace h : (match List.foldl updBest (some (t.lengthAt st, j + 1, st))
              (t.runCands st (j + 1) ((text.drop s0).drop (j + 1))) with
            | some (len, endp, inode) =>
              (t.payload_at inode, s0 + endp - len, s0 + endp)
            | none => ((-1 : Int), s0, s0)) = (-1, s0, s0) := h
        rw [hr] at h
        replace h : (t.payload_at r.2.2, s0 + r.2.1 - r.1, s0 + r.2.1) =
            ((-1 : Int), s0, s0) := h
        have hend : 1 ≤ r.2.1 := by
          have hrm : r ∈ (t.lengthAt st, j + 1, st) ::
              (t.runCands st (j + 1) ((text.drop s0).drop (j + 1))).filter goodCand := by
            rw [foldBest_eq] at hr
            exact firstMax_mem _ r hr
          rcases List.mem_cons.mp hrm with hcase | hcase
          · rw [hcase]
            show 1 ≤ j + 1
            omega
          · have hmem2 := (List.mem_filter.mp hcase).1
            have := runCands_end_ge t ((text.drop s0).drop (j + 1)) st (j + 1) r hmem2
            omega
        have h3 := congrArg (fun x => x.2.2) h
        simp only at h3
        omega
  · intro h
    unfold AbsTrie.find_anchored
    rw [hmainA, h]
  · intro h
    cases hfa : (anchorsFrom text anchor s0).find?
        (fun a => decide ((walkCands T 0 a (text.drop a)).filter goodCandA ≠ [])) with
    | none => rfl
    | some a =>
      exfalso
      unfold AbsTrie.find_anchored at h
      rw [hmainA, hfa] at h
      have hpred := List.find?_some hfa
      simp only [decide_eq_true_eq] at hpred
      obtain ⟨r, hr⟩ := firstMax_isSome _ hpred
      replace h : (match firstMax ((walkCands T 0 a (text.drop a)).filter goodCandA) with
          | some (len, endp, inode) => (T.payload_at inode, endp - len, endp)
          | none => ((-1 : Int), s0, s0)) = (-1, s0, s0) := h
      rw [hr] at h
      replace h : (T.payload_at r.2.2, r.2.1 - r.1, r.2.1) = ((-1 : Int), s0, s0) := h
      have hage : s0 ≤ a :=
        anchorsFrom_ge_fuel text anchor (text.length - s0) s0 a (le_refl _)
          (List.mem_of_find?_eq_some hfa)
      have hend : a + 1 ≤ r.2.1 := by
        have hrm := firstMax_mem _ r hr
        have hmem2 := (List.mem_filter.mp hrm).1
        exact walkCands_end_ge T (text.drop a) 0 a r hmem2
      have h3 := congrArg (fun x => x.2.2) h
      simp only at h3
      omega

/-- Witness for C10: on the concrete trie with keys \x7bab: 7, b: 9\x7d, the
    text "xy" has no match of any kind and all three finders leave the
    positions untouched. -/
theorem find_frame_witness :
    sampleTrie.FailOk ∧
    ((sampleTrie.firstHit ([120, 121].drop 0) = none ↔
        sampleTrie.find_short [120, 121] 0 0 = (-1, 0, 0)) ∧
     (sampleTrie.firstHit ([120, 121].drop 0) = none ↔
        sampleTrie.find_longest [120, 121] 0 0 = (-1, 0, 0)) ∧
     ((anchorsFrom [120, 121] 31 0).find?
          (fun a => decide ((walkCands sampleTrie.toAbs 0 a
            ([120, 121].drop a)).filter goodCandA ≠ [])) = none ↔
        sampleTrie.toAbs.find_anchored [120, 121] 31 0 0 = (-1, 0, 0))) :=
  ⟨sampleTrie_failok,
   find_frame sampleTrie sampleTrie_failok sampleTrie.toAbs [120, 121] 31 0⟩

/-- Key lengths bounded by walk depth: there is a depth function, zero at the
    root, such that every transition increases it by at most one and every
    reachable state's key length is bounded by its depth.  Every compiled trie
    satisfies this because a terminal node's key length equals its distance
    from the root. -/
def AbsTrie.DepthOk (T : AbsTrie) : Prop :=
  ∃ d : Int → Nat, d 0 = 0 ∧
    ∀ i c, 0 ≤ T.child_at i c →
      d (T.child_at i c) ≤ d i + 1 ∧
      (T.get_node (T.child_at i c)).length ≤ d (T.child_at i c)

theorem walkCands_depth (T : AbsTrie) (d : Int → Nat)
    (hd : ∀ i c, 0 ≤ T.child_at i c →
      d (T.child_at i c) ≤ d i + 1 ∧
      (T.get_node (T.child_at i c)).length ≤ d (T.child_at i c)) :
    ∀ (cs : List Nat) (istate : Int) (pos : Nat) c, c ∈ walkCands T istate pos cs →
      c.1 + pos ≤ d istate + c.2.1 := by
  intro cs
  induction cs with
  | nil => intro istate pos c hmem; exact absurd hmem (List.not_mem_nil c)
  | cons b rest ih =>
    intro istate pos c hmem
    unfold walkCands at hmem
    by_cases hc : T.child_at istate b < 0
    · rw [if_pos hc] at hmem
      exact absurd hmem (List.not_mem_nil c)
    · rw [if_neg hc] at hmem
      obtain ⟨hstep, hlen⟩ := hd istate b (by omega)
      rcases List.mem_cons.mp hmem with h | h
      · rw [h]
        show (T.get_node (T.child_at istate b)).length + pos ≤ d istate + (pos + 1)
        omega
      · have := ih (T.child_at istate b) (pos + 1) c h
        omega

theorem find_short_step (t : FrozenTrie) (hwf : t.FailOk) (text : List Nat) (s : Nat) :
    (t.find_short text s s).2 = (s, s) ∨
    (s ≤ (t.find_short text s s).2.1 ∧
      (t.find_short text s s).2.1 < (t.find_short text s s).2.2) := by
  have hmain := t.findShortGo_eq hwf s s (text.drop s) (text.drop s) 0 0 rfl rfl
  rw [Nat.sub_zero] at hmain
  unfold FrozenTrie.find_short
  rw [hmain]
  cases hfh : t.firstHitFrom (text.drop s) (text.drop s).length 0 with
  | none => left; rfl
  | some j =>
    obtain ⟨hhit, _, _⟩ := t.firstHitFrom_some (text.drop s) (text.drop s).length 0 j hfh
    cases hsa : t.stateAfter (text.drop s) (j + 1) with
    | none =>
      unfold FrozenTrie.hitAt at hhit
      rw [hsa] at hhit
      exact absurd hhit (Bool.false_ne_true)
    | some st =>
      unfold FrozenTrie.hitAt at hhit
      rw [hsa] at hhit
      rw [decide_eq_true_eq] at hhit
      have heq : (match some j with
          | none => ((-1 : Int), s, s)
          | some j =>
            match t.stateAfter (text.drop s) (j + 1) with
            | none => ((-1 : Int), s, s)
            | some st => (t.payload_at st, s + j + 1 - t.lengthAt st, s + j + 1)) =
          (t.payload_at st, s + j + 1 - t.lengthAt st, s + j + 1) := by
        show (match t.stateAfter (text.drop s) (j + 1) with
            | none => ((-1 : Int), s, s)
            | some st => (t.payload_at st, s + j + 1 - t.lengthAt st, s + j + 1)) = _
        rw [hsa]
      rw [heq]
      right
      show s ≤ s + j + 1 - t.lengthAt st ∧ s + j + 1 - t.lengthAt st < s + j + 1
      omega

theorem find_longest_step (t : FrozenTrie) (hwf : t.FailOk) (text : List Nat) (s : Nat) :
    (t.find_longest text s s).2 = (s, s) ∨
    (s ≤ (t.find_longest text s s).2.1 ∧
      (t.find_longest text s s).2.1 < (t.find_longest text s s).2.2) := by
  have hmain := t.findLongestGo_none_eq hwf s s (text.drop s) (text.drop s) 0 0 rfl rfl
  rw [Nat.sub_zero] at hmain
  unfold FrozenTrie.find_longest
  rw [hmain]
  cases hfh : t.firstHitFrom (text.drop s) (text.drop s).length 0 with
  | none => left; rfl
  | some j =>
    obtain ⟨hhit, _, _⟩ := t.firstHitFrom_some (text.drop s) (text.drop s).length 0 j hfh
    cases hsa : t.stateAfter (text.drop s) (j + 1) with
    | none =>
      unfold FrozenTrie.hitAt at hhit
      rw [hsa] at hhit
      exact absurd hhit (Bool.false_ne_true)
    | some st =>
      unfold FrozenTrie.hitAt at hhit
      rw [hsa] at hhit
      rw [decide_eq_true_eq] at hhit
      obtain ⟨r, hr⟩ := foldl_updBest_isSome
        (t.runCands st (j + 1) ((text.drop s).drop (j + 1))) (t.lengthAt st, j + 1, st)
      have hgood : r.1 ≠ 0 ∧ r.1 ≤ r.2.1 := by
        have hrm : r ∈ (t.lengthAt st, j + 1, st) ::
            (t.runCands st (j + 1) ((text.drop s).drop (j + 1))).filter goodCand := by
          rw [foldBest_eq] at hr
          exact firstMax_mem _ r hr
        rcases List.mem_cons.mp hrm with hcase | hcase
        · rw [hcase]
          exact ⟨hhit.1, hhit.2⟩
        · have := (List.mem_filter.mp hcase).2
          simpa [goodCand] using this
      have heq : (match some j with
          | none => ((-1 : Int), s, s)
          | some j =>
            match t.stateAfter (text.drop s) (j + 1) with
            | none => ((-1 : Int), s, s)
            | some st =>
              match List.foldl updBest (some (t.lengthAt st, j + 1, st))
                  (t.runCands st (j + 1) ((text.drop s).drop (j + 1))) with
              | some (len, endp, inode) =>
                (t.payload_at inode, s + endp - len, s + endp)
              | none => ((-1 : Int), s, s)) =
          (t.payload_at r.2.2, s + r.2.1 - r.1, s + r.2.1) := by
        show (match t.stateAfter (text.drop s) (j + 1) with
            | none => ((-1 : Int), s, s)
            | some st =>
              match List.foldl updBest (some (t.lengthAt st, j + 1, st))
                  (t.runCands st (j + 1) ((text.drop s).drop (j + 1))) with
              | some (len, endp, inode) =>
                (t.payload_at inode, s + endp - len, s + endp)
              | none => ((-1 : Int), s, s)) = _
        rw [hsa]
        show (match List.foldl updBest (some (t.lengthAt st, j + 1, st))
              (t.runCands st (j + 1) ((text.drop s).drop (j + 1))) with
            | some (len, endp, inode) =>
              ((t.payload_at inode, s + endp - len, s + endp) : Int × Nat × Nat)
            | none => ((-1 : Int), s, s)) = _
        rw [hr]
      rw [heq]
      right
      show s ≤ s + r.2.1 - r.1 ∧ s + r.2.1 - r.1 < s + r.2.1
      omega

theorem find_anchored_step (T : AbsTrie) (hdep : T.DepthOk) (text : List Nat)
    (anchor : Nat) (s : Nat) :
    (T.find_anchored text anchor s s).2 = (s, s) ∨
    (s ≤ (T.find_anchored text anchor s s).2.1 ∧
      (T.find_anchored text anchor s s).2.1 < (T.find_anchored text anchor s s).2.2) := by
  obtain ⟨d, hd0, hd⟩ := hdep
  have hmain := findAnchoredGo_eq T text anchor s s (text.length - s) s (le_refl _)
  unfold AbsTrie.find_anchored
  rw [hmain]
  cases hfa : (anchorsFrom text anchor s).find?
      (fun a => decide ((walkCands T 0 a (text.drop a)).filter goodCandA ≠ [])) with
  | none => left; rfl
  | some a =>
    have hpred := List.find?_some hfa
    simp only [decide_eq_true_eq] at hpred
    obtain ⟨r, hr⟩ := firstMax_isSome _ hpred
    have hage : s ≤ a :=
      anchorsFrom_ge_fuel text anchor (text.length - s) s a (le_refl _)
        (List.mem_of_find?_eq_some hfa)
    have hrm := firstMax_mem _ r hr
    have hmemw := (List.mem_filter.mp hrm).1
    have hgoodA : r.1 ≠ 0 := by
      have := (List.mem_filter.mp hrm).2
      simpa [goodCandA] using this
    have hend : a + 1 ≤ r.2.1 := walkCands_end_ge T (text.drop a) 0 a r hmemw
    have hdepth : r.1 + a ≤ d 0 + r.2.1 := walkCands_depth T d hd (text.drop a) 0 a r hmemw
    rw [hd0] at hdepth
    have heq : (match some a with
        | none => ((-1 : Int), s, s)
        | some a =>
          match firstMax ((walkCands T 0 a (text.drop a)).filter goodCandA) with
          | some (len, endp, inode) => (T.payload_at inode, endp - len, endp)
          | none => ((-1 : Int), s, s)) =
        (T.payload_at r.2.2, r.2.1 - r.1, r.2.1) := by
      show (match firstMax ((walkCands T 0 a (text.drop a)).filter goodCandA) with
          | some (len, endp, inode) =>
            ((T.payload_at inode, endp - len, endp) : Int × Nat × Nat)
          | none => ((-1 : Int), s, s)) = _
      rw [hr]
    rw [heq]
    right
    show s ≤ r.2.1 - r.1 ∧ r.2.1 - r.1 < r.2.1
    omega

/-- The findall iterators (AhoIterator.__next__ / MappedIterator.__next__,
    noaho.pyx): the cursor pair starts at (0, 0); each step calls the
    single-match function with start = end, yields `(start, end, payload)`
    while start < end, and then sets start to the match end; iteration stops
    at the first call that leaves start = end.  Fuel `text.length + 1` covers
    every possible iteration because the cursor strictly increases and match
    ends never exceed the text length. -/
def findallGo (f : Nat → Nat → Int × Nat × Nat) : Nat → Nat → List (Nat × Nat × Int)
  | 0, _ => []
  | fuel + 1, cur =>
    match f cur cur with
    | (p, s', e') => if s' < e' then (s', e', p) :: findallGo f fuel e' else []

def FrozenTrie.findall_short (t : FrozenTrie) (text : List Nat) :
    List (Nat × Nat × Int) :=
  findallGo (fun s e => t.find_short text s e) (text.length + 1) 0

def FrozenTrie.findall_long (t : FrozenTrie) (text : List Nat) :
    List (Nat × Nat × Int) :=
  findallGo (fun s e => t.find_longest text s e) (text.length + 1) 0

def AbsTrie.findall_anchored (T : AbsTrie) (text : List Nat) (anchor : Nat) :
    List (Nat × Nat × Int) :=
  findallGo (fun s e => T.find_anchored text anchor s e) (text.length + 1) 0

theorem findallGo_succ (f : Nat → Nat → Int × Nat × Nat) (fuel cur : Nat) :
    findallGo f (fuel + 1) cur =
      if (f cur cur).2.1 < (f cur cur).2.2 then
        ((f cur cur).2.1, (f cur cur).2.2, (f cur cur).1) :: findallGo f fuel (f cur cur).2.2
      else [] := rfl

theorem findallGo_chain (f : Nat → Nat → Int × Nat × Nat)
    (hf : ∀ s, (f s s).2 = (s, s) ∨ (s ≤ (f s s).2.1 ∧ (f s s).2.1 < (f s s).2.2)) :
    ∀ fuel cur,
      (∀ m ∈ findallGo f fuel cur, cur ≤ m.1 ∧ m.1 < m.2.1) ∧
      List.Chain' (fun m1 m2 => m1.2.1 ≤ m2.1 ∧ m1.1 < m2.1) (findallGo f fuel cur) := by
  intro fuel
  induction fuel with
  | zero =>
    intro cur
    exact ⟨fun m hm => absurd hm (List.not_mem_nil m), List.chain'_nil⟩
  | succ fuel ih =>
    intro cur
    rw [findallGo_succ]
    by_cases hlt : (f cur cur).2.1 < (f cur cur).2.2
    · rw [if_pos hlt]
      have hcur : cur ≤ (f cur cur).2.1 := by
        rcases hf cur with h | h
        · exfalso
          have h1 : (f cur cur).2.1 = cur := congrArg Prod.fst h
          have h2 : (f cur cur).2.2 = cur := congrArg Prod.snd h
          omega
        · exact h.1
      obtain ⟨helem, hchain⟩ := ih (f cur cur).2.2
      constructor
      · intro m hm
        rcases List.mem_cons.mp hm with h | h
        · rw [h]
          exact ⟨hcur, hlt⟩
        · have := helem m h
          exact ⟨by omega, this.2⟩
      · rw [List.chain'_cons']
        refine ⟨?_, hchain⟩
        intro b hb
        have hbmem : b ∈ findallGo f fuel (f cur cur).2.2 := List.mem_of_mem_head? hb
        have := helem b hbmem
        exact ⟨this.1, by omega⟩
    · rw [if_neg hlt]
      exact ⟨fun m hm => absurd hm (List.not_mem_nil m), List.chain'_nil⟩

/-- C7: for every compiled trie and text, consecutive matches yielded by
    findall_short, findall_long, and findall_anchored do not overlap
    (`e1 ≤ s2`) and the match starts are strictly increasing, because each
    single-match call returns a match starting at or after the caller's cursor
    and the cursor is advanced to the previous match end. -/
theorem findall_nonoverlap (t : FrozenTrie) (hwf : t.FailOk) (T : AbsTrie)
    (hdep : T.DepthOk) (text : List Nat) (anchor : Nat) :
    List.Chain' (fun m1 m2 => m1.2.1 ≤ m2.1 ∧ m1.1 < m2.1) (t.findall_short text) ∧
    List.Chain' (fun m1 m2 => m1.2.1 ≤ m2.1 ∧ m1.1 < m2.1) (t.findall_long text) ∧
    List.Chain' (fun m1 m2 => m1.2.1 ≤ m2.1 ∧ m1.1 < m2.1)
      (T.findall_anchored text anchor) :=
  ⟨(findallGo_chain _ (fun s => find_short_step t hwf text s) (text.length + 1) 0).2,
   (findallGo_chain _ (fun s => find_longest_step t hwf text s) (text.length + 1) 0).2,
   (findallGo_chain _ (fun s => find_anchored_step T hdep text anchor s)
     (text.length + 1) 0).2⟩

theorem FrozenNode.child_at_cases (n : FrozenNode) (chars : List Nat)
    (indices : List Int) (c : Nat) :
    n.child_at chars indices c = -1 ∨
    ∃ pos, n.child_at chars indices c = indices.getD pos (-1) := by
  by_cases h : lowerBoundIdx ((chars.drop n.chars_offset).take n.chars_count) c =
      ((chars.drop n.chars_offset).take n.chars_count).length ∨
      ((chars.drop n.chars_offset).take n.chars_count).getD
        (lowerBoundIdx ((chars.drop n.chars_offset).take n.chars_count) c) 0 ≠ c
  · left
    exact if_pos h
  · right
    exact ⟨n.chars_offset +
      lowerBoundIdx ((chars.drop n.chars_offset).take n.chars_count) c, if_neg h⟩

/-- A minimal compiled trie (single key "b", payload 5) used as a witness for
    the depth-bounded hypothesis. -/
def tinyTrie : FrozenTrie :=
  { nodes :=
      [ { chars_offset := 0, ifailure_state := 0, chars_count := 1, length := 0 },
        { chars_offset := 1, ifailure_state := 0, chars_count := 0, length := 1 } ],
    chars := [98],
    indices := [1],
    payloads := [(1, 5)] }

theorem tinyTrie_failok : tinyTrie.FailOk := by
  intro i
  refine ⟨1, by decide, ?_⟩
  show tinyTrie.failOf i = 0
  unfold FrozenTrie.failOf FrozenTrie.nodeAt
  refine getD_cases (fun nd : FrozenNode => nd.ifailure_state = 0) _ _ _ ?_ rfl
  intro x hx
  simp only [tinyTrie, List.mem_cons, List.not_mem_nil, or_false] at hx
  rcases hx with h | h <;> simp [h]

theorem tinyTrie_child_mem (i : Int) (c : Nat) :
    tinyTrie.child_at i c = -1 ∨ tinyTrie.child_at i c = 0 ∨
      tinyTrie.child_at i c = 1 := by
  have hval : tinyTrie.rawChildAt i c = -1 ∨ tinyTrie.rawChildAt i c = 1 := by
    rcases FrozenNode.child_at_cases (tinyTrie.nodeAt i) tinyTrie.chars
        tinyTrie.indices c with h | ⟨pos, h⟩
    · left; exact h
    · show tinyTrie.rawChildAt i c = -1 ∨ tinyTrie.rawChildAt i c = 1
      unfold FrozenTrie.rawChildAt
      rw [h]
      refine getD_cases (fun v : Int => v = -1 ∨ v = 1) _ _ _ ?_ (Or.inl rfl)
      intro x hx
      simp only [tinyTrie, List.mem_cons, List.not_mem_nil, or_false] at hx
      right
      exact hx
  by_cases hcase : tinyTrie.rawChildAt i c < 0 ∧ i = 0
  · right; left
    exact if_pos hcase
  · have hne : tinyTrie.child_at i c = tinyTrie.rawChildAt i c := if_neg hcase
    rcases hval with h | h
    · left; rw [hne, h]
    · right; right; rw [hne, h]

theorem tinyTrie_depthok : tinyTrie.toAbs.DepthOk := by
  refine ⟨fun i => if i = 1 then 1 else 0, by norm_num, ?_⟩
  intro i c hge
  have habs : tinyTrie.toAbs.child_at = tinyTrie.child_at := rfl
  rw [habs] at hge ⊢
  rcases tinyTrie_child_mem i c with h | h | h
  · exfalso
    rw [h] at hge
    omega
  · rw [h]
    constructor
    · show (if (0 : Int) = 1 then 1 else 0) ≤ (if i = 1 then 1 else 0) + 1
      split <;> omega
    · show (tinyTrie.toAbs.get_node 0).length ≤ if (0 : Int) = 1 then 1 else 0
      decide
  · rw [h]
    constructor
    · show (if (1 : Int) = 1 then 1 else 0) ≤ (if i = 1 then 1 else 0) + 1
      split <;> omega
    · show (tinyTrie.toAbs.get_node 1).length ≤ if (1 : Int) = 1 then 1 else 0
      decide

/-- Witness for C7: the three findall iterators on the single-key trie "b"
    over the text "xbb" yield non-overlapping matches in strictly increasing
    start order. -/
theorem findall_nonoverlap_witness :
    tinyTrie.FailOk ∧ tinyTrie.toAbs.DepthOk ∧
    (List.Chain' (fun m1 m2 => m1.2.1 ≤ m2.1 ∧ m1.1 < m2.1)
        (tinyTrie.findall_short [120, 98, 98]) ∧
     List.Chain' (fun m1 m2 => m1.2.1 ≤ m2.1 ∧ m1.1 < m2.1)
        (tinyTrie.findall_long [120, 98, 98]) ∧
     List.Chain' (fun m1 m2 => m1.2.1 ≤ m2.1 ∧ m1.1 < m2.1)
        (tinyTrie.toAbs.findall_anchored [120, 98, 98] 98)) :=
  ⟨tinyTrie_failok, tinyTrie_depthok,
   findall_nonoverlap tinyTrie tinyTrie_failok tinyTrie.toAbs tinyTrie_depthok
     [120, 98, 98] 98⟩

/-- The UTF-8 byte-to-code-point index map (class Utf8CodePoints). -/
structure Utf8CodePoints where
  indices : List Nat
  deriving DecidableEq, Repr

/-- Utf8CodePoints::create (array-aho.cpp:758-767): record every position
    whose byte is not a UTF-8 continuation byte, that is
    `(byte & 0xC0) != 0x80` (ASCII bytes and sequence leaders). -/
def Utf8CodePoints.create (s : List Nat) : Utf8CodePoints :=
  { indices := (List.range s.length).filter (fun i => decide (s.getD i 0 &&& 0xC0 ≠ 0x80)) }

/-- Utf8CodePoints::get_codepoint_index (array-aho.cpp:770-774): lower_bound
    of the byte index in the recorded positions. -/
def Utf8CodePoints.get_codepoint_index (u : Utf8CodePoints) (byte_index : Nat) : Nat :=
  lowerBoundIdx u.indices byte_index

theorem lowerBoundIdx_rank :
    ∀ (l : List Nat), l.Pairwise (· < ·) → ∀ b,
      lowerBoundIdx l b = (l.filter (fun x => decide (x < b))).length := by
  intro l
  induction l with
  | nil => intro _ b; rfl
  | cons x rest ih =>
    intro hp b
    unfold lowerBoundIdx
    rw [List.findIdx_cons (fun x => decide (b ≤ x)) x rest]
    by_cases hbx : b ≤ x
    · rw [decide_eq_true hbx]
      have hfil : rest.filter (fun y => decide (y < b)) = [] := by
        refine List.filter_eq_nil_iff.mpr ?_
        intro a ha
        have hax : x < a := (List.pairwise_cons.mp hp).1 a ha
        simp only [decide_eq_true_eq]
        omega
      rw [List.filter_cons_of_neg (by simp only [decide_eq_true_eq]; omega), hfil]
      rfl
    · rw [decide_eq_false hbx]
      rw [List.filter_cons_of_pos (by simp only [decide_eq_true_eq]; omega)]
      show rest.findIdx (fun x => decide (b ≤ x)) + 1 = _
      rw [show (fun x => decide (b ≤ x)) = fun x => decide (b ≤ x) from rfl]
      have := ih (List.Pairwise.of_cons hp) b
      unfold lowerBoundIdx at this
      rw [this]
      simp

theorem lowerBoundIdx_min (l : List Nat) (hp : l.Pairwise (· < ·)) (b : Nat)
    (h : lowerBoundIdx l b < l.length) :
    b ≤ l.getD (lowerBoundIdx l b) 0 ∧
    ∀ p ∈ l, b ≤ p → l.getD (lowerBoundIdx l b) 0 ≤ p := by
  constructor
  · have := findIdx_getD l (fun x => decide (b ≤ x)) h
    simpa using this
  · intro p hp2 hbp
    obtain ⟨i, hi, hip⟩ := List.mem_iff_getElem.mp hp2
    rw [List.getD_eq_getElem l 0 h]
    by_cases hij : i < lowerBoundIdx l b
    · exfalso
      have hfalse := List.not_of_lt_findIdx hij
      rw [hip] at hfalse
      simp only [decide_eq_false_iff_not, not_le] at hfalse
      omega
    · by_cases heq : lowerBoundIdx l b = i
      · simp only [heq]
        rw [hip]
      · have hlt : lowerBoundIdx l b < i := by omega
        have := List.pairwise_iff_getElem.mp hp _ i h hi hlt
        omega

theorem utf8Indices_sorted (s : List Nat) :
    (Utf8CodePoints.create s).indices.Pairwise (· < ·) :=
  (List.pairwise_lt_range s.length).filter _

/-- C8: the UTF-8 index map records exactly the positions whose byte satisfies
    `(byte & 0xC0) != 0x80`; `get_codepoint_index` is the lower_bound of the
    byte index in that list, i.e. the number of recorded positions strictly
    below the byte index; and when the byte index falls inside a multi-byte
    sequence the result designates the next recorded position — always an
    ASCII or leading byte, never a continuation byte. -/
theorem utf8_codepoints_correct (s : List Nat) (b : Nat) :
    (∀ i, i ∈ (Utf8CodePoints.create s).indices ↔
       i < s.length ∧ s.getD i 0 &&& 0xC0 ≠ 0x80) ∧
    (Utf8CodePoints.create s).get_codepoint_index b =
      ((Utf8CodePoints.create s).indices.filter (fun x => decide (x < b))).length ∧
    ((Utf8CodePoints.create s).get_codepoint_index b <
        (Utf8CodePoints.create s).indices.length →
      b ≤ (Utf8CodePoints.create s).indices.getD
          ((Utf8CodePoints.create s).get_codepoint_index b) 0 ∧
      s.getD ((Utf8CodePoints.create s).indices.getD
          ((Utf8CodePoints.create s).get_codepoint_index b) 0) 0 &&& 0xC0 ≠ 0x80 ∧
      ∀ p ∈ (Utf8CodePoints.create s).indices, b ≤ p →
        (Utf8CodePoints.create s).indices.getD
          ((Utf8CodePoints.create s).get_codepoint_index b) 0 ≤ p) := by
  have hmem : ∀ i, i ∈ (Utf8CodePoints.create s).indices ↔
      i < s.length ∧ s.getD i 0 &&& 0xC0 ≠ 0x80 := by
    intro i
    unfold Utf8CodePoints.create
    rw [List.mem_filter, List.mem_range]
    simp only [decide_eq_true_eq]
  refine ⟨hmem, ?_, ?_⟩
  · exact lowerBoundIdx_rank _ (utf8Indices_sorted s) b
  · intro h
    obtain ⟨hge, hmin⟩ := lowerBoundIdx_min _ (utf8Indices_sorted s) b h
    refine ⟨hge, ?_, hmin⟩
    have hmem2 : (Utf8CodePoints.create s).indices.getD
        ((Utf8CodePoints.create s).get_codepoint_index b) 0 ∈
        (Utf8CodePoints.create s).indices := by
      rw [List.getD_eq_getElem _ 0 h]
      exact List.getElem_mem _
    exact ((hmem _).mp hmem2).2

/-- Witness for C8 on the byte string "aé" (bytes 97, 0xC3, 0xA9): byte index
    1 is the leader of the two-byte sequence; a byte index of 2 (inside the
    sequence) maps past it, never to the continuation byte. -/
theorem utf8_codepoints_correct_witness :
    (Utf8CodePoints.create [97, 195, 169]).indices = [0, 1] ∧
    (Utf8CodePoints.create [97, 195, 169]).get_codepoint_index 1 <
      (Utf8CodePoints.create [97, 195, 169]).indices.length ∧
    1 ≤ (Utf8CodePoints.create [97, 195, 169]).indices.getD
        ((Utf8CodePoints.create [97, 195, 169]).get_codepoint_index 1) 0 ∧
    [97, 195, 169].getD ((Utf8CodePoints.create [97, 195, 169]).indices.getD
        ((Utf8CodePoints.create [97, 195, 169]).get_codepoint_index 1) 0) 0 &&&
      0xC0 ≠ 0x80 := by
  have h := (utf8_codepoints_correct [97, 195, 169] 1).2.2 (by decide)
  exact ⟨by decide, by decide, h.1, h.2.1⟩

/-- A mapped array (template class MappedArray): the elements carved out of
    the mapped file region after the size prefix; `siz` is the recorded
    size. -/
structure MappedArray (α : Type) where
  data : List α
  siz : Nat
  deriving DecidableEq, Repr

/-- MappedArray::ptr (array-aho.cpp:792-797): bounds check against the
    recorded size; an index equal to the size is allowed (it is used as an
    end iterator), anything greater throws "ptr out of range". -/
def MappedArray.ptrOk {α : Type} (a : MappedArray α) (index : Nat) :
    Except TrieError Unit :=
  if index > a.siz then Except.error TrieError.OutOfRange else Except.ok ()

/-- MappedArray::get (array-aho.cpp:803-805): dereference of the checked
    pointer. -/
def MappedArray.get {α : Type} [Inhabited α] (a : MappedArray α) (index : Nat) :
    Except TrieError α := do
  _ ← a.ptrOk index
  pure (a.data.getD index default)

/-- C9: access to a mapped array at an index past the recorded size fails with
    the OutOfRange error kind instead of returning data; every access is
    checked against the size recorded in the array's size prefix (an index
    equal to the size passes the check, as the pointer one past the last
    element is a legal end iterator). -/
theorem mapped_array_bounds {α : Type} [Inhabited α] (a : MappedArray α) (i : Nat) :
    (a.siz < i →
      a.get i = Except.error TrieError.OutOfRange ∧
      a.ptrOk i = Except.error TrieError.OutOfRange) ∧
    (i ≤ a.siz →
      a.ptrOk i = Except.ok () ∧ a.get i = Except.ok (a.data.getD i default)) := by
  constructor
  · intro h
    have hp : a.ptrOk i = Except.error TrieError.OutOfRange := by
      unfold MappedArray.ptrOk
      rw [if_pos h]
    constructor
    · unfold MappedArray.get
      rw [hp]
      rfl
    · exact hp
  · intro h
    have hp : a.ptrOk i = Except.ok () := by
      unfold MappedArray.ptrOk
      rw [if_neg (by omega)]
    constructor
    · exact hp
    · unfold MappedArray.get
      rw [hp]
      rfl

/-- Witness for C9 on a concrete two-element mapped array. -/
theorem mapped_array_bounds_witness :
    ((⟨[10, 20], 2⟩ : MappedArray Nat).get 3 = Except.error TrieError.OutOfRange) ∧
    ((⟨[10, 20], 2⟩ : MappedArray Nat).get 1 = Except.ok 20) :=
  ⟨((mapped_array_bounds (⟨[10, 20], 2⟩ : MappedArray Nat) 3).1 (by decide)).1,
   ((mapped_array_bounds (⟨[10, 20], 2⟩ : MappedArray Nat) 1).2 (by decide)).2⟩

/-- A builder node (struct Node, array-aho.h:51-91): child list kept sorted by
    byte, failure state, payload (`-1` when absent). -/
structure BNode where
  children : List (Nat × Int)
  ifailure_state : Int
  payload : Int
  deriving DecidableEq, Repr

instance : Inhabited BNode :=
  ⟨{ children := [], ifailure_state := 0, payload := -1 }⟩

/-- Node::child_at: lower_bound in the sorted child list; `-1` when the byte
    is not a child. -/
def BNode.child_at (n : BNode) (c : Nat) : Int :=
  match n.children.find? (fun ch => decide (c ≤ ch.1)) with
  | some ch => if ch.1 = c then ch.2 else -1
  | none => -1

/-- Node::set_child: overwrite the entry with the same byte or insert at the
    lower_bound position, keeping the list sorted. -/
def insertChild : List (Nat × Int) → Nat → Int → List (Nat × Int)
  | [], c, idx => [(c, idx)]
  | ch :: rest, c, idx =>
    if c < ch.1 then (c, idx) :: ch :: rest
    else if ch.1 = c then (c, idx) :: rest
    else ch :: insertChild rest c idx

def BNode.set_child (n : BNode) (c : Nat) (idx : Int) : BNode :=
  { n with children := insertChild n.children c idx }

/-- The builder (class AhoCorasickTrie): node arena, per-node key lengths
    (deque of `unsigned short`), and the frozen trie once compiled. -/
structure AhoCorasickTrie where
  nodes : List BNode
  lengths : List Nat
  frozen : Option FrozenTrie

/-- AhoCorasickTrie::AhoCorasickTrie: born with the root node. -/
def emptyTrie : AhoCorasickTrie :=
  { nodes := [default], lengths := [0], frozen := none }

/-- The insertion loop of AhoCorasickTrie::add_string: walk the key's path,
    appending a fresh node (add_node) and linking it where a child is
    missing; returns the arena, the lengths, and the index of the terminal
    node. -/
def addChain : List BNode → List Nat → Int → Int → List Nat →
    List BNode × List Nat × Int
  | nodes, lengths, _, ichild, [] => (nodes, lengths, ichild)
  | nodes, lengths, iparent, _, c :: rest =>
    let ich := (nodes.getD iparent.toNat default).child_at c
    if ich < 0 then
      let newIdx : Int := (nodes.length : Int)
      let nodes' := nodes ++ [default]
      let nodes'' := nodes'.set iparent.toNat
        ((nodes'.getD iparent.toNat default).set_child c newIdx)
      addChain nodes'' (lengths ++ [0]) newIdx newIdx rest
    else
      addChain nodes lengths ich ich rest

/-- AhoCorasickTrie::add_string (array-aho.cpp:535-558): throws on a compiled
    trie, otherwise inserts the key's path and stores the payload and the key
    length (an `unsigned short`, hence mod 2^16) at the terminal node. -/
def AhoCorasickTrie.add_string (T : AhoCorasickTrie) (key : List Nat)
    (payload : Int) : Except TrieError AhoCorasickTrie :=
  if T.frozen.isSome then Except.error TrieError.BuildState
  else
    let r := addChain T.nodes T.lengths 0 0 key
    Except.ok
      { nodes := r.1.set r.2.2.toNat
          { r.1.getD r.2.2.toNat default with payload := payload },
        lengths := r.2.1.set r.2.2.toNat (key.length % 65536),
        frozen := none }

/-- NoAho.add (noaho.pyx:563-581): an empty key is rejected with a ValueError
    (InvalidInput) before reaching the C++ builder; the payload index is then
    stored by add_string, which raises (BuildState) on a compiled trie. -/
def NoAho.add (T : AhoCorasickTrie) (key : List Nat) (payload : Int) :
    Except TrieError AhoCorasickTrie :=
  if key.length = 0 then Except.error TrieError.InvalidInput
  else T.add_string key payload

/-- C5: add fails with InvalidInput on the empty key, fails with BuildState
    when the trie has already been compiled, and accepts a non-empty key
    added before compile. -/
theorem add_error_kinds (T : AhoCorasickTrie) (key : List Nat) (payload : Int) :
    (key = [] → NoAho.add T key payload = Except.error TrieError.InvalidInput) ∧
    (key ≠ [] → T.frozen.isSome →
      NoAho.add T key payload = Except.error TrieError.BuildState) ∧
    (key ≠ [] → T.frozen = none →
      ∃ T', NoAho.add T key payload = Except.ok T') := by
  refine ⟨?_, ?_, ?_⟩
  · intro h
    subst h
    rfl
  · intro hk hf
    unfold NoAho.add
    rw [if_neg (by simpa using hk)]
    unfold AhoCorasickTrie.add_string
    rw [if_pos hf]
  · intro hk hf
    unfold NoAho.add
    rw [if_neg (by simpa using hk)]
    unfold AhoCorasickTrie.add_string
    rw [if_neg (by rw [hf]; simp)]
    exact ⟨_, rfl⟩

/-- Witness for C5: the empty key, a key added after compile, and a key added
    before compile, on concrete builders. -/
theorem add_error_kinds_witness :
    (NoAho.add emptyTrie [] 0 = Except.error TrieError.InvalidInput) ∧
    (NoAho.add { emptyTrie with frozen := some tinyTrie } [98] 0 =
      Except.error TrieError.BuildState) ∧
    (∃ T', NoAho.add emptyTrie [98] 0 = Except.ok T') :=
  ⟨(add_error_kinds emptyTrie [] 0).1 rfl,
   (add_error_kinds { emptyTrie with frozen := some tinyTrie } [98] 0).2.1
     (by decide) rfl,
   (add_error_kinds emptyTrie [98] 0).2.2 (by decide) rfl⟩

/-- The raw trie walk shared by FrozenTrie::contains and
    FrozenTrie::get_payload (array-aho.cpp:473-484, 509-522): plain child
    lookups with no root special case, `-1` once a byte has no child. -/
def FrozenTrie.walkRaw (t : FrozenTrie) : Int → List Nat → Int
  | inode, [] => inode
  | inode, c :: rest =>
    let j := (t.nodeAt inode).child_at t.chars t.indices c
    if j < 0 then -1 else t.walkRaw j rest

/-- FrozenTrie::contains: walk the exact byte sequence, then the terminal's
    key length decides. -/
def FrozenTrie.contains (t : FrozenTrie) (key : List Nat) : Int :=
  let inode := t.walkRaw 0 key
  if inode < 0 then 0
  else if (t.nodeAt inode).length ≠ 0 then 1 else 0

/-- FrozenTrie::get_payload: walk the exact byte sequence; a terminal node
    yields its payload-table entry, everything else `-1`. -/
def FrozenTrie.get_payload (t : FrozenTrie) (key : List Nat) : Int :=
  let inode := t.walkRaw 0 key
  if inode < 0 then -1
  else if (t.nodeAt inode).length ≠ 0 then t.payload_at inode else -1

/-- The raw walk on the builder arena, mirroring FrozenTrie.walkRaw. -/
def walkB (nodes : List BNode) : Int → List Nat → Int
  | inode, [] => inode
  | inode, c :: rest =>
    let j := (nodes.getD inode.toNat default).child_at c
    if j < 0 then -1 else walkB nodes j rest

/-- AhoCorasickTrie::child_at (array-aho.cpp:660-667): builder child lookup
    with the root special case, used by make_failure_links. -/
def builderChildAt (nodes : List BNode) (i : Int) (c : Nat) : Int :=
  let ichild := (nodes.getD i.toNat default).child_at c
  if ichild < 0 ∧ i = 0 then 0 else ichild

/-- The failure-chain walk of make_failure_links (array-aho.cpp:637-642):
    follow failure links until a state with a (root-augmented) transition is
    found; fuel bounds the chain, returning the last lookup on exhaustion. -/
def mflResolve (nodes : List BNode) : Nat → Int → Nat → Int
  | 0, istate, c => builderChildAt nodes istate c
  | fuel + 1, istate, c =>
    let j := builderChildAt nodes istate c
    if 0 ≤ j then j
    else mflResolve nodes fuel ((nodes.getD istate.toNat default).ifailure_state) c

/-- The inner loop of make_failure_links over the children of the dequeued
    node `r`: each child's failure state is the resolution of `r`'s failure
    state on the child's byte. -/
def mflChildren (r : Int) : List (Nat × Int) → List BNode → List BNode
  | [], nodes => nodes
  | (a, s) :: rest, nodes =>
    let f := mflResolve nodes nodes.length
      ((nodes.getD r.toNat default).ifailure_state) a
    mflChildren r rest (nodes.set s.toNat
      { nodes.getD s.toNat default with ifailure_state := f })

/-- The BFS of make_failure_links (array-aho.cpp:614-646), with fuel (on a
    real trie every node is enqueued exactly once, so `nodes.length` rounds
    suffice). -/
def mflGo : Nat → List BNode → List Int → List BNode
  | 0, nodes, _ => nodes
  | _ + 1, nodes, [] => nodes
  | fuel + 1, nodes, r :: q =>
    let children := (nodes.getD r.toNat default).children
    mflGo fuel (mflChildren r children nodes) (q ++ children.map Prod.snd)

/-- AhoCorasickTrie::make_failure_links: direct children of the root fail to
    the root, the root fails to itself, then the BFS assigns every other
    failure link. -/
def AhoCorasickTrie.make_failure_links (T : AhoCorasickTrie) : AhoCorasickTrie :=
  let rootChildren := (T.nodes.getD 0 default).children
  let nodes1 := rootChildren.foldl
    (fun ns ch => ns.set ch.2.toNat
      { ns.getD ch.2.toNat default with ifailure_state := 0 }) T.nodes
  let nodes2 := nodes1.set 0 { nodes1.getD 0 default with ifailure_state := 0 }
  { T with nodes := mflGo (nodes2.length + 1) nodes2 (rootChildren.map Prod.snd) }

/-- Projection of a builder node to everything make_failure_links must not
    touch. -/
def projB (n : BNode) : List (Nat × Int) × Int := (n.children, n.payload)

theorem map_projB_set_ifail (nodes : List BNode) :
    ∀ (i : Nat) (f : Int),
      ((nodes.set i { nodes.getD i default with ifailure_state := f }).map projB) =
        nodes.map projB := by
  induction nodes with
  | nil => intro i f; rfl
  | cons x rest ih =>
    intro i f
    cases i with
    | zero => rfl
    | succ i =>
      show (x :: rest.set i _).map projB = _
      simp only [List.map_cons]
      rw [show List.getD (x :: rest) (i + 1) default = rest.getD i default from rfl]
      rw [ih i f]

theorem mflChildren_projB (r : Int) :
    ∀ (chs : List (Nat × Int)) (nodes : List BNode),
      (mflChildren r chs nodes).map projB = nodes.map projB := by
  intro chs
  induction chs with
  | nil => intro nodes; rfl
  | cons ch rest ih =>
    intro nodes
    show (mflChildren r rest _).map projB = _
    rw [ih, map_projB_set_ifail]

theorem mflGo_projB :
    ∀ (fuel : Nat) (nodes : List BNode) (q : List Int),
      (mflGo fuel nodes q).map projB = nodes.map projB := by
  intro fuel
  induction fuel with
  | zero => intro nodes q; rfl
  | succ fuel ih =>
    intro nodes q
    cases q with
    | nil => rfl
    | cons r rest =>
      show (mflGo fuel (mflChildren r _ nodes) _).map projB = _
      rw [ih, mflChildren_projB]

theorem foldl_set_ifail_projB :
    ∀ (chs : List (Nat × Int)) (nodes : List BNode),
      ((chs.foldl (fun ns ch => ns.set ch.2.toNat
          { ns.getD ch.2.toNat default with ifailure_state := 0 }) nodes).map projB) =
        nodes.map projB := by
  intro chs
  induction chs with
  | nil => intro nodes; rfl
  | cons ch rest ih =>
    intro nodes
    rw [List.foldl_cons, ih, map_projB_set_ifail]

theorem make_failure_links_projB (T : AhoCorasickTrie) :
    (T.make_failure_links).nodes.map projB = T.nodes.map projB ∧
    (T.make_failure_links).lengths = T.lengths ∧
    (T.make_failure_links).frozen = T.frozen := by
  refine ⟨?_, rfl, rfl⟩
  show (mflGo _ _ _).map projB = _
  rw [mflGo_projB, map_projB_set_ifail, foldl_set_ifail_projB]

/-- The FrozenTrie constructor loop (array-aho.cpp:302-347): pop builder nodes
    in order, packing lengths, failure states, child bytes, and child indices,
    and recording a payload-table entry for every node with a non-negative
    payload; a node with more than INT16_MAX children makes it throw. -/
def freezeGo : List BNode → List Nat → Nat → Nat → FrozenTrie → Option FrozenTrie
  | [], _, _, _, acc => some acc
  | n :: rest, lengths, chars_index, nodes_index, acc =>
    if 32767 < n.children.length then none
    else
      freezeGo rest (lengths.drop 1) (chars_index + n.children.length)
        (nodes_index + 1)
        { nodes := acc.nodes ++
            [{ chars_offset := chars_index, ifailure_state := n.ifailure_state,
               chars_count := n.children.length, length := lengths.headD 0 }],
          chars := acc.chars ++ n.children.map Prod.fst,
          indices := acc.indices ++ n.children.map Prod.snd,
          payloads := acc.payloads ++
            (if 0 ≤ n.payload then [((nodes_index : Int), n.payload)] else []) }

def freeze (nodes : List BNode) (lengths : List Nat) : Option FrozenTrie :=
  freezeGo nodes lengths 0 0 { nodes := [], chars := [], indices := [], payloads := [] }

/-- AhoCorasickTrie::compile: idempotent; builds the failure links and hands
    the arena to the FrozenTrie constructor. -/
def AhoCorasickTrie.compile (T : AhoCorasickTrie) : Option AhoCorasickTrie :=
  if T.frozen.isSome then some T
  else
    let T2 := T.make_failure_links
    match freeze T2.nodes T2.lengths with
    | none => none
    | some ft => some { T2 with frozen := some ft }

/-- The packed node records produced by freezing, described directly. -/
def fzNodes : List BNode → List Nat → Nat → List FrozenNode
  | [], _, _ => []
  | n :: rest, ls, ci =>
    { chars_offset := ci, ifailure_state := n.ifailure_state,
      chars_count := n.children.length, length := ls.headD 0 } ::
      fzNodes rest (ls.drop 1) (ci + n.children.length)

def fzChars : List BNode → List Nat
  | [] => []
  | n :: rest => n.children.map Prod.fst ++ fzChars rest

def fzIndices : List BNode → List Int
  | [] => []
  | n :: rest => n.children.map Prod.snd ++ fzIndices rest

def fzPayloads : List BNode → Nat → List (Int × Int)
  | [], _ => []
  | n :: rest, ni =>
    (if 0 ≤ n.payload then [((ni : Int), n.payload)] else []) ++ fzPayloads rest (ni + 1)

theorem freezeGo_eq :
    ∀ (ns : List BNode) (ls : List Nat) (ci ni : Nat) (acc : FrozenTrie),
      (∀ n ∈ ns, n.children.length ≤ 32767) →
      freezeGo ns ls ci ni acc = some
        { nodes := acc.nodes ++ fzNodes ns ls ci,
          chars := acc.chars ++ fzChars ns,
          indices := acc.indices ++ fzIndices ns,
          payloads := acc.payloads ++ fzPayloads ns ni } := by
  intro ns
  induction ns with
  | nil =>
    intro ls ci ni acc _
    show some acc = _
    simp [fzNodes, fzChars, fzIndices, fzPayloads]
  | cons n rest ih =>
    intro ls ci ni acc hb
    show (if 32767 < n.children.length then none else _) = _
    rw [if_neg (by have := hb n (List.mem_cons_self n rest); omega)]
    rw [ih (ls.drop 1) (ci + n.children.length) (ni + 1) _
      (fun m hm => hb m (List.mem_cons_of_mem n hm))]
    simp only [fzNodes, fzChars, fzIndices, fzPayloads]
    simp [List.append_assoc]

theorem freeze_eq (nodes : List BNode) (lengths : List Nat)
    (hb : ∀ n ∈ nodes, n.children.length ≤ 32767) :
    freeze nodes lengths = some
      { nodes := fzNodes nodes lengths 0, chars := fzChars nodes,
        indices := fzIndices nodes, payloads := fzPayloads nodes 0 } := by
  unfold freeze
  rw [freezeGo_eq nodes lengths 0 0 _ hb]
  simp

theorem fzNodes_length : ∀ (ns : List BNode) (ls : List Nat) (ci : Nat),
    (fzNodes ns ls ci).length = ns.length := by
  intro ns
  induction ns with
  | nil => intro ls ci; rfl
  | cons n rest ih =>
    intro ls ci
    show (fzNodes rest (ls.drop 1) (ci + n.children.length)).length + 1 = _
    rw [ih]
    rfl

/-- Total child count of the first `i` builder nodes. -/
def countsBefore (ns : List BNode) (i : Nat) : Nat :=
  ((ns.take i).map (fun n => n.children.length)).sum

theorem fzChars_length : ∀ (ns : List BNode),
    (fzChars ns).length = countsBefore ns ns.length := by
  intro ns
  induction ns with
  | nil => rfl
  | cons n rest ih =>
    show (n.children.map Prod.fst ++ fzChars rest).length = _
    rw [List.length_append, List.length_map, ih]
    show n.children.length + countsBefore rest rest.length =
      countsBefore (n :: rest) (n :: rest).length
    unfold countsBefore
    rw [List.take_length, List.take_length]
    simp

theorem fzIndices_length : ∀ (ns : List BNode),
    (fzIndices ns).length = countsBefore ns ns.length := by
  intro ns
  induction ns with
  | nil => rfl
  | cons n rest ih =>
    show (n.children.map Prod.snd ++ fzIndices rest).length = _
    rw [List.length_append, List.length_map, ih]
    show n.children.length + countsBefore rest rest.length =
      countsBefore (n :: rest) (n :: rest).length
    unfold countsBefore
    rw [List.take_length, List.take_length]
    simp

theorem getD_append_lt {α : Type} (l1 l2 : List α) (j : Nat) (d : α)
    (h : j < l1.length) : (l1 ++ l2).getD j d = l1.getD j d := by
  rw [List.getD_eq_getElem?_getD, List.getD_eq_getElem?_getD, List.getElem?_append,
    if_pos h]

theorem getD_append_add {α : Type} (l1 l2 : List α) (j : Nat) (d : α) :
    (l1 ++ l2).getD (l1.length + j) d = l2.getD j d := by
  rw [List.getD_eq_getElem?_getD, List.getD_eq_getElem?_getD, List.getElem?_append,
    if_neg (by omega)]
  congr 2
  omega

theorem getD_drop_one {α : Type} (l : List α) (i : Nat) (d : α) :
    (l.drop 1).getD i d = l.getD (i + 1) d := by
  cases l with
  | nil => rfl
  | cons x rest => rfl

theorem countsBefore_zero (ns : List BNode) : countsBefore ns 0 = 0 := rfl

theorem countsBefore_cons (n : BNode) (rest : List BNode) (i : Nat) :
    countsBefore (n :: rest) (i + 1) = n.children.length + countsBefore rest i := by
  unfold countsBefore
  rw [List.take_succ_cons]
  simp

theorem headD_eq_getD (ls : List Nat) : ls.headD 0 = ls.getD 0 0 := by
  cases ls <;> rfl

theorem fzNodes_getD :
    ∀ (ns : List BNode) (ls : List Nat) (ci i : Nat), i < ns.length →
      (fzNodes ns ls ci).getD i default =
        { chars_offset := ci + countsBefore ns i,
          ifailure_state := (ns.getD i default).ifailure_state,
          chars_count := (ns.getD i default).children.length,
          length := ls.getD i 0 } := by
  intro ns
  induction ns with
  | nil => intro ls ci i h; simp at h
  | cons n rest ih =>
    intro ls ci i h
    cases i with
    | zero =>
      show ({ chars_offset := ci, ifailure_state := n.ifailure_state,
              chars_count := n.children.length,
              length := ls.headD 0 } : FrozenNode) = _
      rw [headD_eq_getD]
      rfl
    | succ i =>
      show (fzNodes rest (ls.drop 1) (ci + n.children.length)).getD i default = _
      rw [ih (ls.drop 1) (ci + n.children.length) i (by simpa using h)]
      rw [countsBefore_cons, getD_drop_one]
      show ({ chars_offset := ci + n.children.length + countsBefore rest i,
              ifailure_state := (rest.getD i default).ifailure_state,
              chars_count := (rest.getD i default).children.length,
              length := ls.getD (i + 1) 0 } : FrozenNode) = _
      rw [show ci + n.children.length + countsBefore rest i =
        ci + (n.children.length + countsBefore rest i) from by omega]
      rfl

theorem fzChars_slice :
    ∀ (ns : List BNode) (i : Nat), i < ns.length →
      ((fzChars ns).drop (countsBefore ns i)).take
          ((ns.getD i default).children.length) =
        (ns.getD i default).children.map Prod.fst := by
  intro ns
  induction ns with
  | nil => intro i h; simp at h
  | cons n rest ih =>
    intro i h
    cases i with
    | zero =>
      show ((n.children.map Prod.fst ++ fzChars rest).drop 0).take
          n.children.length = n.children.map Prod.fst
      rw [List.drop_zero]
      rw [show n.children.length = (n.children.map Prod.fst).length from by simp]
      exact List.take_left _ _
    | succ i =>
      show ((n.children.map Prod.fst ++ fzChars rest).drop
          (countsBefore (n :: rest) (i + 1))).take _ = _
      rw [countsBefore_cons]
      rw [show n.children.length + countsBefore rest i =
        (n.children.map Prod.fst).length + countsBefore rest i from by simp]
      rw [List.drop_append]
      exact ih i (by simpa using h)

theorem fzIndices_getD :
    ∀ (ns : List BNode) (i : Nat), i < ns.length →
      ∀ (j : Nat), j < (ns.getD i default).children.length →
      (fzIndices ns).getD (countsBefore ns i + j) (-1) =
        ((ns.getD i default).children.map Prod.snd).getD j (-1) := by
  intro ns
  induction ns with
  | nil => intro i h; simp at h
  | cons n rest ih =>
    intro i h j hj
    cases i with
    | zero =>
      show (n.children.map Prod.snd ++ fzIndices rest).getD (0 + j) (-1) = _
      rw [Nat.zero_add]
      rw [getD_append_lt _ _ _ _ (by simpa using hj)]
      rfl
    | succ i =>
      show (n.children.map Prod.snd ++ fzIndices rest).getD
          (countsBefore (n :: rest) (i + 1) + j) (-1) = _
      rw [countsBefore_cons]
      rw [show n.children.length + countsBefore rest i + j =
        (n.children.map Prod.snd).length + (countsBefore rest i + j) from by
          simp
          omega]
      rw [getD_append_add]
      exact ih i (by simpa using h) j (by simpa using hj)

theorem lowerBoundIdx_cons_le (x : Nat) (l : List Nat) (c : Nat) (h : c ≤ x) :
    lowerBoundIdx (x :: l) c = 0 := by
  unfold lowerBoundIdx
  rw [List.findIdx_cons (fun y => decide (c ≤ y)) x l, decide_eq_true h]
  rfl

theorem lowerBoundIdx_cons_gt (x : Nat) (l : List Nat) (c : Nat) (h : ¬ c ≤ x) :
    lowerBoundIdx (x :: l) c = lowerBoundIdx l c + 1 := by
  unfold lowerBoundIdx
  rw [List.findIdx_cons (fun y => decide (c ≤ y)) x l, decide_eq_false h]
  rfl

theorem lookup_eq :
    ∀ (children : List (Nat × Int)) (c : Nat) (glob : List Int) (off : Nat),
    (∀ j, j < children.length →
      glob.getD (off + j) (-1) = (children.map Prod.snd).getD j (-1)) →
    (if lowerBoundIdx (children.map Prod.fst) c = (children.map Prod.fst).length ∨
        (children.map Prod.fst).getD (lowerBoundIdx (children.map Prod.fst) c) 0 ≠ c
     then (-1 : Int)
     else glob.getD (off + lowerBoundIdx (children.map Prod.fst) c) (-1)) =
    (match children.find? (fun ch => decide (c ≤ ch.1)) with
     | some ch => if ch.1 = c then ch.2 else -1
     | none => -1) := by
  intro children
  induction children with
  | nil =>
    intro c glob off _
    simp [lowerBoundIdx]
  | cons ch rest ih =>
    intro c glob off hglob
    by_cases hc : c ≤ ch.1
    · rw [List.map_cons, lowerBoundIdx_cons_le ch.1 _ c hc]
      rw [List.find?_cons_of_pos _ (by simpa using hc)]
      by_cases heq : ch.1 = c
      · rw [if_neg (by
          intro hcon
          rcases hcon with h | h
          · simp at h
          · exact h (by simpa using heq))]
        have h0 := hglob 0 (by simp)
        rw [Nat.add_zero] at h0
        show glob.getD (off + 0) (-1) = if ch.1 = c then ch.2 else -1
        rw [Nat.add_zero, h0, if_pos heq]
        rfl
      · rw [if_pos (Or.inr (by simpa using heq))]
        show (-1 : Int) = if ch.1 = c then ch.2 else -1
        rw [if_neg heq]
    · rw [List.map_cons, lowerBoundIdx_cons_gt ch.1 _ c hc]
      rw [List.find?_cons_of_neg _ (by simpa using hc)]
      have hshift : ∀ j, j < rest.length →
          glob.getD (off + 1 + j) (-1) = (rest.map Prod.snd).getD j (-1) := by
        intro j hj
        have := hglob (j + 1) (by simp; omega)
        rw [show off + (j + 1) = off + 1 + j from by omega] at this
        rw [this]
        rfl
      have := ih c glob (off + 1) hshift
      rw [← this]
      have hlen : (ch.1 :: rest.map Prod.fst).length = (rest.map Prod.fst).length + 1 := rfl
      by_cases hend : lowerBoundIdx (rest.map Prod.fst) c = (rest.map Prod.fst).length
      · rw [if_pos (Or.inl (by rw [hend]; simp)), if_pos (Or.inl hend)]
      · by_cases hne : (rest.map Prod.fst).getD (lowerBoundIdx (rest.map Prod.fst) c) 0 ≠ c
        · rw [if_pos (Or.inr (by
            rw [show (ch.1 :: rest.map Prod.fst).getD
              (lowerBoundIdx (rest.map Prod.fst) c + 1) 0 =
              (rest.map Prod.fst).getD (lowerBoundIdx (rest.map Prod.fst) c) 0 from rfl]
            exact hne))]
          rw [if_pos (Or.inr hne)]
        · rw [if_neg (by
            intro hcon
            rcases hcon with h | h
            · rw [hlen] at h
              omega
            · rw [show (ch.1 :: rest.map Prod.fst).getD
                (lowerBoundIdx (rest.map Prod.fst) c + 1) 0 =
                (rest.map Prod.fst).getD (lowerBoundIdx (rest.map Prod.fst) c) 0 from rfl] at h
              exact hne h)]
          rw [if_neg (by
            intro hcon
            rcases hcon with h | h
            · exact hend h
            · exact hne h)]
          rw [show off + (lowerBoundIdx (rest.map Prod.fst) c + 1) =
            off + 1 + lowerBoundIdx (rest.map Prod.fst) c from by omega]

theorem freeze_rawChild (ns : List BNode) (ls : List Nat) (i : Int) (c : Nat) :
    FrozenTrie.rawChildAt
      { nodes := fzNodes ns ls 0, chars := fzChars ns,
        indices := fzIndices ns, payloads := fzPayloads ns 0 } i c =
      (ns.getD i.toNat default).child_at c := by
  by_cases hin : i.toNat < ns.length
  · have hnode : FrozenTrie.nodeAt
        { nodes := fzNodes ns ls 0, chars := fzChars ns,
          indices := fzIndices ns, payloads := fzPayloads ns 0 } i =
        { chars_offset := countsBefore ns i.toNat,
          ifailure_state := (ns.getD i.toNat default).ifailure_state,
          chars_count := (ns.getD i.toNat default).children.length,
          length := ls.getD i.toNat 0 } := by
      show (fzNodes ns ls 0).getD i.toNat default = _
      rw [fzNodes_getD ns ls 0 i.toNat hin, Nat.zero_add]
    have hslice := fzChars_slice ns i.toNat hin
    unfold FrozenTrie.rawChildAt
    rw [hnode]
    simp only [FrozenNode.child_at]
    rw [hslice]
    unfold BNode.child_at
    exact lookup_eq (ns.getD i.toNat default).children c (fzIndices ns)
      (countsBefore ns i.toNat) (fzIndices_getD ns i.toNat hin)
  · have h1 : ns.getD i.toNat default = (default : BNode) :=
      List.getD_eq_default _ _ (by omega)
    have hnode : FrozenTrie.nodeAt
        { nodes := fzNodes ns ls 0, chars := fzChars ns,
          indices := fzIndices ns, payloads := fzPayloads ns 0 } i =
        (default : FrozenNode) := by
      show (fzNodes ns ls 0).getD i.toNat default = default
      refine List.getD_eq_default _ _ ?_
      rw [fzNodes_length]
      omega
    unfold FrozenTrie.rawChildAt
    rw [hnode, h1]
    rfl

theorem getD_set_ne {α : Type} (l : List α) (i j : Nat) (a d : α) (h : i ≠ j) :
    (l.set i a).getD j d = l.getD j d := by
  rw [List.getD_eq_getElem?_getD, List.getD_eq_getElem?_getD, List.getElem?_set_ne h]

theorem getD_set_self {α : Type} (l : List α) (i : Nat) (a d : α) (h : i < l.length) :
    (l.set i a).getD i d = a := by
  rw [List.getD_eq_getElem?_getD, List.getElem?_set_self h]
  rfl

/-- Appending the default element never changes a default-read. -/
theorem getD_append_same {α : Type} (l : List α) (j : Nat) (d : α) :
    (l ++ [d]).getD j d = l.getD j d := by
  by_cases h : j < l.length
  · exact getD_append_lt _ _ _ _ h
  · rw [List.getD_eq_default l d (by omega)]
    by_cases hj : j = l.length
    · subst hj
      simp
    · exact List.getD_eq_default _ _
        (by simp only [List.length_append, List.length_singleton]; omega)

theorem walkB_nil (ns : List BNode) (i : Int) : walkB ns i [] = i := rfl

theorem walkB_cons (ns : List BNode) (i : Int) (c : Nat) (rest : List Nat) :
    walkB ns i (c :: rest) =
      (if (ns.getD i.toNat default).child_at c < 0 then -1
       else walkB ns ((ns.getD i.toNat default).child_at c) rest) := rfl

/-- Splitting a walk at an intermediate word. -/
theorem walkB_append (ns : List BNode) :
    ∀ (u v : List Nat) (i : Int), 0 ≤ i →
      walkB ns i (u ++ v) =
        (if walkB ns i u < 0 then -1 else walkB ns (walkB ns i u) v) := by
  intro u
  induction u with
  | nil =>
    intro v i hi
    rw [List.nil_append, walkB_nil, if_neg (by omega)]
  | cons c u ih =>
    intro v i hi
    rw [List.cons_append, walkB_cons, walkB_cons]
    by_cases h : (ns.getD i.toNat default).child_at c < 0
    · rw [if_pos h, if_pos h, if_pos (by norm_num)]
    · rw [if_neg h, if_neg h, ih _ _ (by omega)]

/-- A nonnegative lookup result is a real (byte, index) entry of the node. -/
theorem child_at_nonneg_mem (n : BNode) (c : Nat) (h : 0 ≤ n.child_at c) :
    (c, n.child_at c) ∈ n.children := by
  have key : ∀ r : Int, n.child_at c = r → 0 ≤ r → (c, r) ∈ n.children := by
    intro r hr hge
    unfold BNode.child_at at hr
    cases hf : n.children.find? (fun ch => decide (c ≤ ch.1)) with
    | none =>
      rw [hf] at hr
      replace hr : (-1 : Int) = r := hr
      omega
    | some ch =>
      rw [hf] at hr
      replace hr : (if ch.1 = c then ch.2 else -1) = r := hr
      by_cases he : ch.1 = c
      · rw [if_pos he] at hr
        subst hr
        have hm := List.mem_of_find?_eq_some hf
        rcases ch with ⟨b, v⟩
        subst he
        exact hm
      · rw [if_neg he] at hr
        omega
  exact key _ rfl h

/-- Lookup of a byte with no entry is -1 (no sortedness needed). -/
theorem child_at_not_mem (n : BNode) (c : Nat) (h : ∀ t : Int, (c, t) ∉ n.children) :
    n.child_at c = -1 := by
  unfold BNode.child_at
  cases hf : n.children.find? (fun ch => decide (c ≤ ch.1)) with
  | none => rfl
  | some ch =>
    show (if ch.1 = c then ch.2 else -1) = -1
    rw [if_neg ?hne]
    case hne =>
      intro he
      have hm := List.mem_of_find?_eq_some hf
      rcases ch with ⟨b, v⟩
      subst he
      exact h v hm

/-- On a byte-sorted child list, lower_bound lookup of a present byte returns
    its stored index. -/
theorem sorted_find_val :
    ∀ (l : List (Nat × Int)), l.Pairwise (fun a b => a.1 < b.1) →
      ∀ (c : Nat) (t : Int), (c, t) ∈ l →
      (match l.find? (fun ch => decide (c ≤ ch.1)) with
       | some ch => if ch.1 = c then ch.2 else -1
       | none => -1) = t := by
  intro l
  induction l with
  | nil =>
    intro _ c t hm
    simp at hm
  | cons ch rest ih =>
    intro hs c t hm
    rcases List.pairwise_cons.mp hs with ⟨hlt, hrest⟩
    rcases List.mem_cons.mp hm with he | hm'
    · subst he
      rw [List.find?_cons_of_pos _ (by simp)]
      show (if ((c, t) : Nat × Int).1 = c then ((c, t) : Nat × Int).2 else -1) = t
      simp
    · have hlt' : ch.1 < c := by simpa using hlt (c, t) hm'
      rw [List.find?_cons_of_neg _ (by simp only [decide_eq_true_eq]; omega)]
      exact ih hrest c t hm'

theorem child_at_mem (n : BNode)
    (hs : n.children.Pairwise (fun a b => a.1 < b.1)) (c : Nat) (t : Int)
    (hm : (c, t) ∈ n.children) : n.child_at c = t :=
  sorted_find_val n.children hs c t hm

/-- A byte the lookup misses has no entry at all, given sorted children and
    nonnegative child targets. -/
theorem child_at_neg_not_mem (n : BNode)
    (hs : n.children.Pairwise (fun a b => a.1 < b.1)) (c : Nat)
    (hmiss : n.child_at c < 0) (t : Int) (ht : 0 ≤ t) : (c, t) ∉ n.children := by
  intro hm
  have := child_at_mem n hs c t hm
  omega

/-- Everything in the inserted child list is the new entry or an old one. -/
theorem insertChild_mem :
    ∀ (l : List (Nat × Int)) (c : Nat) (idx : Int) (y : Nat × Int),
      y ∈ insertChild l c idx → y = (c, idx) ∨ y ∈ l := by
  intro l c idx
  induction l with
  | nil =>
    intro y hy
    simp [insertChild] at hy
    exact Or.inl hy
  | cons ch rest ih =>
    intro y hy
    unfold insertChild at hy
    by_cases h1 : c < ch.1
    · rw [if_pos h1] at hy
      exact List.mem_cons.mp hy
    · rw [if_neg h1] at hy
      by_cases h2 : ch.1 = c
      · rw [if_pos h2] at hy
        rcases List.mem_cons.mp hy with h | h
        · exact Or.inl h
        · exact Or.inr (List.mem_cons_of_mem ch h)
      · rw [if_neg h2] at hy
        rcases List.mem_cons.mp hy with h | h
        · exact Or.inr (h ▸ List.mem_cons_self ch rest)
        · rcases ih y h with h' | h'
          · exact Or.inl h'
          · exact Or.inr (List.mem_cons_of_mem ch h')

/-- The inserted entry is present afterwards. -/
theorem insertChild_mem_self :
    ∀ (l : List (Nat × Int)) (c : Nat) (idx : Int), (c, idx) ∈ insertChild l c idx := by
  intro l c idx
  induction l with
  | nil => exact List.mem_cons_self _ _
  | cons ch rest ih =>
    unfold insertChild
    by_cases h1 : c < ch.1
    · rw [if_pos h1]
      exact List.mem_cons_self _ _
    · rw [if_neg h1]
      by_cases h2 : ch.1 = c
      · rw [if_pos h2]
        exact List.mem_cons_self _ _
      · rw [if_neg h2]
        exact List.mem_cons_of_mem ch ih

/-- Entries for other bytes survive the insertion. -/
theorem insertChild_mem_of_mem :
    ∀ (l : List (Nat × Int)) (c : Nat) (idx : Int) (y : Nat × Int),
      y ∈ l → y.1 ≠ c → y ∈ insertChild l c idx := by
  intro l c idx
  induction l with
  | nil =>
    intro y hy _
    simp at hy
  | cons ch rest ih =>
    intro y hy hne
    unfold insertChild
    by_cases h1 : c < ch.1
    · rw [if_pos h1]
      exact List.mem_cons_of_mem _ hy
    · rw [if_neg h1]
      by_cases h2 : ch.1 = c
      · rw [if_pos h2]
        rcases List.mem_cons.mp hy with h | h
        · exact absurd (by rw [h]; exact h2) hne
        · exact List.mem_cons_of_mem _ h
      · rw [if_neg h2]
        rcases List.mem_cons.mp hy with h | h
        · exact h ▸ List.mem_cons_self ch _
        · exact List.mem_cons_of_mem ch (ih y h hne)

/-- set_child keeps the child list sorted by byte. -/
theorem insertChild_sorted :
    ∀ (l : List (Nat × Int)) (c : Nat) (idx : Int),
      l.Pairwise (fun a b => a.1 < b.1) →
      (insertChild l c idx).Pairwise (fun a b => a.1 < b.1) := by
  intro l c idx
  induction l with
  | nil =>
    intro _
    simp [insertChild]
  | cons ch rest ih =>
    intro hs
    rcases List.pairwise_cons.mp hs with ⟨hlt, hrest⟩
    unfold insertChild
    by_cases h1 : c < ch.1
    · rw [if_pos h1]
      refine List.pairwise_cons.mpr ⟨?_, hs⟩
      intro y hy
      rcases List.mem_cons.mp hy with h | h
      · rw [h]
        exact h1
      · exact lt_trans h1 (hlt y h)
    · rw [if_neg h1]
      by_cases h2 : ch.1 = c
      · rw [if_pos h2]
        refine List.pairwise_cons.mpr ⟨?_, hrest⟩
        intro y hy
        have := hlt y hy
        show c < y.1
        omega
      · rw [if_neg h2]
        refine List.pairwise_cons.mpr ⟨?_, ih hrest⟩
        intro y hy
        rcases insertChild_mem rest c idx y hy with h | h
        · rw [h]
          show ch.1 < c
          omega
        · exact hlt y h

theorem set_child_at_self (n : BNode)
    (hs : n.children.Pairwise (fun a b => a.1 < b.1)) (c : Nat) (idx : Int) :
    (n.set_child c idx).child_at c = idx :=
  child_at_mem (n.set_child c idx) (insertChild_sorted n.children c idx hs) c idx
    (insertChild_mem_self n.children c idx)

theorem set_child_at_other (n : BNode)
    (hs : n.children.Pairwise (fun a b => a.1 < b.1)) (c : Nat) (idx : Int)
    (b : Nat) (hb : b ≠ c) :
    (n.set_child c idx).child_at b = n.child_at b := by
  by_cases hex : ∃ t : Int, (b, t) ∈ n.children
  · rcases hex with ⟨t, ht⟩
    rw [child_at_mem n hs b t ht]
    exact child_at_mem (n.set_child c idx) (insertChild_sorted n.children c idx hs) b t
      (insertChild_mem_of_mem n.children c idx (b, t) ht (by simpa using hb))
  · push_neg at hex
    rw [child_at_not_mem n b hex, child_at_not_mem _ b ?habs2]
    case habs2 =>
      intro t ht
      rcases insertChild_mem n.children c idx (b, t) ht with he | h
      · have : b = c := by
          have := congrArg Prod.fst he
          simpa using this
        exact hb this
      · exact hex t h

/-- Structural well-formedness of the builder arena, maintained by add_string:
    every node's child list is sorted by byte with bytes below 256, every edge
    target is a strictly larger in-range index (children are created after
    their parent), and no index has two incoming edges. -/
def StInv (ns : List BNode) : Prop :=
  (∀ j : Nat, ((ns.getD j default).children).Pairwise (fun a b => a.1 < b.1)) ∧
  (∀ (j : Nat) (ch : Nat × Int), ch ∈ (ns.getD j default).children →
    ch.1 < 256 ∧ (j : Int) < ch.2 ∧ ch.2 < (ns.length : Int)) ∧
  (∀ (j1 j2 c1 c2 : Nat) (t : Int),
    (c1, t) ∈ (ns.getD j1 default).children →
    (c2, t) ∈ (ns.getD j2 default).children → j1 = j2 ∧ c1 = c2)

/-- Walks never leave the arena. -/
theorem walkB_lt_len (ns : List BNode)
    (h2 : ∀ (j : Nat) (ch : Nat × Int), ch ∈ (ns.getD j default).children →
      ch.1 < 256 ∧ (j : Int) < ch.2 ∧ ch.2 < (ns.length : Int)) :
    ∀ (w : List Nat) (i : Int), 0 ≤ i → i < (ns.length : Int) →
      0 ≤ walkB ns i w → walkB ns i w < (ns.length : Int) := by
  intro w
  induction w with
  | nil =>
    intro i _ hilen _
    rw [walkB_nil]
    exact hilen
  | cons c rest ih =>
    intro i hi hilen hw
    rw [walkB_cons] at hw ⊢
    by_cases hc : (ns.getD i.toNat default).child_at c < 0
    · rw [if_pos hc] at hw
      omega
    · rw [if_neg hc] at hw ⊢
      have hmem := child_at_nonneg_mem (ns.getD i.toNat default) c (by omega)
      have hb := h2 i.toNat _ hmem
      exact ih _ (by omega) hb.2.2 hw

/-- Walks strictly descend the arena: edges always point to larger indices. -/
theorem walkB_gt (ns : List BNode)
    (h2 : ∀ (j : Nat) (ch : Nat × Int), ch ∈ (ns.getD j default).children →
      ch.1 < 256 ∧ (j : Int) < ch.2 ∧ ch.2 < (ns.length : Int)) :
    ∀ (w : List Nat) (i : Int), 0 ≤ i → 0 ≤ walkB ns i w →
      i ≤ walkB ns i w ∧ (w ≠ [] → i < walkB ns i w) := by
  intro w
  induction w with
  | nil =>
    intro i _ _
    rw [walkB_nil]
    exact ⟨le_refl i, fun h => absurd rfl h⟩
  | cons c rest ih =>
    intro i hi hw
    rw [walkB_cons] at hw ⊢
    by_cases hc : (ns.getD i.toNat default).child_at c < 0
    · rw [if_pos hc] at hw
      omega
    · rw [if_neg hc] at hw ⊢
      have hmem := child_at_nonneg_mem (ns.getD i.toNat default) c (by omega)
      have hb := h2 i.toNat _ hmem
      have hstep : i < (ns.getD i.toNat default).child_at c := by
        have := hb.2.1
        omega
      have := (ih _ (by omega) hw).1
      exact ⟨by omega, fun _ => by omega⟩

/-- A single-byte walk is a child lookup. -/
theorem walkB_single (ns : List BNode) (i : Int) (c : Nat) :
    walkB ns i [c] =
      (if (ns.getD i.toNat default).child_at c < 0 then -1
       else (ns.getD i.toNat default).child_at c) := by
  rw [walkB_cons]
  by_cases h : (ns.getD i.toNat default).child_at c < 0
  · rw [if_pos h, if_pos h]
  · rw [if_neg h, if_neg h, walkB_nil]

/-- Distinct words reach distinct nodes: with strictly increasing edges and
    unique parents, the walk from the root is injective on successful words. -/
theorem walkB_inj (ns : List BNode) (hst : StInv ns) :
    ∀ (n : Nat) (w1 w2 : List Nat), w1.length ≤ n →
      0 ≤ walkB ns 0 w1 → walkB ns 0 w1 = walkB ns 0 w2 → 0 ≤ walkB ns 0 w2 →
      w1 = w2 := by
  obtain ⟨hS1, hS2, hS3⟩ := hst
  have hlast : ∀ (u : List Nat) (c : Nat), 0 ≤ walkB ns 0 (u ++ [c]) →
      0 ≤ walkB ns 0 u ∧
      (c, walkB ns 0 (u ++ [c])) ∈ (ns.getD (walkB ns 0 u).toNat default).children := by
    intro u c hw
    rw [walkB_append ns u [c] 0 (le_refl 0)] at hw ⊢
    by_cases hm : walkB ns 0 u < 0
    · rw [if_pos hm] at hw
      omega
    · rw [if_neg hm] at hw ⊢
      rw [walkB_single] at hw ⊢
      by_cases hc : (ns.getD (walkB ns 0 u).toNat default).child_at c < 0
      · rw [if_pos hc] at hw
        omega
      · rw [if_neg hc] at hw ⊢
        exact ⟨by omega, child_at_nonneg_mem _ c (by omega)⟩
  intro n
  induction n with
  | zero =>
    intro w1 w2 hlen hw1 heq hw2
    have h1 : w1 = [] := List.eq_nil_of_length_eq_zero (by omega)
    subst h1
    rcases List.eq_nil_or_concat w2 with h2 | ⟨u2, c2, rfl⟩
    · rw [h2]
    · exfalso
      simp only [List.concat_eq_append] at hw2 heq
      rw [walkB_nil] at heq
      have := hlast u2 c2 hw2
      have hedge := hS2 (walkB ns 0 u2).toNat _ this.2
      rw [← heq] at hedge
      have := hedge.2.1
      omega
  | succ n ih =>
    intro w1 w2 hlen hw1 heq hw2
    rcases List.eq_nil_or_concat w1 with h1 | ⟨u1, c1, rfl⟩
    · subst h1
      rcases List.eq_nil_or_concat w2 with h2 | ⟨u2, c2, rfl⟩
      · rw [h2]
      · exfalso
        simp only [List.concat_eq_append] at hw2 heq
        rw [walkB_nil] at heq
        have := hlast u2 c2 hw2
        have hedge := hS2 (walkB ns 0 u2).toNat _ this.2
        rw [← heq] at hedge
        have := hedge.2.1
        omega
    · rcases List.eq_nil_or_concat w2 with h2 | ⟨u2, c2, rfl⟩
      · exfalso
        subst h2
        simp only [List.concat_eq_append] at hw1 heq
        rw [walkB_nil] at heq
        have := hlast u1 c1 hw1
        have hedge := hS2 (walkB ns 0 u1).toNat _ this.2
        rw [heq] at hedge
        have := hedge.2.1
        omega
      · simp only [List.concat_eq_append] at hw1 hw2 heq hlen ⊢
        have h1 := hlast u1 c1 hw1
        have h2 := hlast u2 c2 hw2
        have hm1 := h1.2
        have hm2 := h2.2
        rw [heq] at hm1
        have huni := hS3 (walkB ns 0 u1).toNat (walkB ns 0 u2).toNat c1 c2
          (walkB ns 0 (u2 ++ [c2])) hm1 hm2
        have hmeq : walkB ns 0 u1 = walkB ns 0 u2 := by
          have e1 := huni.1
          omega
        have hueq := ih u1 u2 (by simp at hlen; omega) h1.1
          (by rw [hmeq]) h2.1
        rw [hueq, huni.2]

/-- One missing-child step of add_string: append a fresh node and link it
    under the parent (array-aho.cpp add_node + set_child). -/
def insertNode (ns : List BNode) (ipar : Int) (c : Nat) : List BNode :=
  (ns ++ [default]).set ipar.toNat
    (((ns ++ [default]).getD ipar.toNat default).set_child c (ns.length : Int))

theorem insertNode_length (ns : List BNode) (ipar : Int) (c : Nat) :
    (insertNode ns ipar c).length = ns.length + 1 := by
  unfold insertNode
  rw [List.length_set, List.length_append, List.length_singleton]

theorem insertNode_getD_ne (ns : List BNode) (ipar : Int) (c : Nat) (j : Nat)
    (hj : j ≠ ipar.toNat) :
    (insertNode ns ipar c).getD j default = ns.getD j default := by
  unfold insertNode
  rw [getD_set_ne _ _ _ _ _ (fun h => hj h.symm), getD_append_same]

theorem insertNode_getD_self (ns : List BNode) (ipar : Int) (c : Nat)
    (h0 : 0 ≤ ipar) (hlt : ipar < (ns.length : Int)) :
    (insertNode ns ipar c).getD ipar.toNat default =
      (ns.getD ipar.toNat default).set_child c (ns.length : Int) := by
  unfold insertNode
  rw [getD_set_self _ _ _ _
    (by rw [List.length_append, List.length_singleton]; omega)]
  rw [getD_append_same]

theorem insertNode_payload (ns : List BNode) (ipar : Int) (c : Nat)
    (h0 : 0 ≤ ipar) (hlt : ipar < (ns.length : Int)) (j : Nat) :
    ((insertNode ns ipar c).getD j default).payload =
      (ns.getD j default).payload := by
  by_cases hj : j = ipar.toNat
  · subst hj
    rw [insertNode_getD_self ns ipar c h0 hlt]
    rfl
  · rw [insertNode_getD_ne ns ipar c j hj]

theorem insertNode_stinv (ns : List BNode) (ipar : Int) (c : Nat)
    (hst : StInv ns) (h0 : 0 ≤ ipar) (hlt : ipar < (ns.length : Int))
    (hc256 : c < 256) :
    StInv (insertNode ns ipar c) := by
  obtain ⟨hS1, hS2, hS3⟩ := hst
  have key : ∀ (j : Nat) (y : Nat × Int),
      y ∈ ((insertNode ns ipar c).getD j default).children →
      y ∈ (ns.getD j default).children ∨
        (j = ipar.toNat ∧ y = (c, (ns.length : Int))) := by
    intro j y hy
    by_cases hj : j = ipar.toNat
    · subst hj
      rw [insertNode_getD_self ns ipar c h0 hlt] at hy
      replace hy : y ∈ insertChild (ns.getD ipar.toNat default).children c
        (ns.length : Int) := hy
      rcases insertChild_mem _ _ _ _ hy with he | h
      · exact Or.inr ⟨rfl, he⟩
      · exact Or.inl h
    · rw [insertNode_getD_ne ns ipar c j hj] at hy
      exact Or.inl hy
  refine ⟨?_, ?_, ?_⟩
  · intro j
    by_cases hj : j = ipar.toNat
    · subst hj
      rw [insertNode_getD_self ns ipar c h0 hlt]
      exact insertChild_sorted _ _ _ (hS1 ipar.toNat)
    · rw [insertNode_getD_ne ns ipar c j hj]
      exact hS1 j
  · intro j ch hch
    rw [insertNode_length]
    rcases key j ch hch with h | ⟨hj, hc⟩
    · have := hS2 j ch h
      refine ⟨this.1, this.2.1, by omega⟩
    · subst hj
      rw [hc]
      refine ⟨hc256, by omega, by omega⟩
  · intro j1 j2 c1 c2 t h1 h2
    rcases key j1 (c1, t) h1 with m1 | ⟨hj1, he1⟩ <;>
      rcases key j2 (c2, t) h2 with m2 | ⟨hj2, he2⟩
    · exact hS3 j1 j2 c1 c2 t m1 m2
    · exfalso
      have hb := (hS2 j1 (c1, t) m1).2.2
      have : t = (ns.length : Int) := congrArg Prod.snd he2
      omega
    · exfalso
      have hb := (hS2 j2 (c2, t) m2).2.2
      have : t = (ns.length : Int) := congrArg Prod.snd he1
      omega
    · have e1 : c1 = c := congrArg Prod.fst he1
      have e2 : c2 = c := congrArg Prod.fst he2
      exact ⟨by rw [hj1, hj2], by rw [e1, e2]⟩

theorem insertNode_child_at_new (ns : List BNode) (ipar : Int) (c : Nat)
    (hst : StInv ns) (h0 : 0 ≤ ipar) (hlt : ipar < (ns.length : Int)) :
    ((insertNode ns ipar c).getD ipar.toNat default).child_at c =
      (ns.length : Int) := by
  rw [insertNode_getD_self ns ipar c h0 hlt]
  exact set_child_at_self _ (hst.1 ipar.toNat) c _

theorem insertNode_child_at_old (ns : List BNode) (ipar : Int) (c : Nat)
    (hst : StInv ns) (h0 : 0 ≤ ipar) (hlt : ipar < (ns.length : Int))
    (i : Int) (b : Nat) (h0i : 0 ≤ i) (hne : ¬(i = ipar ∧ b = c)) :
    ((insertNode ns ipar c).getD i.toNat default).child_at b =
      (ns.getD i.toNat default).child_at b := by
  by_cases hip : i.toNat = ipar.toNat
  · have hieq : i = ipar := by omega
    subst hieq
    have hbc : b ≠ c := fun h => hne ⟨rfl, h⟩
    rw [insertNode_getD_self ns i c h0 hlt]
    exact set_child_at_other _ (hst.1 i.toNat) c _ b hbc
  · rw [insertNode_getD_ne ns ipar c i.toNat hip]

/-- Walks that succeeded before an insertion are unchanged by it. -/
theorem insertNode_frame (ns : List BNode) (ipar : Int) (c : Nat)
    (hst : StInv ns) (h0 : 0 ≤ ipar) (hlt : ipar < (ns.length : Int))
    (hmiss : (ns.getD ipar.toNat default).child_at c < 0) :
    ∀ (w : List Nat) (i : Int), 0 ≤ i → 0 ≤ walkB ns i w →
      walkB (insertNode ns ipar c) i w = walkB ns i w := by
  intro w
  induction w with
  | nil =>
    intro i _ _
    rfl
  | cons b rest ih =>
    intro i hi hw
    rw [walkB_cons] at hw ⊢
    rw [walkB_cons]
    by_cases hj : (ns.getD i.toNat default).child_at b < 0
    · rw [if_pos hj] at hw
      omega
    · rw [if_neg hj] at hw
      have heq : ((insertNode ns ipar c).getD i.toNat default).child_at b =
          (ns.getD i.toNat default).child_at b := by
        refine insertNode_child_at_old ns ipar c hst h0 hlt i b hi ?_
        rintro ⟨rfl, rfl⟩
        omega
      rw [heq, if_neg hj, if_neg hj]
      exact ih _ (by omega) hw

/-- A walk through the enlarged arena that starts and lands in the old part
    never uses the fresh edge, so it was already valid. -/
theorem insertNode_landing (ns : List BNode) (ipar : Int) (c : Nat)
    (hst : StInv ns) (h0 : 0 ≤ ipar) (hlt : ipar < (ns.length : Int)) :
    ∀ (w : List Nat) (i : Int), 0 ≤ i → i < (ns.length : Int) →
      0 ≤ walkB (insertNode ns ipar c) i w →
      walkB (insertNode ns ipar c) i w < (ns.length : Int) →
      walkB ns i w = walkB (insertNode ns ipar c) i w := by
  intro w
  induction w with
  | nil =>
    intro i _ _ _ _
    rfl
  | cons b rest ih =>
    intro i h0i hilen hw hwlt
    rw [walkB_cons] at hw hwlt
    rw [walkB_cons, walkB_cons]
    by_cases hj2 : ((insertNode ns ipar c).getD i.toNat default).child_at b < 0
    · rw [if_pos hj2] at hw
      omega
    · rw [if_neg hj2] at hw hwlt
      by_cases hbc : i = ipar ∧ b = c
      · exfalso
        have hj2v : ((insertNode ns ipar c).getD i.toNat default).child_at b =
            (ns.length : Int) := by
          rw [hbc.1, hbc.2]
          exact insertNode_child_at_new ns ipar c hst h0 hlt
        rw [hj2v] at hw hwlt
        cases rest with
        | nil =>
          rw [walkB_nil] at hwlt
          omega
        | cons b2 r2 =>
          rw [walkB_cons] at hw
          have hdead : ((insertNode ns ipar c).getD
              (ns.length : Int).toNat default).child_at b2 = -1 := by
            rw [insertNode_getD_ne ns ipar c _ (by omega)]
            rw [List.getD_eq_default _ _ (by omega)]
            rfl
          rw [hdead, if_pos (by norm_num)] at hw
          omega
      · have heq : ((insertNode ns ipar c).getD i.toNat default).child_at b =
            (ns.getD i.toNat default).child_at b :=
          insertNode_child_at_old ns ipar c hst h0 hlt i b h0i hbc
        rw [heq] at hw hwlt hj2
        rw [heq, if_neg hj2, if_neg hj2]
        have hmem := child_at_nonneg_mem (ns.getD i.toNat default) b (by omega)
        have hb := hst.2.1 i.toNat _ hmem
        exact ih _ (by omega) hb.2.2 hw hwlt

/-- Old edges survive the insertion. -/
theorem insertNode_edge (ns : List BNode) (ipar : Int) (c : Nat)
    (hst : StInv ns) (h0 : 0 ≤ ipar) (hlt : ipar < (ns.length : Int))
    (hmiss : (ns.getD ipar.toNat default).child_at c < 0) :
    ∀ (j : Nat) (ch : Nat × Int), ch ∈ (ns.getD j default).children →
      ch ∈ ((insertNode ns ipar c).getD j default).children := by
  intro j ch hch
  by_cases hj : j = ipar.toNat
  · subst hj
    rw [insertNode_getD_self ns ipar c h0 hlt]
    show ch ∈ insertChild (ns.getD ipar.toNat default).children c (ns.length : Int)
    refine insertChild_mem_of_mem _ _ _ _ hch ?_
    intro he
    have hb := hst.2.1 ipar.toNat ch hch
    have hnn : (0 : Int) ≤ ch.2 := by omega
    have := child_at_neg_not_mem _ (hst.1 ipar.toNat) c hmiss ch.2 hnn
    rw [← he] at this
    exact this (by simpa using hch)
  · rw [insertNode_getD_ne ns ipar c j hj]
    exact hch

theorem addChain_nil (ns : List BNode) (ls : List Nat) (ipar ich : Int) :
    addChain ns ls ipar ich [] = (ns, ls, ich) := rfl

theorem addChain_cons (ns : List BNode) (ls : List Nat) (ipar ich : Int)
    (c : Nat) (rest : List Nat) :
    addChain ns ls ipar ich (c :: rest) =
      (if (ns.getD ipar.toNat default).child_at c < 0 then
        addChain (insertNode ns ipar c) (ls ++ [0]) (ns.length : Int)
          (ns.length : Int) rest
      else
        addChain ns ls ((ns.getD ipar.toNat default).child_at c)
          ((ns.getD ipar.toNat default).child_at c) rest) := rfl

/-- Everything add_string's insertion loop does: it preserves the structural
    invariant, extends the arena with blank nodes, keeps every old walk and
    edge intact, makes the key's path walkable to the returned terminal, and
    creates no new walk between old nodes. -/
theorem addChain_spec :
    ∀ (k : List Nat) (ns : List BNode) (ls : List Nat) (ipar : Int)
      (ns' : List BNode) (ls' : List Nat) (t : Int),
      addChain ns ls ipar ipar k = (ns', ls', t) →
      StInv ns → 0 ≤ ipar → ipar < (ns.length : Int) →
      (∀ b ∈ k, b < 256) →
      StInv ns' ∧
      ns.length ≤ ns'.length ∧
      ls' = ls ++ List.replicate (ns'.length - ns.length) 0 ∧
      (∀ j : Nat, j < ns.length →
        (ns'.getD j default).payload = (ns.getD j default).payload) ∧
      (∀ j : Nat, ns.length ≤ j → (ns'.getD j default).payload = -1) ∧
      (∀ (i : Int) (w : List Nat), 0 ≤ i → 0 ≤ walkB ns i w →
        walkB ns' i w = walkB ns i w) ∧
      (∀ (j : Nat) (ch : Nat × Int), ch ∈ (ns.getD j default).children →
        ch ∈ (ns'.getD j default).children) ∧
      walkB ns' ipar k = t ∧ 0 ≤ t ∧ t < (ns'.length : Int) ∧
      (∀ (i : Int) (w : List Nat), 0 ≤ i → i < (ns.length : Int) →
        0 ≤ walkB ns' i w → walkB ns' i w < (ns.length : Int) →
        walkB ns i w = walkB ns' i w) := by
  intro k
  induction k with
  | nil =>
    intro ns ls ipar ns' ls' t h hst h0 hlt _
    rw [addChain_nil] at h
    injection h with h1 h2
    injection h2 with h2 h3
    subst h1
    subst h2
    subst h3
    refine ⟨hst, le_refl _, by simp, fun j _ => rfl, ?_, fun i w _ _ => rfl,
      fun j ch hch => hch, rfl, h0, hlt, fun i w _ _ _ _ => rfl⟩
    intro j hj
    rw [List.getD_eq_default _ _ hj]
    rfl
  | cons c rest ih =>
    intro ns ls ipar ns' ls' t h hst h0 hlt hb
    rw [addChain_cons] at h
    by_cases hm : (ns.getD ipar.toNat default).child_at c < 0
    · rw [if_pos hm] at h
      have hc256 : c < 256 := hb c (List.mem_cons_self c rest)
      have hstI := insertNode_stinv ns ipar c hst h0 hlt hc256
      have hlen2 := insertNode_length ns ipar c
      have ihh := ih (insertNode ns ipar c) (ls ++ [0]) (ns.length : Int)
        ns' ls' t h hstI (by omega) (by rw [hlen2]; push_cast; omega)
        (fun b hbm => hb b (List.mem_cons_of_mem c hbm))
      obtain ⟨jStInv, jLe, jLs, jPayOld, jPayFresh, jFrame, jEdge, jWalk,
        jT0, jTlt, jLand⟩ := ihh
      rw [hlen2] at jLe
      refine ⟨jStInv, by omega, ?_, ?_, ?_, ?_, ?_, ?_, jT0, jTlt, ?_⟩
      · rw [jLs, hlen2, List.append_assoc]
        congr 1
        rw [show ns'.length - ns.length = (ns'.length - (ns.length + 1)) + 1
          from by omega]
        rfl
      · intro j hj
        rw [jPayOld j (by omega), insertNode_payload ns ipar c h0 hlt j]
      · intro j hj
        by_cases hj2 : j < (insertNode ns ipar c).length
        · rw [jPayOld j hj2]
          have hjl : j = ns.length := by omega
          subst hjl
          rw [insertNode_getD_ne ns ipar c _ (by omega)]
          rw [List.getD_eq_default _ _ (le_refl _)]
          rfl
        · exact jPayFresh j (by omega)
      · intro i w hi hw
        have hstep := insertNode_frame ns ipar c hst h0 hlt hm w i hi hw
        rw [jFrame i w hi (by rw [hstep]; exact hw), hstep]
      · intro j ch hch
        exact jEdge j ch (insertNode_edge ns ipar c hst h0 hlt hm j ch hch)
      · rw [walkB_cons]
        have hch : (ns'.getD ipar.toNat default).child_at c = (ns.length : Int) := by
          have hmem2 : (c, (ns.length : Int)) ∈
              ((insertNode ns ipar c).getD ipar.toNat default).children := by
            rw [insertNode_getD_self ns ipar c h0 hlt]
            exact insertChild_mem_self _ _ _
          exact child_at_mem _ (jStInv.1 ipar.toNat) c _ (jEdge ipar.toNat _ hmem2)
        rw [hch, if_neg (by omega)]
        exact jWalk
      · intro i w hi hilen hw' hwlt'
        have h1 := jLand i w hi (by rw [hlen2]; push_cast; omega) hw'
          (by rw [hlen2]; push_cast; omega)
        have h2 := insertNode_landing ns ipar c hst h0 hlt w i hi hilen
          (by rw [h1]; exact hw') (by rw [h1]; exact hwlt')
        rw [h2, h1]
    · rw [if_neg hm] at h
      have hch0 : 0 ≤ (ns.getD ipar.toNat default).child_at c := by omega
      have hmem := child_at_nonneg_mem _ c hch0
      have hbnd := hst.2.1 ipar.toNat _ hmem
      have ihh := ih ns ls ((ns.getD ipar.toNat default).child_at c)
        ns' ls' t h hst hch0 hbnd.2.2
        (fun b hb2 => hb b (List.mem_cons_of_mem c hb2))
      obtain ⟨jStInv, jLe, jLs, jPayOld, jPayFresh, jFrame, jEdge, jWalk,
        jT0, jTlt, jLand⟩ := ihh
      refine ⟨jStInv, jLe, jLs, jPayOld, jPayFresh, jFrame, jEdge, ?_,
        jT0, jTlt, jLand⟩
      rw [walkB_cons]
      have hch : (ns'.getD ipar.toNat default).child_at c =
          (ns.getD ipar.toNat default).child_at c :=
        child_at_mem _ (jStInv.1 ipar.toNat) c _ (jEdge ipar.toNat _ hmem)
      rw [hch, if_neg hm]
      exact jWalk

/-- The payload stored for key `k` by a sequence of adds: the last add of `k`
    wins; `-1` when `k` was never added (the default payload of a fresh node). -/
def lastPay (S : List (List Nat × Int)) (k : List Nat) : Int :=
  match S.reverse.find? (fun e => decide (e.1 = k)) with
  | some e => e.2
  | none => -1

theorem lastPay_append_self (S : List (List Nat × Int)) (k : List Nat) (p : Int) :
    lastPay (S ++ [(k, p)]) k = p := by
  unfold lastPay
  rw [List.reverse_append]
  rw [show ([(k, p)] : List (List Nat × Int)).reverse = [(k, p)] from rfl]
  rw [List.singleton_append, List.find?_cons_of_pos _ (by simp)]

theorem lastPay_append_other (S : List (List Nat × Int)) (k : List Nat) (p : Int)
    (w : List Nat) (h : w ≠ k) : lastPay (S ++ [(k, p)]) w = lastPay S w := by
  unfold lastPay
  rw [List.reverse_append]
  rw [show ([(k, p)] : List (List Nat × Int)).reverse = [(k, p)] from rfl]
  rw [List.singleton_append,
    List.find?_cons_of_neg _ (by simp; exact fun he => h he.symm)]

theorem lastPay_not_mem (S : List (List Nat × Int)) (w : List Nat)
    (h : w ∉ S.map Prod.fst) : lastPay S w = -1 := by
  unfold lastPay
  cases hf : S.reverse.find? (fun e => decide (e.1 = w)) with
  | none => rfl
  | some e =>
    exfalso
    have hm : e ∈ S := List.mem_reverse.mp (List.mem_of_find?_eq_some hf)
    have he : e.1 = w := by simpa using List.find?_some hf
    exact h (he ▸ List.mem_map_of_mem Prod.fst hm)

/-- Walks only read the child lists. -/
theorem walkB_congr (ns1 ns2 : List BNode)
    (h : ∀ j : Nat, (ns1.getD j default).children = (ns2.getD j default).children) :
    ∀ (w : List Nat) (i : Int), walkB ns1 i w = walkB ns2 i w := by
  intro w
  induction w with
  | nil => intro i; rfl
  | cons c rest ih =>
    intro i
    rw [walkB_cons, walkB_cons]
    have hc : (ns1.getD i.toNat default).child_at c =
        (ns2.getD i.toNat default).child_at c := by
      unfold BNode.child_at
      rw [h i.toNat]
    rw [hc]
    by_cases hj : (ns2.getD i.toNat default).child_at c < 0
    · rw [if_pos hj, if_pos hj]
    · rw [if_neg hj, if_neg hj, ih]

theorem StInv_congr (ns1 ns2 : List BNode) (hlen : ns1.length = ns2.length)
    (h : ∀ j : Nat, (ns1.getD j default).children = (ns2.getD j default).children)
    (hst : StInv ns1) : StInv ns2 := by
  obtain ⟨h1, h2, h3⟩ := hst
  refine ⟨fun j => by rw [← h j]; exact h1 j, ?_, ?_⟩
  · intro j ch hch
    rw [← h j] at hch
    have := h2 j ch hch
    exact ⟨this.1, this.2.1, by rw [← hlen]; exact this.2.2⟩
  · intro j1 j2 c1 c2 t hm1 hm2
    rw [← h j1] at hm1
    rw [← h j2] at hm2
    exact h3 j1 j2 c1 c2 t hm1 hm2

theorem getD_append_replicate_zero (ls : List Nat) (m j : Nat) :
    (ls ++ List.replicate m 0).getD j 0 =
      (if j < ls.length then ls.getD j 0 else 0) := by
  by_cases h : j < ls.length
  · rw [if_pos h, getD_append_lt _ _ _ _ h]
  · rw [if_neg h]
    by_cases h2 : j < ls.length + m
    · rw [show j = ls.length + (j - ls.length) from by omega, getD_append_add]
      have : j - ls.length < m := by omega
      rw [List.getD_eq_getElem?_getD, List.getElem?_replicate, if_pos this]
      rfl
    · rw [List.getD_eq_default _ _ (by simp [List.length_replicate]; omega)]

/-- The semantic invariant tying a builder state to the sequence `S` of
    (key, payload) adds that produced it: each added key's path is walkable,
    the stored length at the end of any walkable word marks exactly the added
    keys (as the key length mod 2^16), and the payload at the end of any
    walkable word is the last payload added for that word. -/
def BuildInv (ns : List BNode) (ls : List Nat) (S : List (List Nat × Int)) : Prop :=
  StInv ns ∧ 0 < ns.length ∧ ls.length = ns.length ∧
  (∀ e ∈ S, 0 ≤ walkB ns 0 e.1) ∧
  (∀ w : List Nat, 0 ≤ walkB ns 0 w →
    ls.getD (walkB ns 0 w).toNat 0 =
      (if w ∈ S.map Prod.fst then w.length % 65536 else 0)) ∧
  (∀ w : List Nat, 0 ≤ walkB ns 0 w →
    (ns.getD (walkB ns 0 w).toNat default).payload = lastPay S w)

theorem inv_empty : BuildInv emptyTrie.nodes emptyTrie.lengths [] := by
  have hgd : ∀ j : Nat, (emptyTrie.nodes.getD j default) = default := by
    intro j
    cases j with
    | zero => rfl
    | succ j => exact List.getD_eq_default _ _ (by simp [emptyTrie])
  have hwalk : ∀ (w : List Nat), 0 ≤ walkB emptyTrie.nodes 0 w → w = [] := by
    intro w hw
    cases w with
    | nil => rfl
    | cons c rest =>
      exfalso
      rw [walkB_cons, hgd] at hw
      replace hw : (0 : Int) ≤ if (-1 : Int) < 0 then -1 else walkB emptyTrie.nodes (-1) rest := hw
      rw [if_pos (by norm_num)] at hw
      omega
  refine ⟨⟨?_, ?_, ?_⟩, by simp [emptyTrie], rfl, ?_, ?_, ?_⟩
  · intro j
    rw [hgd]
    exact List.Pairwise.nil
  · intro j ch hch
    rw [hgd] at hch
    exact absurd hch (List.not_mem_nil ch)
  · intro j1 j2 c1 c2 t hm1 hm2
    rw [hgd] at hm1
    exact absurd hm1 (List.not_mem_nil (c1, t))
  · intro e he
    simp at he
  · intro w hw
    rw [hwalk w hw]
    rfl
  · intro w hw
    rw [hwalk w hw]
    rfl

/-- add_string preserves the build invariant, extending the add history. -/
theorem add_string_inv (T : AhoCorasickTrie) (S : List (List Nat × Int))
    (k : List Nat) (p : Int) (T' : AhoCorasickTrie)
    (hinv : BuildInv T.nodes T.lengths S)
    (hfr : T.frozen = none)
    (hb : ∀ b ∈ k, b < 256)
    (hadd : T.add_string k p = Except.ok T') :
    BuildInv T'.nodes T'.lengths (S ++ [(k, p)]) ∧ T'.frozen = none := by
  obtain ⟨hst, hpos, hlslen, hK1, hK2, hK3⟩ := hinv
  obtain ⟨⟨r1, rls, t⟩, hrdef⟩ : ∃ x, addChain T.nodes T.lengths 0 0 k = x :=
    ⟨_, rfl⟩
  unfold AhoCorasickTrie.add_string at hadd
  rw [if_neg (by rw [hfr]; simp)] at hadd
  rw [hrdef] at hadd
  injection hadd with hT'
  have hN : T'.nodes =
      r1.set t.toNat { r1.getD t.toNat default with payload := p } := by
    rw [← hT']
  have hL : T'.lengths = rls.set t.toNat (k.length % 65536) := by
    rw [← hT']
  have hF : T'.frozen = none := by
    rw [← hT']
  have hspec := addChain_spec k T.nodes T.lengths 0 r1 rls t hrdef hst
    (le_refl 0) (by omega) hb
  obtain ⟨jSt, jLe, jLs, jPayOld, jPayFresh, jFrame, jEdge, jWalk,
    jT0, jTlt, jLand⟩ := hspec
  have htlen : t.toNat < r1.length := by omega
  have hrlslen : rls.length = r1.length := by
    rw [jLs, List.length_append, List.length_replicate, hlslen]
    omega
  have hch : ∀ j : Nat,
      ((r1.set t.toNat { r1.getD t.toNat default with payload := p }).getD j
        default).children = (r1.getD j default).children := by
    intro j
    by_cases hj : j = t.toNat
    · subst hj
      rw [getD_set_self _ _ _ _ htlen]
    · rw [getD_set_ne _ _ _ _ _ (fun h => hj h.symm)]
  have hwalk2 := walkB_congr _ _ hch
  refine ⟨⟨?_, ?_, ?_, ?_, ?_, ?_⟩, hF⟩
  · rw [hN]
    exact StInv_congr r1 _ (List.length_set _ _ _).symm (fun j => (hch j).symm) jSt
  · rw [hN, List.length_set]
    omega
  · rw [hN, hL, List.length_set, List.length_set, hrlslen]
  · intro e he
    rw [hN, hwalk2]
    rcases List.mem_append.mp he with he' | he'
    · rw [jFrame 0 e.1 (le_refl 0) (hK1 e he')]
      exact hK1 e he'
    · have : e = (k, p) := by simpa using he'
      subst this
      rw [jWalk]
      exact jT0
  · intro w hw
    rw [hN, hwalk2] at hw
    rw [hN, hL, hwalk2, List.map_append,
      show ([(k, p)] : List (List Nat × Int)).map Prod.fst = [k] from rfl]
    by_cases hcase : walkB r1 0 w = t
    · have hwk : w = k := walkB_inj r1 jSt w.length w k (le_refl _) hw
        (by rw [hcase, jWalk]) (by rw [jWalk]; exact jT0)
      subst hwk
      rw [hcase, getD_set_self _ _ _ _ (by rw [hrlslen]; exact htlen)]
      rw [if_pos (List.mem_append.mpr (Or.inr (by simp)))]
    · rw [getD_set_ne _ _ _ _ _ (by omega)]
      have hwk : w ≠ k := fun he => hcase (by rw [he, jWalk])
      by_cases hold : walkB r1 0 w < (T.nodes.length : Int)
      · have hlw := jLand 0 w (le_refl 0) (by omega) hw hold
        have hw0 : 0 ≤ walkB T.nodes 0 w := by rw [hlw]; exact hw
        rw [jLs, getD_append_replicate_zero,
          if_pos (by rw [hlslen]; omega), ← hlw, hK2 w hw0]
        by_cases hmem : w ∈ S.map Prod.fst
        · rw [if_pos hmem, if_pos (List.mem_append_left _ hmem)]
        · rw [if_neg hmem, if_neg ?hnm]
          case hnm =>
            intro hin
            rcases List.mem_append.mp hin with h | h
            · exact hmem h
            · exact hwk (by simpa using h)
      · rw [jLs, getD_append_replicate_zero, if_neg (by rw [hlslen]; omega)]
        rw [if_neg ?hnm2]
        case hnm2 =>
          intro hin
          rcases List.mem_append.mp hin with hmem | hmem
          · have he : ∃ e ∈ S, e.1 = w := by simpa using hmem
            rcases he with ⟨e, heS, hew⟩
            have h1 : 0 ≤ walkB T.nodes 0 w := hew ▸ hK1 e heS
            have h2 := jFrame 0 w (le_refl 0) h1
            have h3 := walkB_lt_len T.nodes hst.2.1 w 0 (le_refl 0)
              (by omega) h1
            omega
          · exact hwk (by simpa using hmem)
  · intro w hw
    rw [hN, hwalk2] at hw
    rw [hN, hwalk2]
    by_cases hcase : walkB r1 0 w = t
    · have hwk : w = k := walkB_inj r1 jSt w.length w k (le_refl _) hw
        (by rw [hcase, jWalk]) (by rw [jWalk]; exact jT0)
      subst hwk
      rw [hcase, getD_set_self _ _ _ _ htlen, lastPay_append_self]
    · rw [getD_set_ne _ _ _ _ _ (by omega)]
      have hwk : w ≠ k := fun he => hcase (by rw [he, jWalk])
      rw [lastPay_append_other S k p w hwk]
      by_cases hold : walkB r1 0 w < (T.nodes.length : Int)
      · have hlw := jLand 0 w (le_refl 0) (by omega) hw hold
        have hw0 : 0 ≤ walkB T.nodes 0 w := by rw [hlw]; exact hw
        rw [jPayOld _ (by omega), ← hlw, hK3 w hw0]
      · rw [jPayFresh _ (by omega)]
        have hnm : w ∉ S.map Prod.fst := by
          intro hmem
          have he : ∃ e ∈ S, e.1 = w := by simpa using hmem
          rcases he with ⟨e, heS, hew⟩
          have h1 : 0 ≤ walkB T.nodes 0 w := hew ▸ hK1 e heS
          have h2 := jFrame 0 w (le_refl 0) h1
          have h3 := walkB_lt_len T.nodes hst.2.1 w 0 (le_refl 0)
            (by omega) h1
          omega
        rw [lastPay_not_mem S w hnm]

/-- Building a trie from a list of (key, payload) pairs through the Python
    binding's add. -/
def buildFrom (S : List (List Nat × Int)) : Except TrieError AhoCorasickTrie :=
  S.foldlM (fun T e => NoAho.add T e.1 e.2) emptyTrie

theorem buildFrom_go :
    ∀ (S2 : List (List Nat × Int)) (T0 : AhoCorasickTrie)
      (S1 : List (List Nat × Int)),
      BuildInv T0.nodes T0.lengths S1 → T0.frozen = none →
      (∀ e ∈ S2, e.1 ≠ [] ∧ ∀ b ∈ e.1, b < 256) →
      ∃ T, S2.foldlM (fun T e => NoAho.add T e.1 e.2) T0 = Except.ok T ∧
        BuildInv T.nodes T.lengths (S1 ++ S2) ∧ T.frozen = none := by
  intro S2
  induction S2 with
  | nil =>
    intro T0 S1 hinv hfr _
    exact ⟨T0, rfl, by simpa using hinv, hfr⟩
  | cons e S2 ih =>
    intro T0 S1 hinv hfr hcond
    have hc := hcond e (List.mem_cons_self e S2)
    have hok : ∃ T1, T0.add_string e.1 e.2 = Except.ok T1 := by
      unfold AhoCorasickTrie.add_string
      rw [if_neg (by rw [hfr]; simp)]
      exact ⟨_, rfl⟩
    rcases hok with ⟨T1, hT1⟩
    have hinv1 := add_string_inv T0 S1 e.1 e.2 T1 hinv hfr hc.2 hT1
    have hstep : NoAho.add T0 e.1 e.2 = Except.ok T1 := by
      unfold NoAho.add
      rw [if_neg (by rw [List.length_eq_zero]; exact hc.1)]
      exact hT1
    rcases ih T1 (S1 ++ [(e.1, e.2)]) hinv1.1 hinv1.2
      (fun x hx => hcond x (List.mem_cons_of_mem e hx)) with ⟨T, hT, hinvT, hfrT⟩
    refine ⟨T, ?_, ?_, hfrT⟩
    · rw [List.foldlM_cons, hstep]
      show S2.foldlM (fun T e => NoAho.add T e.1 e.2) T1 = Except.ok T
      exact hT
    · have heq : (S1 ++ [(e.1, e.2)]) ++ S2 = S1 ++ e :: S2 := by
        simp
      rw [← heq]
      exact hinvT

theorem buildFrom_inv (S : List (List Nat × Int))
    (hcond : ∀ e ∈ S, e.1 ≠ [] ∧ ∀ b ∈ e.1, b < 256) :
    ∃ T, buildFrom S = Except.ok T ∧ BuildInv T.nodes T.lengths S ∧
      T.frozen = none := by
  have := buildFrom_go S emptyTrie [] inv_empty rfl hcond
  simpa using this

theorem nodup_lt_length_le (l : List Nat) (h : l.Nodup)
    (hb : ∀ x ∈ l, x < 256) : l.length ≤ 256 := by
  classical
  have hsub : l.toFinset ⊆ Finset.range 256 := by
    intro x hx
    simp only [Finset.mem_range]
    exact hb x (List.mem_toFinset.mp hx)
  have h1 : l.toFinset.card = l.length := List.toFinset_card_of_nodup h
  have h2 := Finset.card_le_card hsub
  simp only [Finset.card_range] at h2
  omega

/-- A byte-sorted child list with bytes below 256 has at most 256 entries, in
    particular no more than INT16_MAX, so freezing never overflows. -/
theorem stinv_children_le (ns : List BNode) (hst : StInv ns) :
    ∀ n ∈ ns, n.children.length ≤ 32767 := by
  intro n hn
  obtain ⟨i, hlt, hget⟩ := List.mem_iff_getElem.mp hn
  have hgd : ns.getD i default = n := by
    rw [List.getD_eq_getElem?_getD, List.getElem?_eq_getElem hlt]
    exact hget
  have hsorted := hst.1 i
  have hbytes := hst.2.1 i
  rw [hgd] at hsorted hbytes
  have hnodup : (n.children.map Prod.fst).Nodup := by
    have hp : (n.children.map Prod.fst).Pairwise (· < ·) :=
      List.pairwise_map.mpr hsorted
    exact List.Pairwise.imp (fun h => Nat.ne_of_lt h) hp
  have hmb : ∀ x ∈ n.children.map Prod.fst, x < 256 := by
    intro x hx
    rcases List.mem_map.mp hx with ⟨ch, hch, rfl⟩
    exact (hbytes ch hch).1
  have := nodup_lt_length_le _ hnodup hmb
  rw [List.length_map] at this
  omega

theorem walkRaw_cons (t : FrozenTrie) (i : Int) (c : Nat) (rest : List Nat) :
    t.walkRaw i (c :: rest) =
      (if t.rawChildAt i c < 0 then -1 else t.walkRaw (t.rawChildAt i c) rest) := rfl

/-- The frozen raw walk agrees with the builder walk. -/
theorem freeze_walkRaw (ns : List BNode) (ls : List Nat) :
    ∀ (w : List Nat) (i : Int),
      FrozenTrie.walkRaw
        { nodes := fzNodes ns ls 0, chars := fzChars ns,
          indices := fzIndices ns, payloads := fzPayloads ns 0 } i w =
        walkB ns i w := by
  intro w
  induction w with
  | nil => intro i; rfl
  | cons c rest ih =>
    intro i
    rw [walkRaw_cons, walkB_cons, freeze_rawChild]
    by_cases h : (ns.getD i.toNat default).child_at c < 0
    · rw [if_pos h, if_pos h]
    · rw [if_neg h, if_neg h, ih]

/-- The frozen per-node key length is the builder's lengths entry. -/
theorem freeze_lengthAt (ns : List BNode) (ls : List Nat)
    (hlen : ls.length = ns.length) (i : Int) :
    FrozenTrie.lengthAt
      { nodes := fzNodes ns ls 0, chars := fzChars ns,
        indices := fzIndices ns, payloads := fzPayloads ns 0 } i =
      ls.getD i.toNat 0 := by
  unfold FrozenTrie.lengthAt FrozenTrie.nodeAt
  by_cases hin : i.toNat < ns.length
  · show ((fzNodes ns ls 0).getD i.toNat default).length = _
    rw [fzNodes_getD ns ls 0 i.toNat hin]
  · show ((fzNodes ns ls 0).getD i.toNat default).length = _
    rw [List.getD_eq_default _ _ (by rw [fzNodes_length]; omega)]
    rw [List.getD_eq_default _ _ (by omega)]
    rfl

theorem fzPayloads_cons (n : BNode) (rest : List BNode) (ni : Nat) :
    fzPayloads (n :: rest) ni =
      (if 0 ≤ n.payload then [((ni : Int), n.payload)] else []) ++
        fzPayloads rest (ni + 1) := rfl

/-- Keys of the frozen payload table lie in the node-index window. -/
theorem fzPayloads_key_ge :
    ∀ (ns : List BNode) (ni : Nat) (p : Int × Int), p ∈ fzPayloads ns ni →
      (ni : Int) ≤ p.1 ∧ p.1 < ((ni + ns.length : Nat) : Int) := by
  intro ns
  induction ns with
  | nil =>
    intro ni p hp
    simp [fzPayloads] at hp
  | cons n rest ih =>
    intro ni p hp
    rw [fzPayloads_cons] at hp
    rcases List.mem_append.mp hp with h | h
    · by_cases hpay : 0 ≤ n.payload
      · rw [if_pos hpay] at h
        have : p = ((ni : Int), n.payload) := by simpa using h
        subst this
        refine ⟨le_refl _, ?_⟩
        show (ni : Int) < ((ni + (rest.length + 1) : Nat) : Int)
        push_cast
        omega
      · rw [if_neg hpay] at h
        simp at h
    · have := ih (ni + 1) p h
      refine ⟨by push_cast at this ⊢; omega, ?_⟩
      have h2 := this.2
      simp only [List.length_cons] at h2 ⊢
      push_cast at h2 ⊢
      omega

/-- The frozen payload table lookup finds exactly the in-range node's payload
    when it is nonnegative, and misses otherwise. -/
theorem fzPayloads_lookup :
    ∀ (ns : List BNode) (ni k : Nat), k < ns.length →
      (match (fzPayloads ns ni).find?
          (fun p => decide (((ni + k : Nat) : Int) ≤ p.1)) with
       | some p => if p.1 = ((ni + k : Nat) : Int) then p.2 else -1
       | none => -1) =
      (if 0 ≤ (ns.getD k default).payload then (ns.getD k default).payload
       else -1) := by
  intro ns
  induction ns with
  | nil =>
    intro ni k h
    simp at h
  | cons n rest ih =>
    intro ni k hk
    rw [fzPayloads_cons]
    cases k with
    | zero =>
      rw [show ((n :: rest).getD 0 default) = n from rfl]
      by_cases hp : 0 ≤ n.payload
      · rw [if_pos hp, if_pos hp, List.singleton_append,
          List.find?_cons_of_pos _ (by simp)]
        show (if ((ni : Int), n.payload).1 = ((ni + 0 : Nat) : Int)
          then ((ni : Int), n.payload).2 else -1) = n.payload
        rw [if_pos (by push_cast; omega)]
      · rw [if_neg hp, if_neg hp, List.nil_append]
        cases hf : (fzPayloads rest (ni + 1)).find?
            (fun p => decide (((ni + 0 : Nat) : Int) ≤ p.1)) with
        | none => rfl
        | some p =>
          have hb := fzPayloads_key_ge rest (ni + 1) p
            (List.mem_of_find?_eq_some hf)
          show (if p.1 = ((ni + 0 : Nat) : Int) then p.2 else -1) = -1
          rw [if_neg ?hne]
          case hne =>
            have hb1 := hb.1
            push_cast at hb1 ⊢
            omega
    | succ k =>
      rw [show ((n :: rest).getD (k + 1) default) = rest.getD k default from rfl]
      have hk' : k < rest.length := by simp at hk; omega
      by_cases hp : 0 ≤ n.payload
      · rw [if_pos hp, List.singleton_append, List.find?_cons_of_neg _
          (by simp only [decide_eq_true_eq]; push_cast; omega)]
        rw [show ni + (k + 1) = (ni + 1) + k from by omega]
        exact ih (ni + 1) k hk'
      · rw [if_neg hp, List.nil_append]
        rw [show ni + (k + 1) = (ni + 1) + k from by omega]
        exact ih (ni + 1) k hk'

/-- payload_at on a freshly frozen trie reads the builder node's payload. -/
theorem freeze_payload_at (ns : List BNode) (ls : List Nat) (i : Int)
    (h1 : 0 < i) (hin : i.toNat < ns.length) :
    FrozenTrie.payload_at
      { nodes := fzNodes ns ls 0, chars := fzChars ns,
        indices := fzIndices ns, payloads := fzPayloads ns 0 } i =
      (if 0 ≤ (ns.getD i.toNat default).payload
       then (ns.getD i.toNat default).payload else -1) := by
  unfold FrozenTrie.payload_at
  rw [if_neg (by omega)]
  have hl := fzPayloads_lookup ns 0 i.toNat hin
  rw [show ((0 + i.toNat : Nat) : Int) = i from by push_cast; omega] at hl
  exact hl

/-- Projection equality gives pointwise children and payload equality. -/
theorem projB_eq_getD (ns1 ns2 : List BNode) (h : ns1.map projB = ns2.map projB) :
    ns1.length = ns2.length ∧
    (∀ j : Nat, (ns1.getD j default).children = (ns2.getD j default).children) ∧
    (∀ j : Nat, (ns1.getD j default).payload = (ns2.getD j default).payload) := by
  have hlen : ns1.length = ns2.length := by
    have := congrArg List.length h
    simpa using this
  have hpt : ∀ j : Nat, projB (ns1.getD j default) = projB (ns2.getD j default) := by
    intro j
    have h1 : (ns1.map projB).getD j (projB default) = projB (ns1.getD j default) :=
      List.getD_map ns1 default projB
    have h2 : (ns2.map projB).getD j (projB default) = projB (ns2.getD j default) :=
      List.getD_map ns2 default projB
    rw [← h1, ← h2, h]
  exact ⟨hlen, fun j => congrArg Prod.fst (hpt j), fun j => congrArg Prod.snd (hpt j)⟩

/-- The frozen trie a successful compile of `T` produces, described directly. -/
def freezeOf (T : AhoCorasickTrie) : FrozenTrie :=
  { nodes := fzNodes T.make_failure_links.nodes T.lengths 0,
    chars := fzChars T.make_failure_links.nodes,
    indices := fzIndices T.make_failure_links.nodes,
    payloads := fzPayloads T.make_failure_links.nodes 0 }

/-- On an uncompiled builder, compile succeeds and freezes the arena produced
    by make_failure_links (which leaves children, payloads and lengths alone). -/
theorem compile_frozen (T : AhoCorasickTrie) (S : List (List Nat × Int))
    (hinv : BuildInv T.nodes T.lengths S) (hfr : T.frozen = none) :
    T.compile = some { T.make_failure_links with frozen := some (freezeOf T) } := by
  obtain ⟨hproj, hlen2, _⟩ := make_failure_links_projB T
  obtain ⟨hlen, hchild, hpay⟩ := projB_eq_getD _ _ hproj
  have hbound : ∀ n ∈ T.make_failure_links.nodes, n.children.length ≤ 32767 := by
    intro n hn
    obtain ⟨i, hlt, hget⟩ := List.mem_iff_getElem.mp hn
    have hgd : T.make_failure_links.nodes.getD i default = n := by
      rw [List.getD_eq_getElem?_getD, List.getElem?_eq_getElem hlt]
      exact hget
    rw [← hgd, hchild i]
    by_cases hi : i < T.nodes.length
    · have hmem : T.nodes.getD i default ∈ T.nodes := by
        rw [List.getD_eq_getElem?_getD, List.getElem?_eq_getElem hi]
        exact List.getElem_mem hi
      exact stinv_children_le T.nodes hinv.1 _ hmem
    · rw [List.getD_eq_default _ _ (by omega)]
      show ([] : List (Nat × Int)).length ≤ 32767
      norm_num
  unfold AhoCorasickTrie.compile
  rw [if_neg (by rw [hfr]; simp)]
  show (match freeze T.make_failure_links.nodes T.make_failure_links.lengths with
    | none => none
    | some ft => some { T.make_failure_links with frozen := some ft }) = _
  rw [hlen2, freeze_eq T.make_failure_links.nodes T.lengths hbound]
  rfl

/-- After building from `S` and freezing, contains recognises exactly the
    added keys, and get_payload returns the last nonnegative payload added
    for the key (the sentinel -1 otherwise). -/
theorem freezeOf_spec (T : AhoCorasickTrie) (S : List (List Nat × Int))
    (hinv : BuildInv T.nodes T.lengths S)
    (hcond : ∀ e ∈ S, e.1 ≠ [] ∧ (∀ b ∈ e.1, b < 256) ∧ e.1.length < 65536) :
    (∀ w : List Nat, ((freezeOf T).contains w = 1 ↔ w ∈ S.map Prod.fst)) ∧
    (∀ w : List Nat, (freezeOf T).get_payload w =
      (if w ∈ S.map Prod.fst ∧ 0 ≤ lastPay S w then lastPay S w else -1)) := by
  obtain ⟨hst, hpos, hlslen, hK1, hK2, hK3⟩ := hinv
  obtain ⟨hproj, hlenMFL, _⟩ := make_failure_links_projB T
  obtain ⟨hlen, hchild, hpay⟩ := projB_eq_getD _ _ hproj
  have hwcongr := walkB_congr T.make_failure_links.nodes T.nodes hchild
  have hwalk : ∀ w : List Nat, (freezeOf T).walkRaw 0 w = walkB T.nodes 0 w := by
    intro w
    calc (freezeOf T).walkRaw 0 w
        = walkB T.make_failure_links.nodes 0 w :=
          freeze_walkRaw T.make_failure_links.nodes T.lengths w 0
      _ = walkB T.nodes 0 w := hwcongr w 0
  have hlength : ∀ i : Int, (freezeOf T).lengthAt i = T.lengths.getD i.toNat 0 :=
    fun i => freeze_lengthAt T.make_failure_links.nodes T.lengths
      (by rw [hlslen, hlen]) i
  have hpayAt : ∀ i : Int, 0 < i → i.toNat < T.nodes.length →
      (freezeOf T).payload_at i =
        (if 0 ≤ (T.nodes.getD i.toNat default).payload
         then (T.nodes.getD i.toNat default).payload else -1) := by
    intro i hi hin
    have h := freeze_payload_at T.make_failure_links.nodes T.lengths i hi
      (by rw [hlen]; exact hin)
    rw [hpay i.toNat] at h
    exact h
  have hkey : ∀ w ∈ S.map Prod.fst, 0 ≤ walkB T.nodes 0 w ∧
      T.lengths.getD (walkB T.nodes 0 w).toNat 0 = w.length % 65536 ∧
      w ≠ [] ∧ w.length < 65536 := by
    intro w hw
    have he : ∃ e ∈ S, e.1 = w := by simpa using hw
    rcases he with ⟨e, heS, rfl⟩
    have h1 := hK1 e heS
    have h2 := hK2 e.1 h1
    rw [if_pos hw] at h2
    have hc := hcond e heS
    exact ⟨h1, h2, hc.1, hc.2.2⟩
  have hmodne : ∀ w : List Nat, w ≠ [] → w.length < 65536 →
      w.length % 65536 ≠ 0 := by
    intro w hne hlt
    rw [Nat.mod_eq_of_lt hlt]
    have := List.length_pos.mpr hne
    omega
  have hcontains : ∀ w : List Nat, (freezeOf T).contains w =
      (if walkB T.nodes 0 w < 0 then 0
       else if T.lengths.getD (walkB T.nodes 0 w).toNat 0 ≠ 0 then 1 else 0) := by
    intro w
    show (if (freezeOf T).walkRaw 0 w < 0 then 0
      else if ((freezeOf T).nodeAt ((freezeOf T).walkRaw 0 w)).length ≠ 0
      then 1 else 0) = _
    rw [hwalk w]
    by_cases h : walkB T.nodes 0 w < 0
    · rw [if_pos h, if_pos h]
    · rw [if_neg h, if_neg h,
        show ((freezeOf T).nodeAt (walkB T.nodes 0 w)).length =
          (freezeOf T).lengthAt (walkB T.nodes 0 w) from rfl, hlength]
  have hgp : ∀ w : List Nat, (freezeOf T).get_payload w =
      (if walkB T.nodes 0 w < 0 then -1
       else if T.lengths.getD (walkB T.nodes 0 w).toNat 0 ≠ 0
       then (freezeOf T).payload_at (walkB T.nodes 0 w) else -1) := by
    intro w
    show (if (freezeOf T).walkRaw 0 w < 0 then -1
      else if ((freezeOf T).nodeAt ((freezeOf T).walkRaw 0 w)).length ≠ 0
      then (freezeOf T).payload_at ((freezeOf T).walkRaw 0 w) else -1) = _
    rw [hwalk w]
    by_cases h : walkB T.nodes 0 w < 0
    · rw [if_pos h, if_pos h]
    · rw [if_neg h, if_neg h,
        show ((freezeOf T).nodeAt (walkB T.nodes 0 w)).length =
          (freezeOf T).lengthAt (walkB T.nodes 0 w) from rfl, hlength]
  constructor
  · intro w
    rw [hcontains w]
    constructor
    · intro h1
      by_contra hnm
      by_cases hge : walkB T.nodes 0 w < 0
      · rw [if_pos hge] at h1
        exact absurd h1 (by norm_num)
      · rw [if_neg hge] at h1
        have h2 := hK2 w (by omega)
        rw [if_neg hnm] at h2
        rw [h2, if_neg (by norm_num)] at h1
        exact absurd h1 (by norm_num)
    · intro hmem
      have hk := hkey w hmem
      rw [if_neg (by omega), hk.2.1,
        if_pos (hmodne w hk.2.2.1 hk.2.2.2)]
  · intro w
    rw [hgp w]
    by_cases hmem : w ∈ S.map Prod.fst
    · have hk := hkey w hmem
      rw [if_neg (by omega), hk.2.1,
        if_pos (hmodne w hk.2.2.1 hk.2.2.2)]
      have hgt := (walkB_gt T.nodes hst.2.1 w 0 (le_refl 0) hk.1).2 hk.2.2.1
      have hlt := walkB_lt_len T.nodes hst.2.1 w 0 (le_refl 0) (by omega) hk.1
      rw [hpayAt _ hgt (by omega), hK3 w hk.1]
      by_cases hlp : 0 ≤ lastPay S w
      · rw [if_pos hlp, if_pos ⟨hmem, hlp⟩]
      · rw [if_neg hlp, if_neg (fun hcl => hlp hcl.2)]
    · by_cases hge : walkB T.nodes 0 w < 0
      · rw [if_pos hge,
          if_neg (fun hcl : w ∈ S.map Prod.fst ∧ 0 ≤ lastPay S w => hmem hcl.1)]
      · have h2 := hK2 w (by omega)
        rw [if_neg hmem] at h2
        rw [if_neg hge, h2, if_neg (by norm_num),
          if_neg (fun hcl : w ∈ S.map Prod.fst ∧ 0 ≤ lastPay S w => hmem hcl.1)]

theorem lastPay_nonneg (S : List (List Nat × Int)) (w : List Nat)
    (hmem : w ∈ S.map Prod.fst) (hp : ∀ e ∈ S, 0 ≤ e.2) : 0 ≤ lastPay S w := by
  unfold lastPay
  cases hf : S.reverse.find? (fun e => decide (e.1 = w)) with
  | none =>
    exfalso
    have he : ∃ e ∈ S, e.1 = w := by simpa using hmem
    rcases he with ⟨e, heS, hew⟩
    have := List.find?_eq_none.mp hf e (List.mem_reverse.mpr heS)
    simp [hew] at this
  | some e =>
    exact hp e (List.mem_reverse.mp (List.mem_of_find?_eq_some hf))

/-- C6 (amended): after building a trie from the add history `S` (nonempty
    keys of bytes, lengths within unsigned short) and compiling it, contains
    recognises exactly the added keys; get_payload returns the stored payload
    when that payload is nonnegative and the sentinel -1 otherwise; hence
    "contains(k) = 1 iff get_payload(k) ≠ -1" holds whenever every payload
    passed to add is nonnegative.  (The original unconditional iff fails for
    the default payload -1: see the counterexample.) -/
theorem contains_payload_agreement (S : List (List Nat × Int))
    (T Tc : AhoCorasickTrie) (F : FrozenTrie)
    (hcond : ∀ e ∈ S, e.1 ≠ [] ∧ (∀ b ∈ e.1, b < 256) ∧ e.1.length < 65536)
    (hbuild : buildFrom S = Except.ok T)
    (hcomp : T.compile = some Tc) (hfrz : Tc.frozen = some F) :
    (∀ w : List Nat, (F.contains w = 1 ↔ w ∈ S.map Prod.fst)) ∧
    (∀ w : List Nat, F.get_payload w =
      (if w ∈ S.map Prod.fst ∧ 0 ≤ lastPay S w then lastPay S w else -1)) ∧
    ((∀ e ∈ S, 0 ≤ e.2) →
      ∀ w : List Nat, (F.contains w = 1 ↔ F.get_payload w ≠ -1)) := by
  obtain ⟨T2, hb2, hinv, hfr2⟩ :=
    buildFrom_inv S (fun e he => ⟨(hcond e he).1, (hcond e he).2.1⟩)
  rw [hbuild] at hb2
  injection hb2 with hb2
  subst hb2
  have hcf := compile_frozen T S hinv hfr2
  rw [hcomp] at hcf
  injection hcf with hcf
  rw [hcf] at hfrz
  replace hfrz : some (freezeOf T) = some F := hfrz
  injection hfrz with hfrz
  subst hfrz
  obtain ⟨hc1, hc2⟩ := freezeOf_spec T S hinv hcond
  refine ⟨hc1, hc2, ?_⟩
  intro hpays w
  constructor
  · intro h1
    have hmem := (hc1 w).mp h1
    have hnn := lastPay_nonneg S w hmem hpays
    rw [hc2 w, if_pos ⟨hmem, hnn⟩]
    omega
  · intro h2
    by_contra hnc
    have hmem : w ∉ S.map Prod.fst := fun hm => hnc ((hc1 w).mpr hm)
    rw [hc2 w, if_neg (fun hcl => hmem hcl.1)] at h2
    exact h2 rfl

/-- Counterexample to the original C6: a key added through the C++ add_string
    default payload (-1) is contained, yet get_payload reports the absent
    sentinel -1, so "contains iff get_payload returns a payload" fails. -/
theorem contains_payload_counterexample :
    ∃ (T Tc : AhoCorasickTrie) (F : FrozenTrie),
      emptyTrie.add_string [97] (-1) = Except.ok T ∧
      T.compile = some Tc ∧ Tc.frozen = some F ∧
      F.contains [97] = 1 ∧ F.get_payload [97] = -1 := by
  refine ⟨_, _, _, rfl, rfl, rfl, ?_, ?_⟩ <;> rfl

/-- Witness for C6: the amended theorem applied to the one-key history
    ([98] ↦ 5), with every hypothesis discharged on the concrete build. -/
theorem contains_payload_agreement_witness :
    ∃ (T Tc : AhoCorasickTrie) (F : FrozenTrie),
      buildFrom [([98], 5)] = Except.ok T ∧ T.compile = some Tc ∧
      Tc.frozen = some F ∧
      (F.contains [98] = 1 ↔
        [98] ∈ ([([98], 5)] : List (List Nat × Int)).map Prod.fst) := by
  refine ⟨_, _, _, rfl, rfl, rfl, ?_⟩
  exact (contains_payload_agreement [([98], 5)] _ _ _ (by decide)
    rfl rfl rfl).1 [98]

/-- Little-endian byte encoding of a value at a fixed width (Writer's
    write_unsigned_short / write_int32 / write_int16 / write_size_t all dump
    the raw little-endian bytes of the value). -/
def leBytes : Nat → Nat → List Nat
  | 0, _ => []
  | w + 1, v => v % 256 :: leBytes w (v / 256)

/-- Little-endian value of a byte list. -/
def leVal : List Nat → Nat
  | [] => 0
  | b :: rest => b + 256 * leVal rest

theorem leBytes_length : ∀ (w v : Nat), (leBytes w v).length = w := by
  intro w
  induction w with
  | zero => intro v; rfl
  | succ w ih =>
    intro v
    show (leBytes w (v / 256)).length + 1 = w + 1
    rw [ih]

theorem leVal_leBytes : ∀ (w v : Nat), v < 256 ^ w → leVal (leBytes w v) = v := by
  intro w
  induction w with
  | zero =>
    intro v h
    rw [pow_zero] at h
    interval_cases v
    rfl
  | succ w ih =>
    intro v h
    show v % 256 + 256 * leVal (leBytes w (v / 256)) = v
    rw [ih (v / 256) (by
      rw [Nat.div_lt_iff_lt_mul (by norm_num)]
      rw [pow_succ] at h
      omega)]
    omega

/-- Two's-complement 32-bit encoding of an int (write_int32). -/
def encI32 (v : Int) : List Nat := leBytes 4 (v % 4294967296).toNat

/-- Decoding of a mapped int32 value. -/
def decI32 (bs : List Nat) : Int :=
  if leVal bs < 2147483648 then (leVal bs : Int) else (leVal bs : Int) - 4294967296

theorem decI32_encI32 (v : Int) (h1 : -2147483648 ≤ v) (h2 : v < 2147483648) :
    decI32 (encI32 v) = v := by
  unfold decI32 encI32
  have hmod1 : 0 ≤ v % 4294967296 := Int.emod_nonneg v (by norm_num)
  have hmod2 : v % 4294967296 < 4294967296 := Int.emod_lt_of_pos v (by norm_num)
  rw [leVal_leBytes 4 (v % 4294967296).toNat (by
    show (v % 4294967296).toNat < 4294967296
    omega)]
  have hcast : (((v % 4294967296).toNat : Nat) : Int) = v % 4294967296 :=
    Int.toNat_of_nonneg hmod1
  by_cases hlt : (v % 4294967296).toNat < 2147483648
  · rw [if_pos hlt]
    omega
  · rw [if_neg hlt]
    omega

/-- Two's-complement 16-bit encoding (write_int16, for chars_count). -/
def encI16 (v : Int) : List Nat := leBytes 2 (v % 65536).toNat

def decI16 (bs : List Nat) : Int :=
  if leVal bs < 32768 then (leVal bs : Int) else (leVal bs : Int) - 65536

theorem decI16_encI16 (v : Int) (h1 : -32768 ≤ v) (h2 : v < 32768) :
    decI16 (encI16 v) = v := by
  unfold decI16 encI16
  have hmod1 : 0 ≤ v % 65536 := Int.emod_nonneg v (by norm_num)
  have hmod2 : v % 65536 < 65536 := Int.emod_lt_of_pos v (by norm_num)
  rw [leVal_leBytes 2 (v % 65536).toNat (by
    show (v % 65536).toNat < 65536
    omega)]
  have hcast : (((v % 65536).toNat : Nat) : Int) = v % 65536 :=
    Int.toNat_of_nonneg hmod1
  by_cases hlt : (v % 65536).toNat < 32768
  · rw [if_pos hlt]
    omega
  · rw [if_neg hlt]
    omega

theorem leVal_leBytes_u16 (v : Nat) (h : v < 65536) : leVal (leBytes 2 v) = v :=
  leVal_leBytes 2 v (by norm_num; omega)

theorem leVal_leBytes_u8 (v : Nat) (h : v < 256) : leVal (leBytes 1 v) = v :=
  leVal_leBytes 1 v (by norm_num; omega)

/-- Fixed-width element decoding of a counted packed array region. -/
def decChunks {α : Type} (esz : Nat) (dec : List Nat → α) : Nat → List Nat → List α
  | 0, _ => []
  | k + 1, bs => dec (bs.take esz) :: decChunks esz dec k (bs.drop esz)

/-- MappedArray construction from a size-prefixed region (the MappedArray
    constructor reads the size_t count and points past it), returning the
    array and the bytes after it (end_bytes). -/
def readArr {α : Type} (esz : Nat) (dec : List Nat → α) (bs : List Nat) :
    MappedArray α × List Nat :=
  ({ data := decChunks esz dec (leVal (bs.take 8)) (bs.drop 8),
     siz := leVal (bs.take 8) },
   (bs.drop 8).drop (leVal (bs.take 8) * esz))

/-- One size-prefixed array as FrozenTrie::write dumps it. -/
def arrBytes {α : Type} (enc : α → List Nat) (vs : List α) : List Nat :=
  leBytes 8 vs.length ++ (vs.map enc).flatten

theorem join_length_const {α : Type} (esz : Nat) (enc : α → List Nat) :
    ∀ (vs : List α), (∀ v ∈ vs, (enc v).length = esz) →
      ((vs.map enc).flatten).length = vs.length * esz := by
  intro vs
  induction vs with
  | nil => intro _; simp
  | cons v vs ih =>
    intro h
    rw [List.map_cons, List.flatten_cons, List.length_append,
      h v (List.mem_cons_self v vs), ih (fun x hx => h x (List.mem_cons_of_mem v hx))]
    rw [List.length_cons]
    ring

theorem decChunks_append {α : Type} (esz : Nat) (dec : List Nat → α)
    (enc : α → List Nat) :
    ∀ (vs : List α) (rest : List Nat),
      (∀ v ∈ vs, (enc v).length = esz ∧ dec (enc v) = v) →
      decChunks esz dec vs.length ((vs.map enc).flatten ++ rest) = vs := by
  intro vs
  induction vs with
  | nil => intro rest _; rfl
  | cons v vs ih =>
    intro rest h
    have hv := h v (List.mem_cons_self v vs)
    show dec ((((v :: vs).map enc).flatten ++ rest).take esz) ::
      decChunks esz dec vs.length ((((v :: vs).map enc).flatten ++ rest).drop esz) =
      v :: vs
    rw [List.map_cons, List.flatten_cons, List.append_assoc,
      List.take_left' hv.1, List.drop_left' hv.1, hv.2,
      ih rest (fun x hx => h x (List.mem_cons_of_mem v hx))]

theorem readArr_spec {α : Type} (esz : Nat) (dec : List Nat → α)
    (enc : α → List Nat) (vs : List α) (rest : List Nat)
    (hn : vs.length < 18446744073709551616)
    (h : ∀ v ∈ vs, (enc v).length = esz ∧ dec (enc v) = v) :
    readArr esz dec (arrBytes enc vs ++ rest) =
      ({ data := vs, siz := vs.length }, rest) := by
  unfold readArr arrBytes
  rw [List.append_assoc, List.take_left' (leBytes_length 8 vs.length),
    List.drop_left' (leBytes_length 8 vs.length)]
  rw [leVal_leBytes 8 vs.length (by norm_num; omega)]
  rw [decChunks_append esz dec enc vs rest h]
  rw [List.drop_left' (by
    rw [join_length_const esz enc vs (fun v hv => (h v hv).1)] :
    (((vs.map enc).flatten)).length = vs.length * esz)]

/-- FrozenTrie::write (array-aho.cpp:259-299): BOM 0xBABB, then eight
    size-prefixed arrays: the four per-node columns (chars_offset as int32,
    ifailure_state as int32, chars_count as int16, length as unsigned short),
    the chars bytes, the child indices as int32, and the payload keys and
    values as int32. -/
def FrozenTrie.writeBytes (t : FrozenTrie) : List Nat :=
  leBytes 2 47803 ++
  arrBytes encI32 (t.nodes.map (fun n => (n.chars_offset : Int))) ++
  arrBytes encI32 (t.nodes.map (fun n => n.ifailure_state)) ++
  arrBytes encI16 (t.nodes.map (fun n => (n.chars_count : Int))) ++
  arrBytes (leBytes 2) (t.nodes.map (fun n => n.length)) ++
  arrBytes (leBytes 1) t.chars ++
  arrBytes encI32 t.indices ++
  arrBytes encI32 (t.payloads.map Prod.fst) ++
  arrBytes encI32 (t.payloads.map Prod.snd)

/-- The mapped trie (class MappedTrie): eight mapped arrays carved from the
    file in write order. -/
structure MappedTrie where
  nodes_chars_offset : MappedArray Int
  nodes_ifailure_state : MappedArray Int
  nodes_chars_count : MappedArray Int
  nodes_length : MappedArray Nat
  chars : MappedArray Nat
  indices : MappedArray Int
  payload_keys : MappedArray Int
  payload_values : MappedArray Int
  deriving DecidableEq, Repr

/-- The MappedTrie constructor (array-aho.cpp:814-860): check the BOM, carve
    the eight arrays in order, and require the arrays to cover the whole
    file. -/
def parseMapped (bs : List Nat) : Except TrieError MappedTrie :=
  if bs.length < 2 then Except.error TrieError.FormatError
  else if leVal (bs.take 2) ≠ 47803 then Except.error TrieError.FormatError
  else
    let r1 := readArr 4 decI32 (bs.drop 2)
    let r2 := readArr 4 decI32 r1.2
    let r3 := readArr 2 decI16 r2.2
    let r4 := readArr 2 (fun b => leVal b) r3.2
    let r5 := readArr 1 (fun b => leVal b) r4.2
    let r6 := readArr 4 decI32 r5.2
    let r7 := readArr 4 decI32 r6.2
    let r8 := readArr 4 decI32 r7.2
    if r8.2 ≠ [] then Except.error TrieError.FormatError
    else Except.ok
      { nodes_chars_offset := r1.1, nodes_ifailure_state := r2.1,
        nodes_chars_count := r3.1, nodes_length := r4.1,
        chars := r5.1, indices := r6.1,
        payload_keys := r7.1, payload_values := r8.1 }

/-- The representability side conditions under which writing is lossless:
    every value fits the width its column uses. -/
def WriteOk (t : FrozenTrie) : Prop :=
  (∀ n ∈ t.nodes, n.chars_offset < 2147483648 ∧ n.chars_count < 32768 ∧
    n.length < 65536) ∧
  (∀ c ∈ t.chars, c < 256) ∧
  (∀ v ∈ t.indices, -2147483648 ≤ v ∧ v < 2147483648) ∧
  (∀ p ∈ t.payloads, (-2147483648 ≤ p.1 ∧ p.1 < 2147483648) ∧
    (-2147483648 ≤ p.2 ∧ p.2 < 2147483648)) ∧
  t.nodes.length < 18446744073709551616 ∧
  t.chars.length < 18446744073709551616 ∧
  t.indices.length < 18446744073709551616 ∧
  t.payloads.length < 18446744073709551616

theorem decChunks_append_map {α β : Type} (esz : Nat) (dec : List Nat → β)
    (enc : α → List Nat) :
    ∀ (vs : List α) (rest : List Nat),
      (∀ v ∈ vs, (enc v).length = esz) →
      decChunks esz dec vs.length ((vs.map enc).flatten ++ rest) =
        vs.map (fun v => dec (enc v)) := by
  intro vs
  induction vs with
  | nil => intro rest _; rfl
  | cons v vs ih =>
    intro rest h
    have hv := h v (List.mem_cons_self v vs)
    show dec ((((v :: vs).map enc).flatten ++ rest).take esz) ::
      decChunks esz dec vs.length ((((v :: vs).map enc).flatten ++ rest).drop esz) =
      (v :: vs).map (fun v => dec (enc v))
    rw [List.map_cons, List.flatten_cons, List.append_assoc,
      List.take_left' hv, List.drop_left' hv,
      ih rest (fun x hx => h x (List.mem_cons_of_mem v hx))]
    rfl

theorem readArr_spec_map {α β : Type} (esz : Nat) (dec : List Nat → β)
    (enc : α → List Nat) (vs : List α) (rest : List Nat)
    (hn : vs.length < 18446744073709551616)
    (h : ∀ v ∈ vs, (enc v).length = esz) :
    readArr esz dec (arrBytes enc vs ++ rest) =
      ({ data := vs.map (fun v => dec (enc v)), siz := vs.length }, rest) := by
  unfold readArr arrBytes
  rw [List.append_assoc, List.take_left' (leBytes_length 8 vs.length),
    List.drop_left' (leBytes_length 8 vs.length)]
  rw [leVal_leBytes 8 vs.length (by norm_num; omega)]
  rw [decChunks_append_map esz dec enc vs rest h]
  rw [List.drop_left' (by
    rw [join_length_const esz enc vs h] :
    (((vs.map enc).flatten)).length = vs.length * esz)]

/-- Roundtrip of the serialized trie: mapping the written bytes recovers every
    column (the ifailure column passes through the int32 codec; find_anchored
    never reads it). -/
theorem parse_write (t : FrozenTrie) (hok : WriteOk t) :
    parseMapped t.writeBytes = Except.ok
      { nodes_chars_offset :=
          ⟨t.nodes.map (fun n => (n.chars_offset : Int)), t.nodes.length⟩,
        nodes_ifailure_state :=
          ⟨t.nodes.map (fun n => decI32 (encI32 n.ifailure_state)), t.nodes.length⟩,
        nodes_chars_count :=
          ⟨t.nodes.map (fun n => (n.chars_count : Int)), t.nodes.length⟩,
        nodes_length := ⟨t.nodes.map (fun n => n.length), t.nodes.length⟩,
        chars := ⟨t.chars, t.chars.length⟩,
        indices := ⟨t.indices, t.indices.length⟩,
        payload_keys := ⟨t.payloads.map Prod.fst, t.payloads.length⟩,
        payload_values := ⟨t.payloads.map Prod.snd, t.payloads.length⟩ } := by
  obtain ⟨hn, hc, hi, hp, hb1, hb2, hb3, hb4⟩ := hok
  have e1 : ∀ rest, readArr 4 decI32
      (arrBytes encI32 (t.nodes.map (fun n => (n.chars_offset : Int))) ++ rest) =
      ({ data := t.nodes.map (fun n => (n.chars_offset : Int)),
         siz := t.nodes.length }, rest) := by
    intro rest
    rw [readArr_spec_map 4 decI32 encI32 _ rest
      (by rw [List.length_map]; omega)
      (fun v _ => leBytes_length 4 (v % 4294967296).toNat)]
    rw [List.map_map]
    have hdata : t.nodes.map ((fun v => decI32 (encI32 v)) ∘
        (fun n => (n.chars_offset : Int))) =
        t.nodes.map (fun n => (n.chars_offset : Int)) := by
      refine List.map_congr_left ?_
      intro n hn2
      show decI32 (encI32 (n.chars_offset : Int)) = (n.chars_offset : Int)
      exact decI32_encI32 _ (by omega) (by have := (hn n hn2).1; omega)
    rw [hdata, List.length_map]
  have e2 : ∀ rest, readArr 4 decI32
      (arrBytes encI32 (t.nodes.map (fun n => n.ifailure_state)) ++ rest) =
      ({ data := t.nodes.map (fun n => decI32 (encI32 n.ifailure_state)),
         siz := t.nodes.length }, rest) := by
    intro rest
    rw [readArr_spec_map 4 decI32 encI32 _ rest
      (by rw [List.length_map]; omega)
      (fun v _ => leBytes_length 4 (v % 4294967296).toNat)]
    rw [List.map_map, List.length_map]
    rfl
  have e3 : ∀ rest, readArr 2 decI16
      (arrBytes encI16 (t.nodes.map (fun n => (n.chars_count : Int))) ++ rest) =
      ({ data := t.nodes.map (fun n => (n.chars_count : Int)),
         siz := t.nodes.length }, rest) := by
    intro rest
    rw [readArr_spec_map 2 decI16 encI16 _ rest
      (by rw [List.length_map]; omega)
      (fun v _ => leBytes_length 2 (v % 65536).toNat)]
    rw [List.map_map]
    have hdata : t.nodes.map ((fun v => decI16 (encI16 v)) ∘
        (fun n => (n.chars_count : Int))) =
        t.nodes.map (fun n => (n.chars_count : Int)) := by
      refine List.map_congr_left ?_
      intro n hn2
      show decI16 (encI16 (n.chars_count : Int)) = (n.chars_count : Int)
      exact decI16_encI16 _ (by omega) (by have := (hn n hn2).2.1; omega)
    rw [hdata, List.length_map]
  have e4 : ∀ rest, readArr 2 (fun b => leVal b)
      (arrBytes (leBytes 2) (t.nodes.map (fun n => n.length)) ++ rest) =
      ({ data := t.nodes.map (fun n => n.length), siz := t.nodes.length }, rest) := by
    intro rest
    rw [readArr_spec_map 2 (fun b => leVal b) (leBytes 2) _ rest
      (by rw [List.length_map]; omega)
      (fun v _ => leBytes_length 2 v)]
    rw [List.map_map]
    have hdata : t.nodes.map ((fun v => leVal (leBytes 2 v)) ∘
        (fun n => n.length)) = t.nodes.map (fun n => n.length) := by
      refine List.map_congr_left ?_
      intro n hn2
      show leVal (leBytes 2 n.length) = n.length
      exact leVal_leBytes_u16 _ (hn n hn2).2.2
    rw [hdata, List.length_map]
  have e5 : ∀ rest, readArr 1 (fun b => leVal b)
      (arrBytes (leBytes 1) t.chars ++ rest) =
      ({ data := t.chars, siz := t.chars.length }, rest) := by
    intro rest
    rw [readArr_spec_map 1 (fun b => leVal b) (leBytes 1) _ rest (by omega)
      (fun v _ => leBytes_length 1 v)]
    have hdata : t.chars.map (fun v => leVal (leBytes 1 v)) = t.chars := by
      have := List.map_congr_left (l := t.chars)
        (f := fun v => leVal (leBytes 1 v)) (g := id)
        (fun v hv => leVal_leBytes_u8 v (hc v hv))
      rw [this, List.map_id]
    rw [hdata]
  have e6 : ∀ rest, readArr 4 decI32 (arrBytes encI32 t.indices ++ rest) =
      ({ data := t.indices, siz := t.indices.length }, rest) := by
    intro rest
    rw [readArr_spec_map 4 decI32 encI32 _ rest (by omega)
      (fun v _ => leBytes_length 4 (v % 4294967296).toNat)]
    have hdata : t.indices.map (fun v => decI32 (encI32 v)) = t.indices := by
      have := List.map_congr_left (l := t.indices)
        (f := fun v => decI32 (encI32 v)) (g := id)
        (fun v hv => decI32_encI32 v (hi v hv).1 (hi v hv).2)
      rw [this, List.map_id]
    rw [hdata]
  have e7 : ∀ rest, readArr 4 decI32
      (arrBytes encI32 (t.payloads.map Prod.fst) ++ rest) =
      ({ data := t.payloads.map Prod.fst, siz := t.payloads.length }, rest) := by
    intro rest
    rw [readArr_spec_map 4 decI32 encI32 _ rest
      (by rw [List.length_map]; omega)
      (fun v _ => leBytes_length 4 (v % 4294967296).toNat)]
    rw [List.map_map]
    have hdata : t.payloads.map ((fun v => decI32 (encI32 v)) ∘ Prod.fst) =
        t.payloads.map Prod.fst := by
      refine List.map_congr_left ?_
      intro p hp2
      show decI32 (encI32 p.1) = p.1
      exact decI32_encI32 _ (hp p hp2).1.1 (hp p hp2).1.2
    rw [hdata, List.length_map]
  have e8 : ∀ rest, readArr 4 decI32
      (arrBytes encI32 (t.payloads.map Prod.snd) ++ rest) =
      ({ data := t.payloads.map Prod.snd, siz := t.payloads.length }, rest) := by
    intro rest
    rw [readArr_spec_map 4 decI32 encI32 _ rest
      (by rw [List.length_map]; omega)
      (fun v _ => leBytes_length 4 (v % 4294967296).toNat)]
    rw [List.map_map]
    have hdata : t.payloads.map ((fun v => decI32 (encI32 v)) ∘ Prod.snd) =
        t.payloads.map Prod.snd := by
      refine List.map_congr_left ?_
      intro p hp2
      show decI32 (encI32 p.2) = p.2
      exact decI32_encI32 _ (hp p hp2).2.1 (hp p hp2).2.2
    rw [hdata, List.length_map]
  unfold parseMapped FrozenTrie.writeBytes
  simp only [List.append_assoc]
  rw [if_neg (by rw [List.length_append, leBytes_length]; omega)]
  rw [List.take_left' (leBytes_length 2 47803),
    leVal_leBytes 2 47803 (by norm_num)]
  rw [if_neg (fun h => h rfl)]
  rw [List.drop_left' (leBytes_length 2 47803)]
  have e8b : readArr 4 decI32 (arrBytes encI32 (t.payloads.map Prod.snd)) =
      ({ data := t.payloads.map Prod.snd, siz := t.payloads.length }, []) := by
    have h := e8 []
    rw [List.append_nil] at h
    exact h
  simp only [e1, e2, e3, e4, e5, e6, e7, e8, e8b]
  rw [if_neg (fun h => h rfl)]

theorem mapped_get_ok {α : Type} [Inhabited α] (a : MappedArray α) (i : Nat)
    (h : i ≤ a.siz) : a.get i = Except.ok (a.data.getD i default) := by
  unfold MappedArray.get MappedArray.ptrOk
  rw [if_neg (by omega)]
  rfl

theorem ptrOk_ok {α : Type} (a : MappedArray α) (i : Nat) (h : i ≤ a.siz) :
    a.ptrOk i = Except.ok () := by
  unfold MappedArray.ptrOk
  rw [if_neg (by omega)]

/-- std::lower_bound over mapped int32 keys. -/
def lowerBoundIdxZ (l : List Int) (c : Int) : Nat :=
  l.findIdx (fun x => decide (c ≤ x))

theorem lowerBoundIdxZ_cons_le (x : Int) (l : List Int) (c : Int) (h : c ≤ x) :
    lowerBoundIdxZ (x :: l) c = 0 := by
  unfold lowerBoundIdxZ
  rw [List.findIdx_cons (fun y => decide (c ≤ y)) x l, decide_eq_true h]
  rfl

theorem lowerBoundIdxZ_cons_gt (x : Int) (l : List Int) (c : Int) (h : ¬ c ≤ x) :
    lowerBoundIdxZ (x :: l) c = lowerBoundIdxZ l c + 1 := by
  unfold lowerBoundIdxZ
  rw [List.findIdx_cons (fun y => decide (c ≤ y)) x l, decide_eq_false h]
  rfl

/-- The packed lower_bound lookup over (key, value) columns agrees with the
    in-memory find?-style lookup, for int keys (MappedTrie::payload_at versus
    FrozenTrie::payload_at). -/
theorem lookup_eqZ :
    ∀ (P : List (Int × Int)) (i : Int),
      (if lowerBoundIdxZ (P.map Prod.fst) i = (P.map Prod.fst).length ∨
          (P.map Prod.fst).getD (lowerBoundIdxZ (P.map Prod.fst) i) 0 ≠ i
       then (-1 : Int)
       else (P.map Prod.snd).getD (lowerBoundIdxZ (P.map Prod.fst) i) 0) =
      (match P.find? (fun p => decide (i ≤ p.1)) with
       | some p => if p.1 = i then p.2 else -1
       | none => -1) := by
  intro P
  induction P with
  | nil =>
    intro i
    simp [lowerBoundIdxZ]
  | cons ch rest ih =>
    intro i
    by_cases hc : i ≤ ch.1
    · rw [List.map_cons, lowerBoundIdxZ_cons_le ch.1 _ i hc]
      rw [List.find?_cons_of_pos _ (by simpa using hc)]
      by_cases heq : ch.1 = i
      · rw [if_neg (by
          intro hcon
          rcases hcon with h | h
          · simp at h
          · exact h (by simpa using heq))]
        show (ch.2 :: rest.map Prod.snd).getD 0 0 = _
        show ch.2 = _
        rw [show (match some ch with
          | some p => if p.1 = i then p.2 else -1
          | none => (-1 : Int)) = if ch.1 = i then ch.2 else -1 from rfl]
        rw [if_pos heq]
      · rw [if_pos (Or.inr (by simpa using heq))]
        rw [show (match some ch with
          | some p => if p.1 = i then p.2 else -1
          | none => (-1 : Int)) = if ch.1 = i then ch.2 else -1 from rfl]
        rw [if_neg heq]
    · rw [List.map_cons, lowerBoundIdxZ_cons_gt ch.1 _ i hc]
      rw [List.find?_cons_of_neg _ (by simpa using hc)]
      rw [← ih i]
      have hlen : (ch.1 :: rest.map Prod.fst).length = (rest.map Prod.fst).length + 1 := rfl
      by_cases hend : lowerBoundIdxZ (rest.map Prod.fst) i = (rest.map Prod.fst).length
      · rw [if_pos (Or.inl (by rw [hend]; simp)), if_pos (Or.inl hend)]
      · by_cases hne : (rest.map Prod.fst).getD (lowerBoundIdxZ (rest.map Prod.fst) i) 0 ≠ i
        · rw [if_pos (Or.inr (by
            rw [show (ch.1 :: rest.map Prod.fst).getD
              (lowerBoundIdxZ (rest.map Prod.fst) i + 1) 0 =
              (rest.map Prod.fst).getD (lowerBoundIdxZ (rest.map Prod.fst) i) 0 from rfl]
            exact hne))]
          rw [if_pos (Or.inr hne)]
        · rw [if_neg (by
            intro hcon
            rcases hcon with h | h
            · rw [hlen] at h
              omega
            · rw [show (ch.1 :: rest.map Prod.fst).getD
                (lowerBoundIdxZ (rest.map Prod.fst) i + 1) 0 =
                (rest.map Prod.fst).getD (lowerBoundIdxZ (rest.map Prod.fst) i) 0 from rfl] at h
              exact hne h)]
          rw [if_neg (by
            intro hcon
            rcases hcon with h | h
            · exact hend h
            · exact hne h)]
          rfl

/-- MappedTrie::get_node (array-aho.cpp:871-883): negative indices throw,
    otherwise the four node columns are read through checked pointers. -/
def MappedTrie.get_node (m : MappedTrie) (i : Int) : Except TrieError FrozenNode :=
  if i < 0 then Except.error TrieError.NegativeIndex
  else do
    let co ← m.nodes_chars_offset.get i.toNat
    let fa ← m.nodes_ifailure_state.get i.toNat
    let cc ← m.nodes_chars_count.get i.toNat
    let ln ← m.nodes_length.get i.toNat
    pure { chars_offset := co.toNat, ifailure_state := fa,
           chars_count := cc.toNat, length := ln }

/-- MappedTrie::child_index (array-aho.cpp:886-897): lower_bound over the
    node's checked chars window, then the parallel indices entry. -/
def MappedTrie.child_index (m : MappedTrie) (i : Int) (c : Nat) :
    Except TrieError Int := do
  let n ← m.get_node i
  _ ← m.chars.ptrOk n.chars_offset
  _ ← m.chars.ptrOk (n.chars_offset + n.chars_count)
  let slice := (m.chars.data.drop n.chars_offset).take n.chars_count
  if lowerBoundIdx slice c = slice.length ∨
      slice.getD (lowerBoundIdx slice c) 0 ≠ c then pure (-1)
  else m.indices.get (n.chars_offset + lowerBoundIdx slice c)

/-- MappedTrie::child_at (array-aho.cpp:900-908): the root special case on
    top of child_index. -/
def MappedTrie.child_at (m : MappedTrie) (i : Int) (c : Nat) :
    Except TrieError Int := do
  let ichild ← m.child_index i c
  if ichild < 0 ∧ i = 0 then pure 0 else pure ichild

/-- MappedTrie::payload_at (array-aho.cpp:918-928): lower_bound over the
    mapped payload keys, the parallel values entry on a hit. -/
def MappedTrie.payload_at (m : MappedTrie) (i : Int) : Except TrieError Int :=
  if i ≤ 0 then pure (-1)
  else do
    _ ← m.payload_keys.ptrOk 0
    _ ← m.payload_keys.ptrOk m.payload_keys.siz
    if lowerBoundIdxZ m.payload_keys.data i = m.payload_keys.data.length ∨
        m.payload_keys.data.getD (lowerBoundIdxZ m.payload_keys.data i) 0 ≠ i
    then pure (-1)
    else m.payload_values.get (lowerBoundIdxZ m.payload_keys.data i)

/-- The mapped arrays obtained by parsing the written bytes. -/
def mappedOf (t : FrozenTrie) : MappedTrie :=
  { nodes_chars_offset :=
      ⟨t.nodes.map (fun n => (n.chars_offset : Int)), t.nodes.length⟩,
    nodes_ifailure_state :=
      ⟨t.nodes.map (fun n => decI32 (encI32 n.ifailure_state)), t.nodes.length⟩,
    nodes_chars_count :=
      ⟨t.nodes.map (fun n => (n.chars_count : Int)), t.nodes.length⟩,
    nodes_length := ⟨t.nodes.map (fun n => n.length), t.nodes.length⟩,
    chars := ⟨t.chars, t.chars.length⟩,
    indices := ⟨t.indices, t.indices.length⟩,
    payload_keys := ⟨t.payloads.map Prod.fst, t.payloads.length⟩,
    payload_values := ⟨t.payloads.map Prod.snd, t.payloads.length⟩ }

theorem parse_write_mappedOf (t : FrozenTrie) (hok : WriteOk t) :
    parseMapped t.writeBytes = Except.ok (mappedOf t) := parse_write t hok

/-- Reading a node back from the mapped columns: the offset, count, and
    length fields are recovered exactly; the failure link passes through the
    int32 codec (find_anchored never reads it). -/
theorem mappedOf_get_node (t : FrozenTrie) (i : Int) (h0 : 0 ≤ i)
    (hin : i.toNat < t.nodes.length) :
    (mappedOf t).get_node i = Except.ok
      { chars_offset := (t.nodeAt i).chars_offset,
        ifailure_state := decI32 (encI32 (t.nodeAt i).ifailure_state),
        chars_count := (t.nodeAt i).chars_count,
        length := (t.nodeAt i).length } := by
  have hco : ((mappedOf t).nodes_chars_offset).data.getD i.toNat default =
      ((t.nodeAt i).chars_offset : Int) := by
    show (t.nodes.map (fun n => (n.chars_offset : Int))).getD i.toNat default = _
    exact List.getD_map t.nodes default (fun n => (n.chars_offset : Int))
  have hfa : ((mappedOf t).nodes_ifailure_state).data.getD i.toNat default =
      decI32 (encI32 (t.nodeAt i).ifailure_state) := by
    show (t.nodes.map (fun n => decI32 (encI32 n.ifailure_state))).getD i.toNat
      default = _
    exact List.getD_map t.nodes default (fun n => decI32 (encI32 n.ifailure_state))
  have hcc : ((mappedOf t).nodes_chars_count).data.getD i.toNat default =
      ((t.nodeAt i).chars_count : Int) := by
    show (t.nodes.map (fun n => (n.chars_count : Int))).getD i.toNat default = _
    exact List.getD_map t.nodes default (fun n => (n.chars_count : Int))
  have hln : ((mappedOf t).nodes_length).data.getD i.toNat default =
      (t.nodeAt i).length := by
    show (t.nodes.map (fun n => n.length)).getD i.toNat default = _
    exact List.getD_map t.nodes default (fun n => n.length)
  unfold MappedTrie.get_node
  rw [if_neg (by omega)]
  rw [mapped_get_ok ((mappedOf t).nodes_chars_offset) i.toNat
    (by show i.toNat ≤ t.nodes.length; omega)]
  rw [mapped_get_ok ((mappedOf t).nodes_ifailure_state) i.toNat
    (by show i.toNat ≤ t.nodes.length; omega)]
  rw [mapped_get_ok ((mappedOf t).nodes_chars_count) i.toNat
    (by show i.toNat ≤ t.nodes.length; omega)]
  rw [mapped_get_ok ((mappedOf t).nodes_length) i.toNat
    (by show i.toNat ≤ t.nodes.length; omega)]
  rw [hco, hfa, hcc, hln]
  show Except.ok
    ({ chars_offset := (((t.nodeAt i).chars_offset : Int)).toNat,
       ifailure_state := decI32 (encI32 (t.nodeAt i).ifailure_state),
       chars_count := (((t.nodeAt i).chars_count : Int)).toNat,
       length := (t.nodeAt i).length } : FrozenNode) = _
  rw [Int.toNat_natCast, Int.toNat_natCast]

theorem except_bind_ok {α β : Type} (a : α) (f : α → Except TrieError β) :
    (Except.ok a >>= f) = f a := rfl

theorem getD_in_range {α : Type} (l : List α) (j : Nat) (d1 d2 : α)
    (h : j < l.length) : l.getD j d1 = l.getD j d2 := by
  rw [List.getD_eq_getElem l d1 h, List.getD_eq_getElem l d2 h]

/-- Internal consistency of a frozen trie that the mapped reads rely on:
    indices parallel chars, node windows stay inside chars, and child indices
    are in-range node indices. -/
def FrozenValid (t : FrozenTrie) : Prop :=
  t.indices.length = t.chars.length ∧
  (∀ i : Nat, i < t.nodes.length →
    (t.nodes.getD i default).chars_offset +
      (t.nodes.getD i default).chars_count ≤ t.chars.length) ∧
  (∀ v ∈ t.indices, 0 ≤ v ∧ v < (t.nodes.length : Int))

theorem mappedOf_child_index (t : FrozenTrie) (hval : FrozenValid t) (i : Int)
    (h0 : 0 ≤ i) (hin : i.toNat < t.nodes.length) (c : Nat) :
    (mappedOf t).child_index i c = Except.ok (t.rawChildAt i c) := by
  obtain ⟨hlen, hoff, hidx⟩ := hval
  have hb2 : (t.nodeAt i).chars_offset + (t.nodeAt i).chars_count ≤
      t.chars.length := hoff i.toNat hin
  unfold MappedTrie.child_index
  rw [mappedOf_get_node t i h0 hin]
  simp only [except_bind_ok]
  rw [ptrOk_ok ((mappedOf t).chars) ((t.nodeAt i).chars_offset)
    (by show (t.nodeAt i).chars_offset ≤ t.chars.length; omega)]
  simp only [except_bind_ok]
  rw [ptrOk_ok ((mappedOf t).chars)
    ((t.nodeAt i).chars_offset + (t.nodeAt i).chars_count)
    (by show (t.nodeAt i).chars_offset + (t.nodeAt i).chars_count ≤
      t.chars.length; omega)]
  simp only [except_bind_ok]
  have hchars : ((mappedOf t).chars).data = t.chars := rfl
  rw [hchars]
  unfold FrozenTrie.rawChildAt FrozenNode.child_at
  by_cases hcond : lowerBoundIdx
      ((t.chars.drop (t.nodeAt i).chars_offset).take (t.nodeAt i).chars_count) c =
      ((t.chars.drop (t.nodeAt i).chars_offset).take (t.nodeAt i).chars_count).length ∨
      ((t.chars.drop (t.nodeAt i).chars_offset).take
        (t.nodeAt i).chars_count).getD (lowerBoundIdx
        ((t.chars.drop (t.nodeAt i).chars_offset).take (t.nodeAt i).chars_count) c)
        0 ≠ c
  · rw [if_pos hcond, if_pos hcond]
    rfl
  · rw [if_neg hcond, if_neg hcond]
    push_neg at hcond
    have hle : ((t.chars.drop (t.nodeAt i).chars_offset).take
        (t.nodeAt i).chars_count).findIdx (fun x => decide (c ≤ x)) ≤
        ((t.chars.drop (t.nodeAt i).chars_offset).take
          (t.nodeAt i).chars_count).length :=
      List.findIdx_le_length _
    have hjlt : lowerBoundIdx
        ((t.chars.drop (t.nodeAt i).chars_offset).take (t.nodeAt i).chars_count) c <
        ((t.chars.drop (t.nodeAt i).chars_offset).take
          (t.nodeAt i).chars_count).length := by
      have h1 := hcond.1
      unfold lowerBoundIdx at h1 ⊢
      omega
    have hslice : ((t.chars.drop (t.nodeAt i).chars_offset).take
        (t.nodeAt i).chars_count).length ≤ (t.nodeAt i).chars_count := by
      rw [List.length_take]
      omega
    have hidxin : (t.nodeAt i).chars_offset + lowerBoundIdx
        ((t.chars.drop (t.nodeAt i).chars_offset).take (t.nodeAt i).chars_count) c <
        t.indices.length := by
      rw [hlen]
      omega
    rw [mapped_get_ok ((mappedOf t).indices) _ (by
      show _ ≤ t.indices.length
      omega)]
    have hidxdata : ((mappedOf t).indices).data = t.indices := rfl
    rw [hidxdata, getD_in_range t.indices _ default (-1) hidxin]

theorem mappedOf_child_at (t : FrozenTrie) (hval : FrozenValid t) (i : Int)
    (h0 : 0 ≤ i) (hin : i.toNat < t.nodes.length) (c : Nat) :
    (mappedOf t).child_at i c = Except.ok (t.child_at i c) := by
  unfold MappedTrie.child_at FrozenTrie.child_at
  rw [mappedOf_child_index t hval i h0 hin c]
  simp only [except_bind_ok]
  by_cases h : t.rawChildAt i c < 0 ∧ i = 0
  · rw [if_pos h, if_pos h]
    rfl
  · rw [if_neg h, if_neg h]
    rfl

theorem mappedOf_payload_at (t : FrozenTrie) (i : Int) :
    (mappedOf t).payload_at i = Except.ok (t.payload_at i) := by
  unfold MappedTrie.payload_at FrozenTrie.payload_at
  by_cases hle : i ≤ 0
  · rw [if_pos hle, if_pos hle]
    rfl
  · rw [if_neg hle, if_neg hle]
    rw [ptrOk_ok ((mappedOf t).payload_keys) 0 (Nat.zero_le _)]
    simp only [except_bind_ok]
    rw [ptrOk_ok ((mappedOf t).payload_keys) ((mappedOf t).payload_keys).siz
      (le_refl _)]
    simp only [except_bind_ok]
    have hkeys : ((mappedOf t).payload_keys).data = t.payloads.map Prod.fst := rfl
    rw [hkeys]
    rw [show (match t.payloads.find? (fun p => decide (i ≤ p.1)) with
      | some p => if p.1 = i then p.2 else -1
      | none => (-1 : Int)) =
      (if lowerBoundIdxZ (t.payloads.map Prod.fst) i =
          (t.payloads.map Prod.fst).length ∨
          (t.payloads.map Prod.fst).getD
            (lowerBoundIdxZ (t.payloads.map Prod.fst) i) 0 ≠ i
       then (-1 : Int)
       else (t.payloads.map Prod.snd).getD
          (lowerBoundIdxZ (t.payloads.map Prod.fst) i) 0) from (lookup_eqZ _ i).symm]
    by_cases hcond : lowerBoundIdxZ (t.payloads.map Prod.fst) i =
        (t.payloads.map Prod.fst).length ∨
        (t.payloads.map Prod.fst).getD
          (lowerBoundIdxZ (t.payloads.map Prod.fst) i) 0 ≠ i
    · rw [if_pos hcond, if_pos hcond]
      rfl
    · rw [if_neg hcond, if_neg hcond]
      push_neg at hcond
      have hlt : lowerBoundIdxZ (t.payloads.map Prod.fst) i <
          (t.payloads.map Prod.fst).length := by
        have hle2 : (t.payloads.map Prod.fst).findIdx
            (fun x => decide (i ≤ x)) ≤ (t.payloads.map Prod.fst).length :=
          List.findIdx_le_length _
        have h1 := hcond.1
        unfold lowerBoundIdxZ at h1 ⊢
        omega
      rw [mapped_get_ok ((mappedOf t).payload_values) _ (by
        show _ ≤ t.payloads.length
        rw [List.length_map] at hlt
        omega)]
      have hvals : ((mappedOf t).payload_values).data = t.payloads.map Prod.snd := rfl
      rw [hvals]
      rfl

/-- The inner walk of find_anchored_in_trie on the mapped trie: same loop,
    but every trie access is checked. -/
def anchorWalkM (m : MappedTrie) : Int → Nat → List Nat → Option (Nat × Nat × Int) →
    Except TrieError (Option (Nat × Nat × Int))
  | _, _, [], best => pure best
  | istate, pos, c :: rest, best => do
    let j ← m.child_at istate c
    if j < 0 then pure best
    else do
      let n ← m.get_node j
      anchorWalkM m j (pos + 1) rest
        (if n.length ≠ 0 ∧ bestLen best < (n.length : Int)
         then some (n.length, pos + 1, j) else best)

theorem anchorWalkM_cons (m : MappedTrie) (istate : Int) (pos : Nat) (c : Nat)
    (rest : List Nat) (best : Option (Nat × Nat × Int)) :
    anchorWalkM m istate pos (c :: rest) best =
      (m.child_at istate c >>= fun j =>
        if j < 0 then pure best
        else m.get_node j >>= fun n =>
          anchorWalkM m j (pos + 1) rest
            (if n.length ≠ 0 ∧ bestLen best < (n.length : Int)
             then some (n.length, pos + 1, j) else best)) := rfl

theorem anchorWalk_cons (T : AbsTrie) (istate : Int) (pos : Nat) (c : Nat)
    (rest : List Nat) (best : Option (Nat × Nat × Int)) :
    anchorWalk T istate pos (c :: rest) best =
      (if T.child_at istate c < 0 then best
       else anchorWalk T (T.child_at istate c) (pos + 1) rest
         (if (T.get_node (T.child_at istate c)).length ≠ 0 ∧
             bestLen best < ((T.get_node (T.child_at istate c)).length : Int)
          then some ((T.get_node (T.child_at istate c)).length, pos + 1,
            T.child_at istate c)
          else best)) := rfl

/-- With agreeing checked operations, the mapped inner walk returns exactly
    the in-memory walk's result. -/
theorem anchorWalkM_lift (m : MappedTrie) (A : AbsTrie) (N : Nat)
    (HC : ∀ (i : Int) (c : Nat), 0 ≤ i → i.toNat < N →
      m.child_at i c = Except.ok (A.child_at i c))
    (HB : ∀ (i : Int) (c : Nat), 0 ≤ i → i.toNat < N → 0 ≤ A.child_at i c →
      (A.child_at i c).toNat < N)
    (HN : ∀ i : Int, 0 ≤ i → i.toNat < N →
      ∃ n', m.get_node i = Except.ok n' ∧ n'.length = (A.get_node i).length) :
    ∀ (cs : List Nat) (istate : Int) (pos : Nat) (best : Option (Nat × Nat × Int)),
      0 ≤ istate → istate.toNat < N →
      anchorWalkM m istate pos cs best =
        Except.ok (anchorWalk A istate pos cs best) := by
  intro cs
  induction cs with
  | nil =>
    intro istate pos best _ _
    rfl
  | cons c rest ih =>
    intro istate pos best h0 hlt
    rw [anchorWalkM_cons, anchorWalk_cons, HC istate c h0 hlt]
    simp only [except_bind_ok]
    by_cases hj : A.child_at istate c < 0
    · rw [if_pos hj, if_pos hj]
      rfl
    · rw [if_neg hj, if_neg hj]
      obtain ⟨n', hn', hlen⟩ := HN (A.child_at istate c) (by omega)
        (HB istate c h0 hlt (by omega))
      rw [hn']
      simp only [except_bind_ok]
      rw [hlen]
      exact ih (A.child_at istate c) (pos + 1) _ (by omega)
        (HB istate c h0 hlt (by omega))

/-- The outer loop of find_anchored_in_trie on the mapped trie. -/
def findAnchoredGoM (m : MappedTrie) (text : List Nat) (anchor : Nat)
    (s0 e0 : Nat) (start : Nat) (best : Option (Nat × Nat × Int)) :
    Except TrieError (Int × Nat × Nat) :=
  if h : (text.drop start).findIdx (fun x => decide (x = anchor)) =
      (text.drop start).length then
    pure (-1, s0, e0)
  else do
    let r ← anchorWalkM m 0
      (start + (text.drop start).findIdx (fun x => decide (x = anchor)))
      (text.drop
        (start + (text.drop start).findIdx (fun x => decide (x = anchor))))
      best
    match r with
    | some (len, endp, inode) => do
        let p ← m.payload_at inode
        pure (p, endp - len, endp)
    | none =>
      findAnchoredGoM m text anchor s0 e0
        (start + (text.drop start).findIdx (fun x => decide (x = anchor)) + 1) none
termination_by text.length - start
decreasing_by
  have h1 : (text.drop start).findIdx (fun x => decide (x = anchor)) ≤
      (text.drop start).length := List.findIdx_le_length _
  rw [List.length_drop] at h1 h
  omega

/-- MappedTrie::find_anchored. -/
def MappedTrie.find_anchored (m : MappedTrie) (text : List Nat) (anchor : Nat)
    (s0 e0 : Nat) : Except TrieError (Int × Nat × Nat) :=
  findAnchoredGoM m text anchor s0 e0 s0 none

/-- With agreeing checked operations the mapped find_anchored returns the
    in-memory result. -/
theorem findAnchoredGoM_lift (m : MappedTrie) (A : AbsTrie) (N : Nat)
    (HC : ∀ (i : Int) (c : Nat), 0 ≤ i → i.toNat < N →
      m.child_at i c = Except.ok (A.child_at i c))
    (HB : ∀ (i : Int) (c : Nat), 0 ≤ i → i.toNat < N → 0 ≤ A.child_at i c →
      (A.child_at i c).toNat < N)
    (HN : ∀ i : Int, 0 ≤ i → i.toNat < N →
      ∃ n', m.get_node i = Except.ok n' ∧ n'.length = (A.get_node i).length)
    (HP : ∀ i : Int, m.payload_at i = Except.ok (A.payload_at i))
    (H0 : 0 < N) (text : List Nat) (anchor : Nat) (s0 e0 : Nat) :
    ∀ (n start : Nat) (best : Option (Nat × Nat × Int)),
      text.length - start ≤ n →
      findAnchoredGoM m text anchor s0 e0 start best =
        Except.ok (findAnchoredGo A text anchor s0 e0 start best) := by
  intro n
  induction n with
  | zero =>
    intro start best hle
    have hdrop : text.drop start = [] := List.drop_eq_nil_of_le (by omega)
    rw [findAnchoredGoM, findAnchoredGo]
    rw [dif_pos (by rw [hdrop]; rfl), dif_pos (by rw [hdrop]; rfl)]
    rfl
  | succ n ih =>
    intro start best hle
    rw [findAnchoredGoM, findAnchoredGo]
    by_cases hend : (text.drop start).findIdx (fun x => decide (x = anchor)) =
        (text.drop start).length
    · rw [dif_pos hend, dif_pos hend]
      rfl
    · rw [dif_neg hend, dif_neg hend]
      rw [anchorWalkM_lift m A N HC HB HN _ 0 _ best (le_refl 0) (by omega)]
      simp only [except_bind_ok]
      cases hr : anchorWalk A 0
          (start + (text.drop start).findIdx (fun x => decide (x = anchor)))
          (text.drop
            (start + (text.drop start).findIdx (fun x => decide (x = anchor))))
          best with
      | none =>
        have hle2 : (text.drop start).findIdx (fun x => decide (x = anchor)) ≤
            (text.drop start).length := List.findIdx_le_length _
        rw [List.length_drop] at hle2 hend
        exact ih _ none (by omega)
      | some r =>
        rcases r with ⟨len, endp, inode⟩
        show (m.payload_at inode >>= fun p => pure (p, endp - len, endp)) =
          Except.ok (A.payload_at inode, endp - len, endp)
        rw [HP inode]
        rfl

/-- The findall driver over a checked single-match function (AhoIterator with
    the mapped backend). -/
def findallGoM (f : Nat → Nat → Except TrieError (Int × Nat × Nat)) :
    Nat → Nat → Except TrieError (List (Nat × Nat × Int))
  | 0, _ => pure []
  | fuel + 1, cur => do
    let r ← f cur cur
    if r.2.1 < r.2.2 then do
      let rest ← findallGoM f fuel r.2.2
      pure ((r.2.1, r.2.2, r.1) :: rest)
    else pure []

def MappedTrie.findall_anchored (m : MappedTrie) (text : List Nat)
    (anchor : Nat) : Except TrieError (List (Nat × Nat × Int)) :=
  findallGoM (fun s e => m.find_anchored text anchor s e) (text.length + 1) 0

theorem findallGoM_lift (f : Nat → Nat → Except TrieError (Int × Nat × Nat))
    (g : Nat → Nat → Int × Nat × Nat)
    (hfg : ∀ s e, f s e = Except.ok (g s e)) :
    ∀ (fuel cur : Nat), findallGoM f fuel cur = Except.ok (findallGo g fuel cur) := by
  intro fuel
  induction fuel with
  | zero => intro cur; rfl
  | succ fuel ih =>
    intro cur
    show (f cur cur >>= fun r =>
      if r.2.1 < r.2.2 then
        findallGoM f fuel r.2.2 >>= fun rest => pure ((r.2.1, r.2.2, r.1) :: rest)
      else pure []) = _
    rw [hfg cur cur]
    simp only [except_bind_ok]
    rw [findallGo_succ]
    by_cases hlt : (g cur cur).2.1 < (g cur cur).2.2
    · rw [if_pos hlt, if_pos hlt, ih ((g cur cur).2.2)]
      rfl
    · rw [if_neg hlt, if_neg hlt]
      rfl

theorem mem_getD {α : Type} [Inhabited α] (l : List α) (n : α) (h : n ∈ l) :
    ∃ i : Nat, i < l.length ∧ l.getD i default = n := by
  obtain ⟨i, hlt, hget⟩ := List.mem_iff_getElem.mp h
  refine ⟨i, hlt, ?_⟩
  rw [List.getD_eq_getElem?_getD, List.getElem?_eq_getElem hlt]
  exact hget

theorem countsBefore_succ :
    ∀ (ns : List BNode) (i : Nat), i < ns.length →
      countsBefore ns (i + 1) =
        countsBefore ns i + (ns.getD i default).children.length := by
  intro ns
  induction ns with
  | nil =>
    intro i h
    simp at h
  | cons n rest ih =>
    intro i h
    cases i with
    | zero =>
      rw [countsBefore_cons, countsBefore_zero, countsBefore_zero]
      show n.children.length + 0 = 0 + n.children.length
      omega
    | succ i =>
      rw [countsBefore_cons, countsBefore_cons, ih i (by simp at h; omega)]
      rw [show ((n :: rest).getD (i + 1) default) = rest.getD i default from rfl]
      omega

theorem countsBefore_le (ns : List BNode) :
    ∀ (i j : Nat), i ≤ j → countsBefore ns i ≤ countsBefore ns j := by
  have step : ∀ k : Nat, countsBefore ns k ≤ countsBefore ns (k + 1) := by
    intro k
    by_cases h : k < ns.length
    · rw [countsBefore_succ ns k h]
      omega
    · unfold countsBefore
      rw [List.take_of_length_le (by omega), List.take_of_length_le (by omega)]
  intro i j hij
  induction j with
  | zero =>
    have : i = 0 := by omega
    subst this
    exact le_refl _
  | succ j ihj =>
    by_cases hj : i = j + 1
    · subst hj
      exact le_refl _
    · exact le_trans (ihj (by omega)) (step j)

theorem fzChars_mem :
    ∀ (ns : List BNode) (b : Nat), b ∈ fzChars ns →
      ∃ n ∈ ns, ∃ ch ∈ n.children, ch.1 = b := by
  intro ns
  induction ns with
  | nil =>
    intro b hb
    simp [fzChars] at hb
  | cons n rest ih =>
    intro b hb
    rcases List.mem_append.mp hb with h | h
    · rcases List.mem_map.mp h with ⟨ch, hch, rfl⟩
      exact ⟨n, List.mem_cons_self n rest, ch, hch, rfl⟩
    · rcases ih b h with ⟨n', hn', ch, hch, he⟩
      exact ⟨n', List.mem_cons_of_mem n hn', ch, hch, he⟩

theorem fzIndices_mem :
    ∀ (ns : List BNode) (v : Int), v ∈ fzIndices ns →
      ∃ n ∈ ns, ∃ ch ∈ n.children, ch.2 = v := by
  intro ns
  induction ns with
  | nil =>
    intro v hv
    simp [fzIndices] at hv
  | cons n rest ih =>
    intro v hv
    rcases List.mem_append.mp hv with h | h
    · rcases List.mem_map.mp h with ⟨ch, hch, rfl⟩
      exact ⟨n, List.mem_cons_self n rest, ch, hch, rfl⟩
    · rcases ih v h with ⟨n', hn', ch, hch, he⟩
      exact ⟨n', List.mem_cons_of_mem n hn', ch, hch, he⟩

theorem fzPayloads_mem :
    ∀ (ns : List BNode) (ni : Nat) (p : Int × Int), p ∈ fzPayloads ns ni →
      0 ≤ p.2 ∧ ∃ n ∈ ns, p.2 = n.payload := by
  intro ns
  induction ns with
  | nil =>
    intro ni p hp
    simp [fzPayloads] at hp
  | cons n rest ih =>
    intro ni p hp
    rw [fzPayloads_cons] at hp
    rcases List.mem_append.mp hp with h | h
    · by_cases hpay : 0 ≤ n.payload
      · rw [if_pos hpay] at h
        have he : p = ((ni : Int), n.payload) := by simpa using h
        subst he
        exact ⟨hpay, n, List.mem_cons_self n rest, rfl⟩
      · rw [if_neg hpay] at h
        simp at h
    · rcases ih (ni + 1) p h with ⟨h1, n', hn', he⟩
      exact ⟨h1, n', List.mem_cons_of_mem n hn', he⟩

theorem fzPayloads_len_le :
    ∀ (ns : List BNode) (ni : Nat), (fzPayloads ns ni).length ≤ ns.length := by
  intro ns
  induction ns with
  | nil => intro ni; exact le_refl _
  | cons n rest ih =>
    intro ni
    rw [fzPayloads_cons, List.length_append]
    have := ih (ni + 1)
    by_cases hp : 0 ≤ n.payload
    · rw [if_pos hp]
      simp only [List.length_singleton, List.length_cons, List.length_nil]
      omega
    · rw [if_neg hp]
      show ([] : List (Int × Int)).length + (fzPayloads rest (ni + 1)).length ≤
        rest.length + 1
      simp only [List.length_nil]
      omega

/-- add_string keeps every stored key length within unsigned short and every
    stored payload either absent (-1) or within int32, given an int32 input
    payload. -/
theorem add_string_bounds (T : AhoCorasickTrie) (S : List (List Nat × Int))
    (k : List Nat) (p : Int) (T' : AhoCorasickTrie)
    (hinv : BuildInv T.nodes T.lengths S) (hfr : T.frozen = none)
    (hb : ∀ b ∈ k, b < 256)
    (hadd : T.add_string k p = Except.ok T')
    (hLb : ∀ v ∈ T.lengths, v < 65536)
    (hPb : ∀ j : Nat, (T.nodes.getD j default).payload = -1 ∨
      (-2147483648 ≤ (T.nodes.getD j default).payload ∧
       (T.nodes.getD j default).payload < 2147483648))
    (hp : -2147483648 ≤ p ∧ p < 2147483648) :
    (∀ v ∈ T'.lengths, v < 65536) ∧
    (∀ j : Nat, (T'.nodes.getD j default).payload = -1 ∨
      (-2147483648 ≤ (T'.nodes.getD j default).payload ∧
       (T'.nodes.getD j default).payload < 2147483648)) := by
  obtain ⟨⟨r1, rls, t⟩, hrdef⟩ : ∃ x, addChain T.nodes T.lengths 0 0 k = x :=
    ⟨_, rfl⟩
  unfold AhoCorasickTrie.add_string at hadd
  rw [if_neg (by rw [hfr]; simp)] at hadd
  rw [hrdef] at hadd
  injection hadd with hT'
  have hN : T'.nodes =
      r1.set t.toNat { r1.getD t.toNat default with payload := p } := by
    rw [← hT']
  have hL2 : T'.lengths = rls.set t.toNat (k.length % 65536) := by
    rw [← hT']
  have hspec := addChain_spec k T.nodes T.lengths 0 r1 rls t hrdef hinv.1
    (le_refl 0) (by have := hinv.2.1; omega) hb
  obtain ⟨jSt, jLe, jLs, jPayOld, jPayFresh, jFrame, jEdge, jWalk,
    jT0, jTlt, jLand⟩ := hspec
  constructor
  · intro v hv
    rw [hL2] at hv
    rcases List.mem_or_eq_of_mem_set hv with h | h
    · rw [jLs] at h
      rcases List.mem_append.mp h with h2 | h2
      · exact hLb v h2
      · have := List.eq_of_mem_replicate h2
        omega
    · omega
  · intro j
    rw [hN]
    by_cases hj : j = t.toNat
    · subst hj
      have hr : t.toNat < r1.length := by omega
      rw [getD_set_self _ _ _ _ hr]
      exact Or.inr hp
    · rw [getD_set_ne _ _ _ _ _ (fun h => hj h.symm)]
      by_cases hold : j < T.nodes.length
      · rw [jPayOld j hold]
        exact hPb j
      · rw [jPayFresh j (by omega)]
        exact Or.inl rfl

theorem buildFrom_bounds :
    ∀ (S2 : List (List Nat × Int)) (T0 : AhoCorasickTrie)
      (S1 : List (List Nat × Int)),
      BuildInv T0.nodes T0.lengths S1 → T0.frozen = none →
      (∀ e ∈ S2, e.1 ≠ [] ∧ ∀ b ∈ e.1, b < 256) →
      (∀ e ∈ S2, -2147483648 ≤ e.2 ∧ e.2 < 2147483648) →
      (∀ v ∈ T0.lengths, v < 65536) →
      (∀ j : Nat, (T0.nodes.getD j default).payload = -1 ∨
        (-2147483648 ≤ (T0.nodes.getD j default).payload ∧
         (T0.nodes.getD j default).payload < 2147483648)) →
      ∀ T, S2.foldlM (fun T e => NoAho.add T e.1 e.2) T0 = Except.ok T →
      (∀ v ∈ T.lengths, v < 65536) ∧
      (∀ j : Nat, (T.nodes.getD j default).payload = -1 ∨
        (-2147483648 ≤ (T.nodes.getD j default).payload ∧
         (T.nodes.getD j default).payload < 2147483648)) := by
  intro S2
  induction S2 with
  | nil =>
    intro T0 S1 hinv hfr hcond hpay hLb hPb T hfold
    replace hfold : Except.ok T0 = Except.ok T := hfold
    injection hfold with h
    subst h
    exact ⟨hLb, hPb⟩
  | cons e S2 ih =>
    intro T0 S1 hinv hfr hcond hpay hLb hPb T hfold
    rw [List.foldlM_cons] at hfold
    cases hadd : NoAho.add T0 e.1 e.2 with
    | error err =>
      rw [hadd] at hfold
      exact Except.noConfusion hfold
    | ok T1 =>
      rw [hadd] at hfold
      replace hfold : S2.foldlM (fun T e => NoAho.add T e.1 e.2) T1 =
        Except.ok T := hfold
      have hc := hcond e (List.mem_cons_self e S2)
      have hadd' : T0.add_string e.1 e.2 = Except.ok T1 := by
        unfold NoAho.add at hadd
        rw [if_neg (by rw [List.length_eq_zero]; exact hc.1)] at hadd
        exact hadd
      have hinv1 := add_string_inv T0 S1 e.1 e.2 T1 hinv hfr hc.2 hadd'
      have hb1 := add_string_bounds T0 S1 e.1 e.2 T1 hinv hfr hc.2 hadd' hLb hPb
        (hpay e (List.mem_cons_self e S2))
      exact ih T1 (S1 ++ [(e.1, e.2)]) hinv1.1 hinv1.2
        (fun x hx => hcond x (List.mem_cons_of_mem e hx))
        (fun x hx => hpay x (List.mem_cons_of_mem e hx))
        hb1.1 hb1.2 T hfold

/-- The frozen arrays produced by compile are internally consistent: parallel
    chars/indices arrays, node windows inside the chars array, and all packed
    child indices in range. -/
theorem freezeOf_valid (T : AhoCorasickTrie) (S : List (List Nat × Int))
    (hinv : BuildInv T.nodes T.lengths S) :
    FrozenValid (freezeOf T) := by
  obtain ⟨hproj, hlenMFL, _⟩ := make_failure_links_projB T
  obtain ⟨hlen, hchild, hpay⟩ := projB_eq_getD _ _ hproj
  have hst : StInv T.make_failure_links.nodes :=
    StInv_congr T.nodes T.make_failure_links.nodes hlen.symm
      (fun j => (hchild j).symm) hinv.1
  refine ⟨?_, ?_, ?_⟩
  · show (fzIndices T.make_failure_links.nodes).length =
      (fzChars T.make_failure_links.nodes).length
    rw [fzIndices_length, fzChars_length]
  · intro i hi
    replace hi : i < (fzNodes T.make_failure_links.nodes T.lengths 0).length := hi
    rw [fzNodes_length] at hi
    show ((fzNodes T.make_failure_links.nodes T.lengths 0).getD i
        default).chars_offset +
      ((fzNodes T.make_failure_links.nodes T.lengths 0).getD i
        default).chars_count ≤ (fzChars T.make_failure_links.nodes).length
    rw [fzNodes_getD T.make_failure_links.nodes T.lengths 0 i hi]
    show 0 + countsBefore T.make_failure_links.nodes i +
      (T.make_failure_links.nodes.getD i default).children.length ≤ _
    rw [fzChars_length]
    have hsucc := countsBefore_succ T.make_failure_links.nodes i hi
    have hle := countsBefore_le T.make_failure_links.nodes (i + 1)
      T.make_failure_links.nodes.length (by omega)
    omega
  · intro v hv
    rcases fzIndices_mem T.make_failure_links.nodes v hv with ⟨n, hn, ch, hch, he⟩
    obtain ⟨j, hj, hget⟩ := mem_getD _ n hn
    rw [← hget] at hch
    have hedge := hst.2.1 j ch hch
    show 0 ≤ v ∧ v < ((fzNodes T.make_failure_links.nodes T.lengths 0).length : Int)
    rw [fzNodes_length]
    constructor
    · omega
    · rw [← he]; exact hedge.2.2

/-- A valid frozen trie never walks out of its node array: a non-negative
    child_at result is a real node index. -/
theorem frozen_child_range (t : FrozenTrie) (hval : FrozenValid t)
    (h0 : 0 < t.nodes.length) (i : Int) (c : Nat)
    (hc : 0 ≤ t.child_at i c) :
    (t.child_at i c).toNat < t.nodes.length := by
  unfold FrozenTrie.child_at
  by_cases h : t.rawChildAt i c < 0 ∧ i = 0
  · rw [if_pos h]
    simpa using h0
  · rw [if_neg h]
    have hmem : t.rawChildAt i c ∈ t.indices := by
      unfold FrozenTrie.child_at at hc
      rw [if_neg h] at hc
      unfold FrozenTrie.rawChildAt FrozenNode.child_at at hc ⊢
      set sl := ((t.chars.drop (t.nodeAt i).chars_offset).take
        (t.nodeAt i).chars_count) with hsl
      by_cases hif : lowerBoundIdx sl c = sl.length ∨
          sl.getD (lowerBoundIdx sl c) 0 ≠ c
      · rw [if_pos hif] at hc
        omega
      · rw [if_neg hif] at hc ⊢
        set k := (t.nodeAt i).chars_offset + lowerBoundIdx sl c with hk
        by_cases hkl : k < t.indices.length
        · rw [List.getD_eq_getElem t.indices (-1) hkl]
          exact List.getElem_mem hkl
        · rw [List.getD_eq_default t.indices (-1) (by omega)] at hc
          omega
    have := hval.2.2 _ hmem
    unfold FrozenTrie.child_at at hc
    rw [if_neg h] at hc
    omega

/-- Every field of the frozen trie built from an in-range key set fits the
    fixed-width column it is serialized into. -/
theorem freezeOf_writeok (T : AhoCorasickTrie) (S : List (List Nat × Int))
    (hinv : BuildInv T.nodes T.lengths S)
    (hLb : ∀ v ∈ T.lengths, v < 65536)
    (hPb : ∀ j : Nat, (T.nodes.getD j default).payload = -1 ∨
      (-2147483648 ≤ (T.nodes.getD j default).payload ∧
       (T.nodes.getD j default).payload < 2147483648))
    (hszC : (freezeOf T).chars.length < 2147483648)
    (hszN : (freezeOf T).nodes.length < 2147483648) :
    WriteOk (freezeOf T) := by
  obtain ⟨hproj, hlenMFL, _⟩ := make_failure_links_projB T
  obtain ⟨hlen, hchild, hpay⟩ := projB_eq_getD _ _ hproj
  have hst : StInv T.make_failure_links.nodes :=
    StInv_congr T.nodes T.make_failure_links.nodes hlen.symm
      (fun j => (hchild j).symm) hinv.1
  have hval := freezeOf_valid T S hinv
  replace hszC : (fzChars T.make_failure_links.nodes).length < 2147483648 := hszC
  replace hszN :
      (fzNodes T.make_failure_links.nodes T.lengths 0).length < 2147483648 := hszN
  rw [fzNodes_length] at hszN
  refine ⟨?_, ?_, ?_, ?_, ?_, ?_, ?_, ?_⟩
  · intro n hn
    replace hn : n ∈ fzNodes T.make_failure_links.nodes T.lengths 0 := hn
    obtain ⟨i, hi, hget⟩ := mem_getD _ n hn
    rw [fzNodes_length] at hi
    rw [fzNodes_getD T.make_failure_links.nodes T.lengths 0 i hi] at hget
    rw [← hget]
    refine ⟨?_, ?_, ?_⟩
    · show 0 + countsBefore T.make_failure_links.nodes i < 2147483648
      have hle := countsBefore_le T.make_failure_links.nodes i
        T.make_failure_links.nodes.length (by omega)
      have hcl := fzChars_length T.make_failure_links.nodes
      omega
    · show (T.make_failure_links.nodes.getD i default).children.length < 32768
      have hmem : T.make_failure_links.nodes.getD i default ∈
          T.make_failure_links.nodes := by
        rw [List.getD_eq_getElem _ _ hi]
        exact List.getElem_mem hi
      have := stinv_children_le T.make_failure_links.nodes hst _ hmem
      omega
    · show T.lengths.getD i 0 < 65536
      by_cases hil : i < T.lengths.length
      · have hmem : T.lengths.getD i 0 ∈ T.lengths := by
          rw [List.getD_eq_getElem _ _ hil]
          exact List.getElem_mem hil
        exact hLb _ hmem
      · rw [List.getD_eq_default _ _ (by omega)]
        omega
  · intro c hc
    replace hc : c ∈ fzChars T.make_failure_links.nodes := hc
    rcases fzChars_mem T.make_failure_links.nodes c hc with ⟨n, hn, ch, hch, he⟩
    obtain ⟨j, hj, hget⟩ := mem_getD _ n hn
    rw [← hget] at hch
    rw [← he]
    exact (hst.2.1 j ch hch).1
  · intro v hv
    have hrange := hval.2.2 v hv
    replace hrange : 0 ≤ v ∧
        v < ((fzNodes T.make_failure_links.nodes T.lengths 0).length : Int) :=
      hrange
    rw [fzNodes_length] at hrange
    omega
  · intro p hp
    replace hp : p ∈ fzPayloads T.make_failure_links.nodes 0 := hp
    have hkey := fzPayloads_key_ge T.make_failure_links.nodes 0 p hp
    obtain ⟨hp2, n, hn, hpe⟩ := fzPayloads_mem T.make_failure_links.nodes 0 p hp
    obtain ⟨j, hj, hget⟩ := mem_getD _ n hn
    have hpv : p.2 = (T.nodes.getD j default).payload := by
      rw [hpe, ← hget, hpay j]
    have := hPb j
    constructor
    · constructor
      · omega
      · have := hkey.2
        omega
    · omega
  · show (fzNodes T.make_failure_links.nodes T.lengths 0).length <
      18446744073709551616
    rw [fzNodes_length]
    omega
  · show (fzChars T.make_failure_links.nodes).length < 18446744073709551616
    omega
  · show (fzIndices T.make_failure_links.nodes).length < 18446744073709551616
    rw [fzIndices_length]
    have := fzChars_length T.make_failure_links.nodes
    omega
  · show (fzPayloads T.make_failure_links.nodes 0).length < 18446744073709551616
    have := fzPayloads_len_le T.make_failure_links.nodes 0
    omega

/-- C3: for every set of (key, payload) pairs whose keys are nonempty byte
    strings (bytes < 256, length below 65536) and whose payloads fit a signed
    32-bit integer, building the trie, compiling it, serializing the frozen
    trie with write, and re-reading the bytes as a MappedTrie succeeds, and
    findall_anchored on the mapped trie yields exactly the same (start, end,
    payload) triples as findall_anchored on the in-memory frozen trie, for
    every text and anchor (array sizes within int32, as the serialized
    offset columns require). -/
theorem roundtrip_findall_anchored (S : List (List Nat × Int))
    (T Tc : AhoCorasickTrie) (F : FrozenTrie)
    (hcond : ∀ e ∈ S, e.1 ≠ [] ∧ (∀ b ∈ e.1, b < 256) ∧ e.1.length < 65536)
    (hpayr : ∀ e ∈ S, -2147483648 ≤ e.2 ∧ e.2 < 2147483648)
    (hbuild : buildFrom S = Except.ok T)
    (hcomp : T.compile = some Tc)
    (hfrz : Tc.frozen = some F)
    (hszN : F.nodes.length < 2147483648)
    (hszC : F.chars.length < 2147483648) :
    ∃ m : MappedTrie, parseMapped F.writeBytes = Except.ok m ∧
      ∀ (text : List Nat) (anchor : Nat),
        m.findall_anchored text anchor =
          Except.ok (F.toAbs.findall_anchored text anchor) := by
  have hcond2 : ∀ e ∈ S, e.1 ≠ [] ∧ ∀ b ∈ e.1, b < 256 :=
    fun e he => ⟨(hcond e he).1, (hcond e he).2.1⟩
  have hfold : S.foldlM (fun T e => NoAho.add T e.1 e.2) emptyTrie =
      Except.ok T := hbuild
  obtain ⟨T', hT', hinv', hfr'⟩ := buildFrom_go S emptyTrie [] inv_empty rfl hcond2
  rw [hfold] at hT'
  injection hT' with h
  subst h
  simp only [List.nil_append] at hinv'
  have hL0 : ∀ v ∈ emptyTrie.lengths, v < 65536 := by decide
  have hP0 : ∀ j : Nat, (emptyTrie.nodes.getD j default).payload = -1 ∨
      (-2147483648 ≤ (emptyTrie.nodes.getD j default).payload ∧
       (emptyTrie.nodes.getD j default).payload < 2147483648) := by
    intro j
    left
    cases j with
    | zero => rfl
    | succ j =>
      rw [List.getD_eq_default _ _ (by simp [emptyTrie])]
      rfl
  obtain ⟨hLb, hPb⟩ :=
    buildFrom_bounds S emptyTrie [] inv_empty rfl hcond2 hpayr hL0 hP0 T hfold
  have hcf := compile_frozen T S hinv' hfr'
  rw [hcf] at hcomp
  injection hcomp with hTc
  subst hTc
  replace hfrz : some (freezeOf T) = some F := hfrz
  injection hfrz with hF
  subst hF
  have hval := freezeOf_valid T S hinv'
  have hwok := freezeOf_writeok T S hinv' hLb hPb hszC hszN
  refine ⟨mappedOf (freezeOf T), parse_write_mappedOf _ hwok, ?_⟩
  intro text anchor
  have hN0 : 0 < (freezeOf T).nodes.length := by
    show 0 < (fzNodes T.make_failure_links.nodes T.lengths 0).length
    rw [fzNodes_length]
    have h1 := (projB_eq_getD _ _ (make_failure_links_projB T).1).1
    have h2 := hinv'.2.1
    omega
  have HC : ∀ (i : Int) (c : Nat), 0 ≤ i → i.toNat < (freezeOf T).nodes.length →
      (mappedOf (freezeOf T)).child_at i c =
        Except.ok (((freezeOf T).toAbs).child_at i c) :=
    fun i c h0 hin => mappedOf_child_at (freezeOf T) hval i h0 hin c
  have HB : ∀ (i : Int) (c : Nat), 0 ≤ i → i.toNat < (freezeOf T).nodes.length →
      0 ≤ ((freezeOf T).toAbs).child_at i c →
      (((freezeOf T).toAbs).child_at i c).toNat < (freezeOf T).nodes.length :=
    fun i c _ _ hpos => frozen_child_range (freezeOf T) hval hN0 i c hpos
  have HN : ∀ i : Int, 0 ≤ i → i.toNat < (freezeOf T).nodes.length →
      ∃ n', (mappedOf (freezeOf T)).get_node i = Except.ok n' ∧
        n'.length = (((freezeOf T).toAbs).get_node i).length :=
    fun i h0 hin => ⟨_, mappedOf_get_node (freezeOf T) i h0 hin, rfl⟩
  have HP : ∀ i : Int, (mappedOf (freezeOf T)).payload_at i =
      Except.ok (((freezeOf T).toAbs).payload_at i) :=
    fun i => mappedOf_payload_at (freezeOf T) i
  have hfg : ∀ s e, (mappedOf (freezeOf T)).find_anchored text anchor s e =
      Except.ok (((freezeOf T).toAbs).find_anchored text anchor s e) := by
    intro s e
    exact findAnchoredGoM_lift (mappedOf (freezeOf T)) ((freezeOf T).toAbs)
      (freezeOf T).nodes.length HC HB HN HP hN0 text anchor s e text.length s
      none (by omega)
  exact findallGoM_lift _ _ hfg (text.length + 1) 0

theorem roundtrip_findall_anchored_witness :
    ∃ (T Tc : AhoCorasickTrie) (F : FrozenTrie) (m : MappedTrie),
      buildFrom [([98], 5)] = Except.ok T ∧ T.compile = some Tc ∧
      Tc.frozen = some F ∧ parseMapped F.writeBytes = Except.ok m ∧
      m.findall_anchored [98, 97, 98] 0 =
        Except.ok (F.toAbs.findall_anchored [98, 97, 98] 0) := by
  obtain ⟨m, hm, hall⟩ := roundtrip_findall_anchored [([98], 5)] _ _ _
    (by decide) (by decide) rfl rfl rfl (by decide) (by decide)
  exact ⟨_, _, _, m, rfl, rfl, rfl, hm, hall [98, 97, 98] 0⟩
